import Mathlib

/-!
# streamregex: a windowed stream cursor for regular-expression matching

Shallow embedding of `pkg/streamregex/regexreader.go` (the `RegexReader`) and of
`pkg/streamregex/regexwriter.go` (the `RegexWriter`) together with the parts of the Go standard
library they call (`unicode/utf8`, `copy`, slicing, `io.Reader`, `io.Pipe`).

Conventions of the embedding:

* Go `int` values are `Int` (ideal integers; the cursor positions stay far below `2^63`).
* A byte is a natural number below 256; a slice whose length equals its capacity is a `List`.
* A Go call either returns or aborts the program (`panic` or a runtime fault).  This is the
  `Except Abort` monad; `Abort.fuel` says that the step budget of a bounded loop ran out,
  that is, that the Go loop is still running.
* The byte source `rd` is a script of read results; the matching engine behind
  `pattern.FindReaderIndex` is a parameter, driven only through `ReadRune`.
* The pipe of a `RegexWriter` is the script of its reader: every write is one read result.
-/

namespace Streamregex

/-! ## Basic types -/

/-- A byte of the stream (a value below 256). -/
abbrev Byte := Nat

/-- A Go `rune`. -/
abbrev Rune := Nat

/-- Go `error` values that occur in the package. -/
inductive Error where
  /-- The value `io.EOF`. -/
  | EOF
  /-- The value `io.ErrNoProgress`. -/
  | ErrNoProgress
  /-- The value `io.ErrClosedPipe`. -/
  | ErrClosedPipe
  /-- The error made by `resetReaderTo` ("negative read position"), with the position. -/
  | negativeReadPosition (r : Int)
  /-- Any other error value a source hands out. -/
  | source (code : Nat)
deriving DecidableEq, Repr

/-- Ways in which a Go call does not return. -/
inductive Abort where
  /-- Runtime fault: slice bounds out of range. -/
  | sliceBounds
  /-- Runtime fault: `make` with a negative length. -/
  | makeNegative
  /-- The explicit panic "tried to fill full buffer". -/
  | fillFullBuffer
  /-- The explicit panic "Out of bounds match". -/
  | outOfBoundsMatch
  /-- The step budget of a bounded loop of the model ran out. -/
  | fuel
deriving DecidableEq, Repr

-- Outcomes of Go calls are compared by value.
deriving instance DecidableEq for Except

/-! ## Go slices and `copy` -/

/-- The slice expression `s[lo:hi]` on a slice whose capacity equals its length. -/
def slice (s : List Byte) (lo hi : Int) : Except Abort (List Byte) :=
  if 0 ≤ lo ∧ lo ≤ hi ∧ hi ≤ s.length then
    .ok ((s.drop lo.toNat).take (hi - lo).toNat)
  else
    .error Abort.sliceBounds

/-- The slice expression `s[lo:]`. -/
def sliceFrom (s : List Byte) (lo : Int) : Except Abort (List Byte) :=
  slice s lo s.length

/-- The slice expression `s[:hi]`. -/
def sliceTo (s : List Byte) (hi : Int) : Except Abort (List Byte) :=
  slice s 0 hi

/-- The builtin `copy(dst, src)`: the contents of `dst` afterwards. -/
def goCopy (dst src : List Byte) : List Byte :=
  src.take dst.length ++ dst.drop src.length

/-- The effect on `dst` of `copy(dst[off:], src)`. -/
def writeAt (dst : List Byte) (off : Nat) (src : List Byte) : List Byte :=
  dst.take off ++ goCopy (dst.drop off) src

/-- The expression `make([]byte, n)`. -/
def makeBytes (n : Int) : Except Abort (List Byte) :=
  if n < 0 then .error Abort.makeNegative else .ok (List.replicate n.toNat 0)

/-! ## `unicode/utf8` -/

namespace utf8

def RuneError : Rune := 0xFFFD
def RuneSelf : Nat := 0x80
def UTFMax : Nat := 4

def maskx : Nat := 0x3F
def mask2 : Nat := 0x1F
def mask3 : Nat := 0x0F
def mask4 : Nat := 0x07

def locb : Nat := 0x80
def hicb : Nat := 0xBF

def xx : Nat := 0xF1
def as : Nat := 0xF0
def s1 : Nat := 0x02
def s2 : Nat := 0x13
def s3 : Nat := 0x03
def s4 : Nat := 0x23
def s5 : Nat := 0x34
def s6 : Nat := 0x04
def s7 : Nat := 0x44

/-- The table `first`: information about the first byte of an encoding. -/
def first (b : Byte) : Nat :=
  if b < 0x80 then as
  else if b < 0xC2 then xx
  else if b < 0xE0 then s1
  else if b = 0xE0 then s2
  else if b < 0xED then s3
  else if b = 0xED then s4
  else if b < 0xF0 then s3
  else if b = 0xF0 then s5
  else if b < 0xF4 then s6
  else if b = 0xF4 then s7
  else xx

/-- The table `acceptRanges`: bounds `(lo, hi)` for the second byte. -/
def acceptRanges (i : Nat) : Nat × Nat :=
  match i with
  | 0 => (locb, hicb)
  | 1 => (0xA0, hicb)
  | 2 => (locb, 0x9F)
  | 3 => (0x90, hicb)
  | 4 => (locb, 0x8F)
  | _ => (0, 0)

/-- The function `utf8.FullRune`. -/
def FullRune (p : List Byte) : Bool :=
  let n := p.length
  if n = 0 then false
  else
    let x := first (p.getD 0 0)
    if n ≥ x &&& 7 then true
    else
      let accept := acceptRanges (x >>> 4)
      if n > 1 ∧ (p.getD 1 0 < accept.1 ∨ accept.2 < p.getD 1 0) then true
      else if n > 2 ∧ (p.getD 2 0 < locb ∨ hicb < p.getD 2 0) then true
      else false

/-- The function `utf8.DecodeRune`: the rune and the width of its encoding. -/
def DecodeRune (p : List Byte) : Rune × Nat :=
  let n := p.length
  if n < 1 then (RuneError, 0)
  else
    let p0 := p.getD 0 0
    let x := first p0
    if x ≥ as then
      (if x % 2 = 0 then p0 else RuneError, 1)
    else
      let sz := x &&& 7
      let accept := acceptRanges (x >>> 4)
      if n < sz then (RuneError, 1)
      else
        let b1 := p.getD 1 0
        if b1 < accept.1 ∨ accept.2 < b1 then (RuneError, 1)
        else if sz ≤ 2 then (((p0 &&& mask2) <<< 6) ||| (b1 &&& maskx), 2)
        else
          let b2 := p.getD 2 0
          if b2 < locb ∨ hicb < b2 then (RuneError, 1)
          else if sz ≤ 3 then
            (((p0 &&& mask3) <<< 12) ||| ((b1 &&& maskx) <<< 6) ||| (b2 &&& maskx), 3)
          else
            let b3 := p.getD 3 0
            if b3 < locb ∨ hicb < b3 then (RuneError, 1)
            else
              (((p0 &&& mask4) <<< 18) ||| ((b1 &&& maskx) <<< 12) ||| ((b2 &&& maskx) <<< 6)
                ||| (b3 &&& maskx), 4)

end utf8

/-! ## The byte source -/

/-- One result of the source's `Read`: the bytes it hands out and the error it returns. -/
structure Chunk where
  data : List Byte
  err : Option Error
deriving DecidableEq, Repr

/-- An `io.Reader`: the results its successive `Read` calls will give.  When it also is an
`io.ReaderAt`, `readerAt len off` is the outcome of `ReadAt(p, off)` with `len(p) = len`:
the bytes stored at the front of `p` and the error. -/
structure Source where
  script : List Chunk
  readerAt : Option (Nat → Int → List Byte × Option Error)

/-- The call `rd.Read(p)` with `len(p) = k`: a result that does not fit in `p` is handed out
in pieces; a source whose script is used up reports `io.EOF`. -/
def Source.Read (src : Source) (k : Nat) : (List Byte × Option Error) × Source :=
  match src.script with
  | [] => (([], some Error.EOF), src)
  | c :: rest =>
    if c.data.length ≤ k then ((c.data, c.err), { src with script := rest })
    else ((c.data.take k, none), { src with script := { c with data := c.data.drop k } :: rest })

/-- All bytes the script still holds. -/
def remaining (script : List Chunk) : List Byte :=
  match script with
  | [] => []
  | c :: rest => c.data ++ remaining rest

/-- The number of leading reads that give zero bytes and no error. -/
def emptyRun (script : List Chunk) : Nat :=
  match script with
  | [] => 0
  | c :: rest => if c.data = [] ∧ c.err = none then emptyRun rest + 1 else 0

/-- A source that ends with end-of-stream: no read fails (only the last one may report
`io.EOF` together with its bytes) and there are fewer than 100 consecutive empty reads. -/
def WellBehaved (script : List Chunk) : Prop :=
  match script with
  | [] => True
  | c :: rest =>
    emptyRun (c :: rest) < 100 ∧ (c.err = none ∨ (c.err = some Error.EOF ∧ rest = []))
      ∧ WellBehaved rest

instance WellBehaved.decidable : (script : List Chunk) → Decidable (WellBehaved script)
  | [] => isTrue trivial
  | _ :: rest =>
    have := WellBehaved.decidable rest
    inferInstanceAs (Decidable (_ ∧ _ ∧ _))

/-! ## The matching engine -/

/-- The engine behind `pattern.FindReaderIndex`.  It pulls decoded runes one at a time:
`more seen` says whether, having seen the runes `seen` (with their widths), it asks for another
one; `loc seen ended` is its verdict once it stops, `ended` telling that the last `ReadRune`
returned an error (which the engine takes for the end of the text). -/
structure Regexp where
  more : List (Rune × Nat) → Bool
  loc : List (Rune × Nat) → Bool → Option (Int × Int)

/-! ## The reader -/

def minReadBufferSize : Int := 16
def defaultBufferSize : Int := 4096

/-- The struct `RegexReader`. -/
structure RegexReader where
  rd : Source
  buf : List Byte
  prevBuf : List Byte
  pattern : Regexp
  sourceReadBytes : Int
  readBytes : Int
  prevReadBytes : Int
  err : Option Error
  r : Int
  w : Int

/-- The constructor `NewRegexReaderSize`. -/
def NewRegexReaderSize (r : Source) (pattern : Regexp) (size : Int) : RegexReader :=
  let size := if size < minReadBufferSize then minReadBufferSize else size
  { rd := r
    buf := List.replicate size.toNat 0
    prevBuf := List.replicate size.toNat 0
    pattern := pattern
    sourceReadBytes := 0
    readBytes := 0
    prevReadBytes := 0
    err := none
    r := 0
    w := 0 }

/-- The constructor `NewRegexReader`. -/
def NewRegexReader (r : Source) (pattern : Regexp) : RegexReader :=
  NewRegexReaderSize r pattern defaultBufferSize

/-- The method `readErr`: hands out the latched error and clears it. -/
def readErr (rr : RegexReader) : Option Error × RegexReader :=
  (rr.err, { rr with err := none })

/-- The compaction at the head of `fill` (the block guarded by `rr.r > 0`). -/
def fill.compact (rr : RegexReader) : Except Abort RegexReader :=
  if rr.r > 0 then do
    let prevBuf1 ←
      if rr.r < rr.buf.length then do
        let s ← sliceFrom rr.prevBuf rr.r
        pure (goCopy rr.prevBuf s)
      else pure rr.prevBuf
    let _ ← sliceFrom prevBuf1 (rr.buf.length - rr.r)
    let src ← sliceTo rr.buf rr.r
    let prevBuf2 := writeAt prevBuf1 (rr.buf.length - rr.r).toNat src
    let unread ← slice rr.buf rr.r rr.w
    let buf1 := goCopy rr.buf unread
    pure { rr with prevBuf := prevBuf2, buf := buf1, w := rr.w - rr.r, r := 0 }
  else pure rr

/-- The read loop of `fill`: at most `i` reads, stopping at the first one that gives a byte
or an error.  The count of a read is the length of its data, so the check `n < 0` of the
source never fires and is left out. -/
def fill.readLoop (i : Nat) (rr : RegexReader) : Except Abort RegexReader :=
  match i with
  | 0 => pure { rr with err := some Error.ErrNoProgress }
  | i + 1 => do
    let p ← sliceFrom rr.buf rr.w
    let ((data, err), rd) := rr.rd.Read p.length
    let rr1 := { rr with
      rd := rd
      buf := writeAt rr.buf rr.w.toNat data
      w := rr.w + data.length
      sourceReadBytes := rr.sourceReadBytes + data.length }
    if err.isSome then pure { rr1 with err := err }
    else if data.length > 0 then pure rr1
    else fill.readLoop i rr1

/-- The method `fill`. -/
def fill (rr : RegexReader) : Except Abort RegexReader := do
  let rr ← fill.compact rr
  if rr.w ≥ rr.buf.length then throw Abort.fillFullBuffer
  let maxConsecutiveEmptyReads := 100
  fill.readLoop maxConsecutiveEmptyReads rr

/-- The condition of the loop of `ReadRune`. -/
def ReadRune.cond (rr : RegexReader) : Except Abort Bool :=
  if rr.r + utf8.UTFMax > rr.w then do
    let p ← slice rr.buf rr.r rr.w
    pure (!utf8.FullRune p && rr.err.isNone && decide (rr.w - rr.r < rr.buf.length))
  else pure false

/-- The loop of `ReadRune`, run for at most `n` rounds. -/
def ReadRune.loop (n : Nat) (rr : RegexReader) : Except Abort RegexReader := do
  if ← ReadRune.cond rr then
    match n with
    | 0 => throw Abort.fuel
    | n + 1 => ReadRune.loop n (← fill rr)
  else pure rr

/-- The method `ReadRune`.  Every round of its loop that does not end it adds a byte to the
unread span, which the loop condition keeps below `utf8.UTFMax`: four rounds are enough
(`ReadRune_spec` below: the call returns in every state that keeps the bookkeeping of `Inv`).
The index expression `rr.buf[rr.r]` is the one-byte slice at `r`. -/
def ReadRune (rr : RegexReader) : Except Abort ((Rune × Nat × Option Error) × RegexReader) := do
  let rr ← ReadRune.loop utf8.UTFMax rr
  if rr.r = rr.w then
    let (err, rr) := readErr rr
    pure ((0, 0, err), rr)
  else
    let b ← slice rr.buf rr.r (rr.r + 1)
    let (r, size) ←
      if b.getD 0 0 ≥ utf8.RuneSelf then do
        let p ← slice rr.buf rr.r rr.w
        pure (utf8.DecodeRune p)
      else pure (b.getD 0 0, 1)
    pure ((r, size, none), { rr with r := rr.r + size, readBytes := rr.readBytes + size })

/-- The method `Read`: the contents of `p` afterwards, the count and the error. -/
def Read (rr : RegexReader) (p : List Byte) :
    Except Abort ((List Byte × Int × Option Error) × RegexReader) := do
  let step : Except Abort (Option (Option Error) × RegexReader) :=
    if rr.r = rr.w then
      if rr.err.isSome then
        let (err, rr) := readErr rr
        pure (some err, rr)
      else do
        let rr ← fill rr
        if rr.r = rr.w then pure (some (some Error.EOF), rr) else pure (none, rr)
    else pure (none, rr)
  match ← step with
  | (some err, rr) => pure ((p, 0, err), rr)
  | (none, rr) =>
    let src ← slice rr.buf rr.r rr.w
    let n : Int := min p.length src.length
    pure ((goCopy p src, n, none), { rr with r := rr.r + n })

/-- The method `resetReaderTo`. -/
def resetReaderTo (rr : RegexReader) (newR : Int) : Option Error × RegexReader :=
  let diff := rr.readBytes - newR
  let rr := { rr with readBytes := rr.readBytes - diff, r := rr.r - diff }
  if rr.r < 0 then (some (Error.negativeReadPosition rr.r), rr) else (none, rr)

/-- The method `bufLower`. -/
def bufLower (rr : RegexReader) : Int :=
  let bufferedBytes := rr.buf.length + rr.w
  max (rr.sourceReadBytes - bufferedBytes) 0

/-- The method `bufUpper`. -/
def bufUpper (rr : RegexReader) : Int :=
  rr.sourceReadBytes

/-- The result of `ReadAt(result, off)` on a fresh `result` of length `l`. -/
def readAtInto (l : Nat) (out : List Byte × Option Error) : List Byte :=
  goCopy (List.replicate l 0) out.1

/-- The window lookup of `getLastBytes` (the part after the `io.ReaderAt` test), with `n`
the absolute start. -/
def getLastBytes.window (rr : RegexReader) (n l : Int) (result : List Byte) :
    Except Abort (List Byte) := do
  let bl := bufLower rr
  let baseOffset := n - bl
  if baseOffset ≥ rr.buf.length then
    let baseOffset := baseOffset - rr.buf.length
    let src ← slice rr.buf baseOffset (baseOffset + l)
    pure (goCopy result src)
  else if baseOffset < rr.buf.length then
    if baseOffset + l > rr.buf.length then
      let src1 ← sliceFrom rr.prevBuf baseOffset
      let result := goCopy result src1
      let _ ← sliceFrom result (rr.buf.length - baseOffset)
      let src2 ← sliceTo rr.buf (l - (rr.buf.length - baseOffset))
      pure (writeAt result (rr.buf.length - baseOffset).toNat src2)
    else
      let src ← slice rr.prevBuf baseOffset (baseOffset + l)
      pure (goCopy result src)
  else throw Abort.outOfBoundsMatch

/-- The method `getLastBytes`: the returned slice (`none` for `nil`), the returned error and
the reader afterwards (the deferred function has run). -/
def getLastBytes (rr : RegexReader) (n l : Int) :
    Except Abort ((Option (List Byte) × Option Error) × RegexReader) := do
  let n := n + rr.prevReadBytes
  let finish (rr : RegexReader) : RegexReader := { rr with prevReadBytes := rr.readBytes }
  let (err, rr) := resetReaderTo rr (n + l)
  if err.isSome then pure ((none, err), finish rr)
  else
    let result ← makeBytes l
    match rr.rd.readerAt with
    | some readAt =>
      let out := readAt result.length n
      pure ((some (readAtInto result.length out), out.2), finish rr)
    | none =>
      let result ← getLastBytes.window rr n l result
      pure ((some result, none), finish rr)

/-- The call `rr.pattern.FindReaderIndex(rr)`: the engine reads runes through `ReadRune` for
as long as it asks for more and stops at the first error; `seen` are the runes read so far. -/
def FindReaderIndex (fuel : Nat) (rr : RegexReader) (seen : List (Rune × Nat)) :
    Except Abort (Option (Int × Int) × RegexReader) :=
  match fuel with
  | 0 => throw Abort.fuel
  | fuel + 1 =>
    if rr.pattern.more seen then do
      let ((r, size, err), rr) ← ReadRune rr
      if err.isSome then pure (rr.pattern.loc seen true, rr)
      else FindReaderIndex fuel rr (seen ++ [(r, size)])
    else pure (rr.pattern.loc seen false, rr)

/-- The method `FindAllMatchesFunc`, its loop run for at most `fuel` rounds: the strings
handed to `deliver` (after those in `delivered`), the returned error and the reader. -/
def FindAllMatchesFunc (fuel : Nat) (rr : RegexReader) (delivered : List (List Byte)) :
    Except Abort ((List (List Byte) × Option Error) × RegexReader) :=
  match fuel with
  | 0 => throw Abort.fuel
  | fuel + 1 => do
    let (loc, rr) ← FindReaderIndex fuel rr []
    match loc with
    | none => pure ((delivered, none), rr)
    | some (lo, hi) =>
      let length := hi - lo
      let offset := lo
      let ((lastBytes, err), rr) ← getLastBytes rr offset length
      if err.isSome then pure ((delivered, err), rr)
      else FindAllMatchesFunc fuel rr (delivered ++ [lastBytes.getD []])

/-- The method `FindAllMatches`. -/
def FindAllMatches (fuel : Nat) (rr : RegexReader) :
    Except Abort ((List (List Byte) × Option Error) × RegexReader) :=
  FindAllMatchesFunc fuel rr []

/-! ## Runs of the reader, and what they keep true -/

/-- The reader after `k` calls of `ReadRune`. -/
def afterReadRunes (k : Nat) (rr : RegexReader) : Except Abort RegexReader :=
  match k with
  | 0 => pure rr
  | k + 1 => do
    let (_, rr) ← ReadRune rr
    afterReadRunes k rr

/-- The reader after `k` calls of `ReadRune` (the reader itself if one of them aborts). -/
def stateAfter (k : Nat) (rr : RegexReader) : RegexReader :=
  match afterReadRunes k rr with
  | .ok rr' => rr'
  | .error _ => rr

/-- Successive `ReadRune` calls up to the first error: the pairs (rune, width) they return
and that error. -/
def readRunes (fuel : Nat) (rr : RegexReader) : Except Abort (List (Rune × Nat) × Error) :=
  match fuel with
  | 0 => throw Abort.fuel
  | fuel + 1 => do
    let ((r, size, err), rr) ← ReadRune rr
    match err with
    | some e => pure ([], e)
    | none =>
      let (rest, e) ← readRunes fuel rr
      pure ((r, size) :: rest, e)

/-- The cursor states reached from `rr0` by `ReadRune` calls and by successful extractions
of matches that start at or after the last match end and end at or before the delivered
position. -/
inductive Reachable (rr0 : RegexReader) : RegexReader → Prop
  | start : Reachable rr0 rr0
  | readRune {rr rr' : RegexReader} {out : Rune × Nat × Option Error} :
      Reachable rr0 rr → ReadRune rr = .ok (out, rr') → Reachable rr0 rr'
  | extract {rr rr' : RegexReader} {n l : Int} {bytes : Option (List Byte)} :
      Reachable rr0 rr → 0 ≤ n → 0 ≤ l → rr.prevReadBytes + n + l ≤ rr.readBytes →
      getLastBytes rr n l = .ok ((bytes, none), rr') → Reachable rr0 rr'

/-- The bookkeeping of a cursor over the stream `B`: the offsets are in range, the source
still holds the bytes of `B` from `sourceReadBytes` on, `prevBuf` followed by the filled part
of `buf` is the tail of the bytes read so far (behind `len(buf)` zero bytes), and the read
position `r` stands at the absolute offset `readBytes`. -/
structure Inv (B : List Byte) (rr : RegexReader) : Prop where
  cap : minReadBufferSize ≤ rr.buf.length
  prev_len : rr.prevBuf.length = rr.buf.length
  r_nonneg : 0 ≤ rr.r
  r_le_w : rr.r ≤ rr.w
  w_le_cap : rr.w ≤ rr.buf.length
  w_le_srb : rr.w ≤ rr.sourceReadBytes
  srb_le : rr.sourceReadBytes ≤ B.length
  stream : remaining rr.rd.script = B.drop rr.sourceReadBytes.toNat
  window : rr.prevBuf ++ rr.buf.take rr.w.toNat
    = (List.replicate rr.buf.length 0 ++ B.take rr.sourceReadBytes.toNat).drop
        (rr.sourceReadBytes - rr.w).toNat
  pos : rr.readBytes = rr.sourceReadBytes - (rr.w - rr.r)
  prev_nonneg : 0 ≤ rr.prevReadBytes
  prev_le : rr.prevReadBytes ≤ rr.readBytes

/-- The latched signal of a cursor over a well-behaved source: none, or the end-of-stream the
source gave with its last bytes. -/
def Settled (rr : RegexReader) : Prop :=
  WellBehaved rr.rd.script ∧ (rr.err = none ∨ (rr.err = some Error.EOF ∧ rr.rd.script = []))

/-- What one call of `fill` does to the cursor, `data` being the bytes the source gave. -/
structure FillPost (rr : RegexReader) (data : List Byte) (rr' : RegexReader) : Prop where
  r_eq : rr'.r = 0
  w_eq : rr'.w = rr.w - rr.r + data.length
  w_le : rr'.w ≤ rr.buf.length
  buf_len : rr'.buf.length = rr.buf.length
  prev_len : rr'.prevBuf.length = rr.buf.length
  window : rr'.prevBuf ++ rr'.buf.take rr'.w.toNat
    = (rr.prevBuf ++ rr.buf.take rr.w.toNat).drop rr.r.toNat ++ data
  srb_eq : rr'.sourceReadBytes = rr.sourceReadBytes + data.length
  stream : remaining rr.rd.script = data ++ remaining rr'.rd.script
  readerAt_eq : rr'.rd.readerAt = rr.rd.readerAt
  pattern_eq : rr'.pattern = rr.pattern
  readBytes_eq : rr'.readBytes = rr.readBytes
  prevReadBytes_eq : rr'.prevReadBytes = rr.prevReadBytes
  progress : data = [] → rr'.err.isSome
  err_eq : rr'.err = rr.err ∨ rr'.err.isSome
  settled : WellBehaved rr.rd.script →
    WellBehaved rr'.rd.script ∧
      ((rr'.err = rr.err ∧ data ≠ []) ∨ (rr'.err = some Error.EOF ∧ rr'.rd.script = []))

/-! ## Decoding a whole buffer -/

/-- Decoding `p` rune by rune with `utf8.DecodeRune`, for at most `fuel` runes. -/
def decodeAll.go (fuel : Nat) (p : List Byte) : List (Rune × Nat) :=
  match fuel with
  | 0 => []
  | fuel + 1 =>
    if p = [] then []
    else
      let d := utf8.DecodeRune p
      d :: decodeAll.go fuel (p.drop d.2)

/-- The pairs (rune, width) of the fully materialized input `p`, decoded as one buffer. -/
def decodeAll (p : List Byte) : List (Rune × Nat) :=
  decodeAll.go p.length p

/-- What `ReadRune` has to return at the absolute offset `pos` of the stream `B`. -/
def runeAt (B : List Byte) (pos : Nat) : Rune × Nat × Option Error :=
  if pos < B.length then
    let d := utf8.DecodeRune (B.drop pos)
    (d.1, d.2, none)
  else (0, 0, some Error.EOF)

/-! ## Sources, engines and inputs of the worked examples -/

/-- A source without random access (such as the read end of `io.Pipe`) whose successive
reads give `reads`, and `io.EOF` afterwards. -/
def pipe (reads : List (List Byte)) : Source :=
  { script := reads.map fun d => { data := d, err := none }, readerAt := none }

/-- The call `ReadAt(p, off)` of a file with the given content. -/
def fileAt (content : List Byte) (len : Nat) (off : Int) : List Byte × Option Error :=
  if off < 0 then ([], some (Error.source 22))
  else
    let data := (content.drop off.toNat).take len
    (data, if data.length < len then some Error.EOF else none)

/-- A file: a sequential reader with random access to the same content. -/
def file (content : List Byte) : Source :=
  { script := [{ data := content, err := none }], readerAt := some (fileAt content) }

/-- A source without random access whose first read fails with an I/O error. -/
def failing (code : Nat) : Source :=
  { script := [{ data := [], err := some (Error.source code) }], readerAt := none }

/-- A source without random access whose first read gives `a` and the first two bytes of the
encoding of U+20AC together with an I/O error, and whose second read gives the third byte. -/
def tornRune : Source :=
  { script := [{ data := [0x61, 0xE2, 0x82], err := some (Error.source 5) },
               { data := [0xAC], err := none }]
    readerAt := none }

/-- The sum of the widths of decoded runes. -/
def width (seen : List (Rune × Nat)) : Int :=
  ((seen.map fun x => x.2).sum : Nat)

/-- An engine for the pattern `a+`, as the machine of Go's `regexp` runs it on a rune reader:
it holds the rune it works on and the one after it, and notices one step late that its
threads have died, so that it has read three runes from the end of the match on when it stops
(fewer when the text ends before). -/
def reRunA : Regexp where
  more seen :=
    ((seen.dropWhile fun x => x.1 != 0x61).dropWhile fun x => x.1 == 0x61).length < 3
  loc seen _ :=
    let skipped := seen.takeWhile fun x => x.1 != 0x61
    let rest := seen.dropWhile fun x => x.1 != 0x61
    if rest.isEmpty then none
    else some (width skipped, width skipped + width (rest.takeWhile fun x => x.1 == 0x61))

/-- An engine for the pattern `x*`: it reads up to the first rune that is not `x` and reports
the (possibly empty) run of `x` at the start. -/
def reStarX : Regexp where
  more seen := seen.all fun x => x.1 == 0x78
  loc seen _ := some (0, width (seen.takeWhile fun x => x.1 == 0x78))

/-- An engine for a pattern such as `a(.*z)?` on a text without `z`: it reads to the end of
the text and then reports the leading `a`. -/
def reLookahead : Regexp where
  more _ := true
  loc seen _ :=
    match seen with
    | (0x61, w) :: _ => some (0, (w : Int))
    | _ => none

/-- The text `aaa_bob@test.com_bbb_alice@ex.io_ccc` (36 bytes). -/
def sample : List Byte :=
  [0x61, 0x61, 0x61, 0x5f, 0x62, 0x6f, 0x62, 0x40, 0x74, 0x65, 0x73, 0x74, 0x2e, 0x63, 0x6f,
   0x6d, 0x5f, 0x62, 0x62, 0x62, 0x5f, 0x61, 0x6c, 0x69, 0x63, 0x65, 0x40, 0x65, 0x78, 0x2e,
   0x69, 0x6f, 0x5f, 0x63, 0x63, 0x63]

/-- The text `bob@test.com`, the bytes of `sample` at the offsets 4 to 16. -/
def sampleMatch : List Byte :=
  [0x62, 0x6f, 0x62, 0x40, 0x74, 0x65, 0x73, 0x74, 0x2e, 0x63, 0x6f, 0x6d]

/-- Extraction after `k` calls of `ReadRune`: what `getLastBytes(n, l)` returns then. -/
def extractAfter (k : Nat) (rr : RegexReader) (n l : Int) :
    Except Abort (Option (List Byte) × Option Error) := do
  let rr ← afterReadRunes k rr
  let (res, _) ← getLastBytes rr n l
  pure res

/-! ## The push adapter -/

/-- The write end of an `io.Pipe`, as far as the package uses it: whether it has been closed. -/
structure PipeWriter where
  closed : Bool

/-- The struct `RegexWriter`.  The pipe between its write end `wr` and the source of `rd` is the
queue `rd.rd.script` of writes not yet read: the rendezvous of `io.Pipe` only orders the steps in
time, every write is handed to the reader as the result of one read (in pieces when it does not
fit), and a closed pipe reports `io.EOF` once the queue is used up.  The reads are those of a
reader whose producer has closed the writer; on an open, empty pipe a read would block. -/
structure RegexWriter where
  rd : RegexReader
  wr : PipeWriter

/-- The constructor `NewRegexWriterSize`. -/
def NewRegexWriterSize (pattern : Regexp) (size : Int) : RegexWriter :=
  let size := if size < minReadBufferSize then minReadBufferSize else size
  let regexReader := NewRegexReaderSize (pipe []) pattern size
  { rd := regexReader, wr := { closed := false } }

/-- The constructor `NewRegexWriter`. -/
def NewRegexWriter (pattern : Regexp) : RegexWriter :=
  NewRegexWriterSize pattern defaultBufferSize

/-- The method `RegexWriter.Write`: the count, the error and the writer afterwards.  A write
on a closed pipe returns `io.ErrClosedPipe` and hands nothing to the reader. -/
def RegexWriter.Write (w : RegexWriter) (data : List Byte) : (Int × Option Error) × RegexWriter :=
  if w.wr.closed then ((0, some Error.ErrClosedPipe), w)
  else
    ((data.length, none),
      { w with rd := { w.rd with rd := { w.rd.rd with
        script := w.rd.rd.script ++ [{ data := data, err := none }] } } })

/-- The method `RegexWriter.Close`: the write end is closed, and the reads that follow the
queued writes report `io.EOF`, which is what a script that is used up does. -/
def RegexWriter.Close (w : RegexWriter) : RegexWriter :=
  { w with wr := { closed := true } }

/-- The method `RegexWriter.FindAllMatches`. -/
def RegexWriter.FindAllMatches (fuel : Nat) (w : RegexWriter) :
    Except Abort ((List (List Byte) × Option Error) × RegexReader) :=
  Streamregex.FindAllMatches fuel w.rd

/-- The method `RegexWriter.FindAllMatchesFunc`. -/
def RegexWriter.FindAllMatchesFunc (fuel : Nat) (w : RegexWriter) (delivered : List (List Byte)) :
    Except Abort ((List (List Byte) × Option Error) × RegexReader) :=
  Streamregex.FindAllMatchesFunc fuel w.rd delivered

/-- A producer that writes `writes` one after the other and then closes the writer. -/
def RegexWriter.feed (w : RegexWriter) (writes : List (List Byte)) : RegexWriter :=
  (writes.foldl (fun w d => (w.Write d).2) w).Close

/-- The sample handed out one byte per read. -/
def sampleBytewise : Source :=
  pipe (sample.map fun b => [b])

/-- A read that gives zero bytes and no error. -/
def emptyRead : Chunk :=
  { data := [], err := none }

/-- A source whose first hundred reads give nothing, and the next one the byte `a`. -/
def stalled : Source :=
  { script := List.replicate 100 emptyRead ++ [{ data := [0x61], err := none }], readerAt := none }

/-- The text `bbbbbbbbbba_bbb` (15 bytes). -/
def shortText : List Byte :=
  [0x62, 0x62, 0x62, 0x62, 0x62, 0x62, 0x62, 0x62, 0x62, 0x62, 0x61, 0x5f, 0x62, 0x62, 0x62]

/-- The text `shortText`, three bytes per write. -/
def shortTextInThrees : List (List Byte) :=
  [[0x62, 0x62, 0x62], [0x62, 0x62, 0x62], [0x62, 0x62, 0x62], [0x62, 0x61, 0x5f],
   [0x62, 0x62, 0x62]]

/-- The text `bbbbbbbbbbbbbbbbaabbb` (21 bytes): the run `aa` ends at the offset 18. -/
def tailText : List Byte :=
  [0x62, 0x62, 0x62, 0x62, 0x62, 0x62, 0x62, 0x62, 0x62, 0x62, 0x62, 0x62, 0x62, 0x62, 0x62,
   0x62, 0x61, 0x61, 0x62, 0x62, 0x62]

/-- The text `tailText`, three bytes per write. -/
def tailTextInThrees : List (List Byte) :=
  [[0x62, 0x62, 0x62], [0x62, 0x62, 0x62], [0x62, 0x62, 0x62], [0x62, 0x62, 0x62],
   [0x62, 0x62, 0x62], [0x62, 0x61, 0x61], [0x62, 0x62, 0x62]]

/-- The text `bbbbbbbbbbbbbbbbbaabbb` (22 bytes): the run `aa` ends at the offset 19. -/
def midText : List Byte :=
  [0x62, 0x62, 0x62, 0x62, 0x62, 0x62, 0x62, 0x62, 0x62, 0x62, 0x62, 0x62, 0x62, 0x62, 0x62,
   0x62, 0x62, 0x61, 0x61, 0x62, 0x62, 0x62]

/-- The text `midText`, three bytes per write. -/
def midTextInThrees : List (List Byte) :=
  [[0x62, 0x62, 0x62], [0x62, 0x62, 0x62], [0x62, 0x62, 0x62], [0x62, 0x62, 0x62],
   [0x62, 0x62, 0x62], [0x62, 0x62, 0x61], [0x61, 0x62, 0x62], [0x62]]

/-! ## The searches of `FindAllMatchesFunc` on the materialized input -/

/-- One search of the engine on the materialized input `B` from the absolute offset `pos`: it
is given the runes decoded from `B` one after the other for as long as it asks for more, and
the end of the text after the last one. -/
def materialized.FindIndex (re : Regexp) (fuel : Nat) (B : List Byte) (pos : Nat)
    (seen : List (Rune × Nat)) : Except Abort (Option (Int × Int)) :=
  match fuel with
  | 0 => throw Abort.fuel
  | fuel + 1 =>
    if re.more seen then
      if (runeAt B pos).2.2.isSome then pure (re.loc seen true)
      else materialized.FindIndex re fuel B (pos + (runeAt B pos).2.1)
        (seen ++ [((runeAt B pos).1, (runeAt B pos).2.1)])
    else pure (re.loc seen false)

/-- The searches of the loop of `FindAllMatchesFunc` on the materialized input `B` from the
offset `start` on, after the matches in `found`: every search is a new run of the engine that
starts where the last match ended and sees nothing of the text before, and a match (lo, hi)
stands for the bytes of `B` at the offsets `start + lo` to `start + hi`. -/
def materialized.FindAll (re : Regexp) (fuel : Nat) (B : List Byte) (start : Nat)
    (found : List (List Byte)) : Except Abort (List (List Byte)) :=
  match fuel with
  | 0 => throw Abort.fuel
  | fuel + 1 => do
    let loc ← materialized.FindIndex re fuel B start []
    match loc with
    | none => pure found
    | some (lo, hi) =>
      materialized.FindAll re fuel B (start + hi).toNat
        (found ++ [(B.drop (start + lo).toNat).take (hi - lo).toNat])

/-- A run of `FindAllMatchesFunc` in which every match found lies in the window when it is
extracted: its offsets are in order, it is no longer than `buf`, it ends at or before
`readBytes`, the rewind to its end stays within `buf`, and at least `len(buf) + w` bytes have
been read from the source. -/
def CleanRun (fuel : Nat) (rr : RegexReader) : Bool :=
  match fuel with
  | 0 => true
  | fuel + 1 =>
    match FindReaderIndex fuel rr [] with
    | .ok (some (lo, hi), rr1) =>
      decide (0 ≤ lo ∧ lo ≤ hi ∧ hi - lo ≤ rr1.buf.length
        ∧ rr1.prevReadBytes + hi ≤ rr1.readBytes
        ∧ rr1.readBytes - (rr1.prevReadBytes + hi) ≤ rr1.r
        ∧ rr1.buf.length + rr1.w ≤ rr1.sourceReadBytes)
      && (match getLastBytes rr1 lo (hi - lo) with
        | .ok (_, rr2) => CleanRun fuel rr2
        | .error _ => false)
    | _ => true

/-! ## Sequences of operations -/

/-- One operation on the cursor that returns: a `ReadRune`, a `Read`, a `fill`, or a call
`getLastBytes(n, l)` with `n` and `l` not negative (whatever it returns). -/
inductive Step : RegexReader → RegexReader → Prop
  | readRune {rr rr' : RegexReader} {out : Rune × Nat × Option Error} :
      ReadRune rr = .ok (out, rr') → Step rr rr'
  | read {rr rr' : RegexReader} {p : List Byte} {out : List Byte × Int × Option Error} :
      Read rr p = .ok (out, rr') → Step rr rr'
  | fill {rr rr' : RegexReader} :
      fill rr = .ok rr' → Step rr rr'
  | extract {rr rr' : RegexReader} {n l : Int} {res : Option (List Byte) × Option Error} :
      0 ≤ n → 0 ≤ l → getLastBytes rr n l = .ok (res, rr') → Step rr rr'

/-- The cursor states reached from `rr0` by `ReadRune`, `Read` and `fill` calls and by
successful extractions of matches that end at or before the delivered position. -/
inductive Driven (rr0 : RegexReader) : RegexReader → Prop
  | start : Driven rr0 rr0
  | readRune {rr rr' : RegexReader} {out : Rune × Nat × Option Error} :
      Driven rr0 rr → ReadRune rr = .ok (out, rr') → Driven rr0 rr'
  | read {rr rr' : RegexReader} {p : List Byte} {out : List Byte × Int × Option Error} :
      Driven rr0 rr → Read rr p = .ok (out, rr') → Driven rr0 rr'
  | fill {rr rr' : RegexReader} :
      Driven rr0 rr → fill rr = .ok rr' → Driven rr0 rr'
  | extract {rr rr' : RegexReader} {n l : Int} {bytes : Option (List Byte)} :
      Driven rr0 rr → rr.prevReadBytes + n + l ≤ rr.readBytes →
      getLastBytes rr n l = .ok ((bytes, none), rr') → Driven rr0 rr'

/-- The offsets of a cursor are in range, and its two buffers have the same length, which
is at least the floor of the constructors. -/
structure Bounds (rr : RegexReader) : Prop where
  r_nonneg : 0 ≤ rr.r
  r_le_w : rr.r ≤ rr.w
  w_le_len : rr.w ≤ rr.buf.length
  prev_len : rr.prevBuf.length = rr.buf.length
  cap : minReadBufferSize ≤ rr.buf.length

/-- The cursor states in which the loop of `ReadRune`, run for at most `n + 1` rounds, calls
`fill`: the state of every round whose loop condition holds. -/
def ReadRune.fillCalls (n : Nat) (rr : RegexReader) : List RegexReader :=
  match n with
  | 0 => if ReadRune.cond rr = .ok true then [rr] else []
  | n + 1 =>
    if ReadRune.cond rr = .ok true then
      rr :: (match fill rr with
        | .ok rr1 => ReadRune.fillCalls n rr1
        | .error _ => [])
    else []

/-- The cursor states in which `Read` calls `fill`: the state at entry when the buffer is
drained and nothing is latched. -/
def Read.fillCalls (rr : RegexReader) : List RegexReader :=
  if rr.r = rr.w then
    if rr.err.isSome then [] else [rr]
  else []

/-- The reader after one call of `Read` into `p` (the reader itself if the call aborts). -/
def afterRead (rr : RegexReader) (p : List Byte) : RegexReader :=
  match Read rr p with
  | .ok (_, rr') => rr'
  | .error _ => rr

/-! ## Slices, `copy` and the compaction of `fill` -/

theorem goCopy_length (dst src : List Byte) : (goCopy dst src).length = dst.length := by
  simp [goCopy]; omega

theorem goCopy_short (dst src : List Byte) (h : src.length ≤ dst.length) :
    goCopy dst src = src ++ dst.drop src.length := by
  simp [goCopy, List.take_of_length_le h]

theorem goCopy_same (dst src : List Byte) (h : src.length = dst.length) :
    goCopy dst src = src := by
  rw [goCopy_short _ _ (by omega), h]; simp

theorem writeAt_length (dst src : List Byte) (off : Nat) :
    (writeAt dst off src).length = dst.length := by
  simp [writeAt, goCopy_length]; omega

theorem slice_ok (s : List Byte) (lo hi : Nat) (h1 : lo ≤ hi) (h2 : hi ≤ s.length) :
    slice s lo hi = .ok ((s.drop lo).take (hi - lo)) := by
  have : (0:Int) ≤ lo ∧ (lo:Int) ≤ hi ∧ (hi:Int) ≤ s.length := by omega
  simp only [slice, this, and_self, if_true]
  congr 2
  omega




theorem sliceFrom_ok (s : List Byte) (lo : Nat) (h : lo ≤ s.length) :
    sliceFrom s lo = .ok (s.drop lo) := by
  rw [sliceFrom, slice_ok s lo s.length h le_rfl]
  simp

theorem sliceTo_ok (s : List Byte) (hi : Nat) (h : hi ≤ s.length) :
    sliceTo s hi = .ok (s.take hi) := by
  have := slice_ok s 0 hi (Nat.zero_le _) h
  simpa [sliceTo] using this

theorem compact_buf (b : List Byte) (rn wn : Nat) (hwC : wn ≤ b.length) :
    goCopy b ((b.drop rn).take (wn - rn)) = (b.take wn).drop rn ++ b.drop (wn - rn) := by
  rw [goCopy_short _ _ (by simp), List.drop_take]
  congr 2
  simp; omega

theorem compact_prev (P b : List Byte) (rn : Nat) (hp : P.length = b.length)
    (hrC : rn ≤ b.length) :
    writeAt (goCopy P (P.drop rn)) (b.length - rn) (b.take rn) = (P ++ b.take rn).drop rn := by
  have h1 : goCopy P (P.drop rn) = P.drop rn ++ P.drop (b.length - rn) := by
    rw [goCopy_short _ _ (by simp)]
    congr 2
    simp [hp]
  have hl : (P.drop rn).length = b.length - rn := by simp [hp]
  rw [h1, writeAt, List.take_left' hl, List.drop_left' hl,
    goCopy_same _ _ (by simp [hp]; omega), List.drop_append_of_le_length (by omega)]

theorem compact_prev_full (P b : List Byte) (hp : P.length = b.length) :
    writeAt P (b.length - b.length) (b.take b.length) = (P ++ b.take b.length).drop b.length := by
  rw [← hp, List.drop_left]
  simp [writeAt, goCopy_same _ _ hp.symm, hp]

theorem compact_spec (rr : RegexReader) (rn wn : Nat) (hr : rr.r = rn) (hw : rr.w = wn)
    (hrw : rn ≤ wn) (hwC : wn ≤ rr.buf.length) (hp : rr.prevBuf.length = rr.buf.length) :
    fill.compact rr = .ok { rr with
      prevBuf := (rr.prevBuf ++ rr.buf.take rn).drop rn
      buf := (rr.buf.take wn).drop rn ++ rr.buf.drop (wn - rn)
      w := ((wn - rn : Nat) : Int)
      r := 0 } := by
  obtain ⟨rd, buf, prevBuf, pattern, srb, rb, prb, err, r, w⟩ := rr
  simp only at hr hw hwC hp
  subst hr hw
  unfold fill.compact
  by_cases h0 : rn = 0
  · subst h0; simp; rfl
  · have hpos : (rn : Int) > 0 := by omega
    have hrC : rn ≤ buf.length := by omega
    simp only [hpos, if_true]
    have e1 : ((buf.length : Int) - rn) = ((buf.length - rn : Nat) : Int) := by omega
    have e2 : ((wn : Int) - rn) = ((wn - rn : Nat) : Int) := by omega
    by_cases hlt : rn < buf.length
    · have hlt' : (rn : Int) < buf.length := by omega
      simp only [hlt', if_true]
      rw [sliceFrom_ok _ _ (by omega)]
      simp only [bind, Except.bind, pure, Except.pure]
      rw [e1, sliceFrom_ok _ _ (by rw [goCopy_length]; omega), sliceTo_ok _ _ hrC,
        slice_ok _ _ _ hrw hwC]
      simp only [Int.toNat_ofNat]
      rw [compact_buf _ _ _ hwC, compact_prev _ _ _ hp hrC, e2]
    · have hlt' : ¬ (rn : Int) < buf.length := by omega
      have hrn : rn = buf.length := by omega
      simp only [hlt', if_false]
      simp only [bind, Except.bind, pure, Except.pure]
      rw [e1, sliceFrom_ok _ _ (by omega), sliceTo_ok _ _ hrC, slice_ok _ _ _ hrw hwC]
      simp only [Int.toNat_ofNat]
      rw [compact_buf _ _ _ hwC, e2]
      subst hrn
      rw [compact_prev_full _ _ hp]


theorem writeAt_nil (dst : List Byte) (off : Nat) : writeAt dst off [] = dst := by
  simp [writeAt, goCopy]

theorem Source.Read_nil (ra : Option (Nat → Int → List Byte × Option Error)) (k : Nat) :
    Source.Read ⟨[], ra⟩ k = (([], some Error.EOF), ⟨[], ra⟩) := rfl

theorem Source.Read_fit (ra : Option (Nat → Int → List Byte × Option Error)) (k : Nat)
    (c : Chunk) (rest : List Chunk) (h : c.data.length ≤ k) :
    Source.Read ⟨c :: rest, ra⟩ k = ((c.data, c.err), ⟨rest, ra⟩) := by
  simp [Source.Read, h]

theorem Source.Read_split (ra : Option (Nat → Int → List Byte × Option Error)) (k : Nat)
    (c : Chunk) (rest : List Chunk) (h : ¬ c.data.length ≤ k) :
    Source.Read ⟨c :: rest, ra⟩ k
      = ((c.data.take k, none), ⟨⟨c.data.drop k, c.err⟩ :: rest, ra⟩) := by
  simp [Source.Read, h]

theorem readLoop_spec (i : Nat) (rr : RegexReader) (wn : Nat) (hw : rr.w = wn)
    (hwC : wn < rr.buf.length) :
    ∃ data script' e',
      fill.readLoop i rr = .ok { rr with
        rd := { rr.rd with script := script' }
        buf := writeAt rr.buf wn data
        w := ((wn + data.length : Nat) : Int)
        sourceReadBytes := rr.sourceReadBytes + data.length
        err := e' } ∧
      wn + data.length ≤ rr.buf.length ∧
      remaining rr.rd.script = data ++ remaining script' ∧
      (data = [] → e'.isSome) ∧
      (e' = rr.err ∨ e'.isSome) ∧
      (WellBehaved rr.rd.script → emptyRun rr.rd.script < i →
        WellBehaved script' ∧ ((e' = rr.err ∧ data ≠ []) ∨ (e' = some Error.EOF ∧ script' = []))) := by
  induction i generalizing rr with
  | zero =>
    refine ⟨[], rr.rd.script, some Error.ErrNoProgress, ?_, by simp; omega, by simp, by simp, by simp, by simp⟩
    obtain ⟨rd, buf, prevBuf, pattern, srb, rb, prb, err, r, w⟩ := rr
    simp only at hw
    subst hw
    simp [fill.readLoop, writeAt_nil]
    rfl
  | succ i ih =>
    obtain ⟨⟨script, readerAt⟩, buf, prevBuf, pattern, srb, rb, prb, err, r, w⟩ := rr
    simp only at hw hwC
    subst hw
    unfold fill.readLoop
    simp only [sliceFrom_ok _ _ (le_of_lt hwC), bind, Except.bind, List.length_drop]
    cases script with
    | nil =>
      refine ⟨[], [], some Error.EOF, ?_, by simp; omega, by simp [remaining], by simp, by simp,
        by simp [WellBehaved]⟩
      simp [Source.Read_nil, writeAt_nil]
      rfl
    | cons c rest =>
      obtain ⟨cdata, cerr⟩ := c
      by_cases hfit : cdata.length ≤ buf.length - wn
      · rw [Source.Read_fit _ _ _ _ hfit]
        cases cerr with
        | some e =>
          refine ⟨cdata, rest, some e, ?_, by omega, by simp [remaining], by simp, by simp, ?_⟩
          · simp; rfl
          · intro hwb _
            simp only [WellBehaved] at hwb
            obtain ⟨_, h2, h3⟩ := hwb
            simp at h2
            simp [h2, WellBehaved]
        | none =>
          by_cases hne : cdata = []
          · subst hne
            have := ih ⟨⟨rest, readerAt⟩, buf, prevBuf, pattern, srb, rb, prb, err, r, wn⟩ rfl hwC
            obtain ⟨data, script', e', h1, h2, h3, h4, h5, h6⟩ := this
            refine ⟨data, script', e', ?_, h2, by simpa [remaining] using h3, h4, h5, ?_⟩
            · simp [writeAt_nil]
              simpa using h1
            · intro hwb hrun
              simp only [WellBehaved] at hwb
              simp [emptyRun] at hrun
              exact h6 hwb.2.2 hrun
          · refine ⟨cdata, rest, err, ?_, by omega, by simp [remaining], by simp [hne], by simp, ?_⟩
            · have : cdata.length > 0 := List.length_pos.mpr hne
              simp [this]
              rfl
            · intro hwb _
              simp only [WellBehaved] at hwb
              simp [hwb.2.2, hne]
      · rw [Source.Read_split _ _ _ _ hfit]
        have hk : 0 < buf.length - wn := by omega
        have hne : cdata.take (buf.length - wn) ≠ [] := by
          intro h
          have := congrArg List.length h
          simp only [List.length_take, List.length_nil] at this
          omega
        have hle : (cdata.take (buf.length - wn)).length ≤ buf.length - wn := List.length_take_le _ _
        refine ⟨cdata.take (buf.length - wn), ⟨cdata.drop (buf.length - wn), cerr⟩ :: rest, err, ?_,
          by omega, by rw [remaining, remaining, ← List.append_assoc, List.take_append_drop],
          by simp [hne], by simp, ?_⟩
        · have : (cdata.take (buf.length - wn)).length > 0 := List.length_pos.mpr hne
          simp only [Option.isSome_none, Bool.false_eq_true, if_false, this, if_true]
          simp
          rfl
        · intro hwb _
          refine ⟨?_, Or.inl ⟨rfl, hne⟩⟩
          simp only [WellBehaved] at hwb ⊢
          refine ⟨?_, hwb.2.1, hwb.2.2⟩
          have : cdata.drop (buf.length - wn) ≠ [] := by
            intro h
            have := congrArg List.length h
            simp only [List.length_drop, List.length_nil] at this
            omega
          simp [emptyRun, this]


theorem fill_window (P b data : List Byte) (rn wn : Nat) (hrw : rn ≤ wn) (hwC : wn ≤ b.length)
    (hp : P.length = b.length) (hd : wn - rn + data.length ≤ b.length) :
    (P ++ b.take rn).drop rn
        ++ (writeAt ((b.take wn).drop rn ++ b.drop (wn - rn)) (wn - rn) data).take
            (wn - rn + data.length)
      = (P ++ b.take wn).drop rn ++ data := by
  have hl : ((b.take wn).drop rn).length = wn - rn := by simp; omega
  have h1 : (writeAt ((b.take wn).drop rn ++ b.drop (wn - rn)) (wn - rn) data).take
      (wn - rn + data.length) = (b.take wn).drop rn ++ data := by
    rw [writeAt, List.take_left' hl, List.drop_left' hl, goCopy_short _ _ (by simp; omega),
      ← List.append_assoc, List.take_left' (by simp; omega)]
  have key : b.take rn ++ (b.take wn).drop rn = b.take wn := by
    have : b.take rn = (b.take wn).take rn := by
      rw [List.take_take, Nat.min_eq_left hrw]
    rw [this, List.take_append_drop]
  rw [h1, List.drop_append_of_le_length (by omega), List.drop_append_of_le_length (by omega)]
  simp only [List.append_assoc]
  rw [← List.append_assoc (b.take rn), key]

theorem WellBehaved.emptyRun_lt {script : List Chunk} (h : WellBehaved script) :
    emptyRun script < 100 := by
  cases script with
  | nil => simp [emptyRun]
  | cons c rest => exact h.1

theorem fill_spec (rr : RegexReader) (rn wn : Nat) (hr : rr.r = rn) (hw : rr.w = wn)
    (hrw : rn ≤ wn) (hwC : wn ≤ rr.buf.length) (hp : rr.prevBuf.length = rr.buf.length)
    (hroom : wn - rn < rr.buf.length) :
    ∃ data rr', fill rr = .ok rr' ∧ FillPost rr data rr' := by
  have hc := compact_spec rr rn wn hr hw hrw hwC hp
  obtain ⟨rd, buf, prevBuf, pattern, srb, rb, prb, err, r, w⟩ := rr
  simp only at hr hw hwC hp hroom hc
  subst hr hw
  have hlen : ((buf.take wn).drop rn ++ buf.drop (wn - rn)).length = buf.length := by
    simp; omega
  obtain ⟨data, script', e', h1, h2, h3, h4, h5, h6⟩ :=
    readLoop_spec 100 ⟨rd, (buf.take wn).drop rn ++ buf.drop (wn - rn),
      (prevBuf ++ buf.take rn).drop rn, pattern, srb, rb, prb, err, 0, ((wn - rn : Nat) : Int)⟩
      (wn - rn) rfl (by rw [hlen]; exact hroom)
  simp only at h1 h2 h3 h4 h5 h6
  rw [hlen] at h2
  have hfill : fill ⟨rd, buf, prevBuf, pattern, srb, rb, prb, err, rn, wn⟩
      = fill.readLoop 100 ⟨rd, (buf.take wn).drop rn ++ buf.drop (wn - rn),
      (prevBuf ++ buf.take rn).drop rn, pattern, srb, rb, prb, err, 0, ((wn - rn : Nat) : Int)⟩ := by
    unfold fill
    rw [hc]
    simp only [bind, Except.bind]
    have : ¬ (((wn - rn : Nat) : Int)
        ≥ (((buf.take wn).drop rn ++ buf.drop (wn - rn)).length : Int)) := by
      rw [hlen]; omega
    simp only [this, if_false, pure, Except.pure]
  rw [h1] at hfill
  refine ⟨data, _, hfill, ?_⟩
  constructor <;> simp only
  · omega
  · exact_mod_cast h2
  · rw [writeAt_length, hlen]
  · simp; omega
  · simp only [Int.toNat_ofNat]
    exact fill_window prevBuf buf data rn wn hrw hwC hp h2
  · exact h3
  · exact h4
  · exact h5
  · intro hwb
    exact h6 hwb (WellBehaved.emptyRun_lt hwb)


theorem fill_inv (B : List Byte) (rr : RegexReader) (h : Inv B rr)
    (hroom : rr.w - rr.r < rr.buf.length) :
    ∃ data rr', fill rr = .ok rr' ∧ FillPost rr data rr' ∧ Inv B rr' := by
  obtain ⟨rn, hrn⟩ := Int.eq_ofNat_of_zero_le h.r_nonneg
  obtain ⟨wn, hwn⟩ := Int.eq_ofNat_of_zero_le (le_trans h.r_nonneg h.r_le_w)
  obtain ⟨sn, hsn⟩ := Int.eq_ofNat_of_zero_le
    (le_trans (le_trans h.r_nonneg h.r_le_w) h.w_le_srb)
  have h1 := h.r_le_w
  have h2 := h.w_le_cap
  have h3 := h.w_le_srb
  have h4 := h.srb_le
  have hst := h.stream
  have hwin := h.window
  rw [hrn, hwn] at h1 hroom
  rw [hwn] at h2 h3 hwin
  rw [hsn] at h3 h4 hst hwin
  obtain ⟨data, rr', hf, hpost⟩ := fill_spec rr rn wn hrn hwn (by omega) (by omega) h.prev_len
    (by omega)
  refine ⟨data, rr', hf, hpost, ?_⟩
  have e1 := hpost.r_eq
  have e2 := hpost.w_eq
  have e3 := hpost.srb_eq
  have e4 := hpost.w_le
  have e5 := hpost.stream
  have e6 := hpost.window
  rw [hrn, hwn] at e2
  rw [hsn] at e3
  rw [hrn, hwn, hwin] at e6
  rw [hst] at e5
  simp only [Int.toNat_ofNat] at hst hwin e5 e6
  have hlen : data.length ≤ B.length - sn := by
    have := congrArg List.length e5
    simp only [List.length_drop, List.length_append] at this
    omega
  have ew : rr'.w.toNat = wn - rn + data.length := by omega
  have es : rr'.sourceReadBytes.toNat = sn + data.length := by omega
  have esw : (rr'.sourceReadBytes - rr'.w).toNat = sn - wn + rn := by omega
  have hdrop : B.drop (sn + data.length) = remaining rr'.rd.script := by
    rw [← List.drop_drop, e5]
    simp
  have htake : B.take (sn + data.length) = B.take sn ++ data := by
    rw [List.take_add, e5]
    simp
  constructor
  · rw [hpost.buf_len]; exact h.cap
  · rw [hpost.prev_len, hpost.buf_len]
  · omega
  · omega
  · rw [hpost.buf_len]; omega
  · omega
  · omega
  · rw [es, hdrop]
  · rw [e6, es, esw, hpost.buf_len, htake, List.drop_drop, ← List.append_assoc]
    have hle : sn - wn + rn ≤ (List.replicate rr.buf.length 0 ++ B.take sn).length := by
      simp only [List.length_append, List.length_replicate, List.length_take]
      omega
    rw [List.drop_append_of_le_length hle]
    congr 2
    omega
  · rw [hpost.readBytes_eq, h.pos]; omega
  · rw [hpost.prevReadBytes_eq]; exact h.prev_nonneg
  · rw [hpost.prevReadBytes_eq, hpost.readBytes_eq]; exact h.prev_le

namespace utf8

theorem first_cases (b : Byte) :
    first b = as ∨ first b = xx ∨ first b = s1 ∨ first b = s2 ∨ first b = s3 ∨ first b = s4
      ∨ first b = s5 ∨ first b = s6 ∨ first b = s7 := by
  unfold first
  split_ifs <;> simp

theorem and7_as : as &&& 7 = 0 := by decide
theorem and7_xx : xx &&& 7 = 1 := by decide
theorem and7_s1 : s1 &&& 7 = 2 := by decide
theorem and7_s2 : s2 &&& 7 = 3 := by decide
theorem and7_s3 : s3 &&& 7 = 3 := by decide
theorem and7_s4 : s4 &&& 7 = 3 := by decide
theorem and7_s5 : s5 &&& 7 = 4 := by decide
theorem and7_s6 : s6 &&& 7 = 4 := by decide
theorem and7_s7 : s7 &&& 7 = 4 := by decide

theorem FullRune_append (p q : List Byte) (h : FullRune p = true) :
    DecodeRune (p ++ q) = DecodeRune p := by
  rcases p with _ | ⟨a, _ | ⟨b, _ | ⟨c, _ | ⟨d, t⟩⟩⟩⟩
  · simp [FullRune] at h
  all_goals
    rcases first_cases a with hx | hx | hx | hx | hx | hx | hx | hx | hx <;>
    simp [FullRune, DecodeRune, hx, and7_as, and7_xx, and7_s1, and7_s2, and7_s3, and7_s4,
      and7_s5, and7_s6, and7_s7] at h ⊢ <;>
    simp [as, xx, s1, s2, s3, s4, s5, s6, s7, acceptRanges, locb, hicb] at h ⊢ <;>
    first
      | omega
      | (intros; unfold Byte at *; omega)
      | (split_ifs <;> first | rfl | omega)


theorem FullRune_of_four (p : List Byte) (h : 4 ≤ p.length) : FullRune p = true := by
  rcases p with _ | ⟨a, t⟩
  · simp at h
  · rcases first_cases a with hx | hx | hx | hx | hx | hx | hx | hx | hx <;>
    simp [FullRune, hx, and7_as, and7_xx, and7_s1, and7_s2, and7_s3, and7_s4,
      and7_s5, and7_s6, and7_s7] <;>
    (simp at h; omega)

theorem DecodeRune_size_le (p : List Byte) : (DecodeRune p).2 ≤ p.length := by
  rcases p with _ | ⟨a, t⟩
  · simp [DecodeRune]
  · rcases first_cases a with hx | hx | hx | hx | hx | hx | hx | hx | hx <;>
    simp [DecodeRune, hx, and7_as, and7_xx, and7_s1, and7_s2, and7_s3, and7_s4,
      and7_s5, and7_s6, and7_s7] <;>
    simp [as, xx, s1, s2, s3, s4, s5, s6, s7] <;>
    (split_ifs <;> omega)

theorem DecodeRune_size_pos (p : List Byte) (h : p ≠ []) : 1 ≤ (DecodeRune p).2 := by
  rcases p with _ | ⟨a, t⟩
  · exact absurd rfl h
  · rcases first_cases a with hx | hx | hx | hx | hx | hx | hx | hx | hx <;>
    simp [DecodeRune, hx, and7_as, and7_xx, and7_s1, and7_s2, and7_s3, and7_s4,
      and7_s5, and7_s6, and7_s7] <;>
    simp [as, xx, s1, s2, s3, s4, s5, s6, s7] <;>
    (split_ifs <;> omega)

theorem DecodeRune_ascii (p : List Byte) (h : p ≠ []) (hb : p.getD 0 0 < RuneSelf) :
    DecodeRune p = (p.getD 0 0, 1) := by
  rcases p with _ | ⟨a, t⟩
  · exact absurd rfl h
  · simp [RuneSelf] at hb
    have : first a = as := by simp [first, hb]
    simp [DecodeRune, this, as]

end utf8

/-- The unread bytes `buf[r:w]` of a cursor over `B`. -/
theorem Inv.unread {B : List Byte} {rr : RegexReader} (h : Inv B rr) :
    slice rr.buf rr.r rr.w
      = .ok ((B.take rr.sourceReadBytes.toNat).drop rr.readBytes.toNat) := by
  obtain ⟨rn, hrn⟩ := Int.eq_ofNat_of_zero_le h.r_nonneg
  obtain ⟨wn, hwn⟩ := Int.eq_ofNat_of_zero_le (le_trans h.r_nonneg h.r_le_w)
  obtain ⟨sn, hsn⟩ := Int.eq_ofNat_of_zero_le
    (le_trans (le_trans h.r_nonneg h.r_le_w) h.w_le_srb)
  have h1 := h.r_le_w
  have h2 := h.w_le_cap
  have h3 := h.w_le_srb
  have h4 := h.srb_le
  have hwin := h.window
  have hpos := h.pos
  rw [hrn, hwn] at h1
  rw [hwn] at h2 h3 hwin
  rw [hsn] at h3 h4 hwin
  rw [hrn, hwn, hsn] at hpos
  have e1 : ((sn : Int) - wn).toNat = sn - wn := by omega
  have e2 : rr.readBytes.toNat = sn - wn + rn := by omega
  simp only [Int.toNat_ofNat, e1] at hwin
  have hcur : rr.buf.take wn = (B.take sn).drop (sn - wn) := by
    have := congrArg (List.drop rr.buf.length) hwin
    rw [List.drop_left' h.prev_len, List.drop_drop] at this
    rw [this]
    have hz : (List.replicate rr.buf.length (0 : Byte)).length = rr.buf.length := by simp
    rw [show sn - wn + rr.buf.length = (List.replicate rr.buf.length (0 : Byte)).length + (sn - wn)
      by rw [hz]; omega, List.drop_append]
  rw [hrn, hwn, hsn, slice_ok _ _ _ (by omega) (by omega), ← List.drop_take, hcur, List.drop_drop,
    e2]
  simp only [Int.toNat_ofNat]


theorem Inv.unread_length {B : List Byte} {rr : RegexReader} (h : Inv B rr) :
    (((B.take rr.sourceReadBytes.toNat).drop rr.readBytes.toNat).length : Int) = rr.w - rr.r := by
  have h0 := h.r_nonneg
  have h1 := h.r_le_w
  have h3 := h.w_le_srb
  have h4 := h.srb_le
  have hpos := h.pos
  simp only [List.length_drop, List.length_take]
  omega

theorem Inv.cond_eq {B : List Byte} {rr : RegexReader} (h : Inv B rr) :
    ReadRune.cond rr = .ok (decide (rr.w - rr.r < 4)
      && !utf8.FullRune ((B.take rr.sourceReadBytes.toNat).drop rr.readBytes.toNat)
      && rr.err.isNone) := by
  have hcap := h.cap
  have h2 := h.w_le_cap
  have h0 := h.r_nonneg
  unfold ReadRune.cond
  simp only [utf8.UTFMax, minReadBufferSize] at *
  by_cases hlt : rr.w - rr.r < 4
  · have : rr.r + ((4 : Nat) : Int) > rr.w := by omega
    have h5 : rr.w - rr.r < rr.buf.length := by omega
    simp only [this, if_true, h.unread, bind, Except.bind, pure, Except.pure, hlt, h5,
      decide_True, Bool.and_true, Bool.true_and]
  · have : ¬ rr.r + ((4 : Nat) : Int) > rr.w := by omega
    simp only [this, if_false, hlt, decide_False, Bool.false_and, pure, Except.pure]

theorem loop_of_cond_false (n : Nat) (rr : RegexReader) (h : ReadRune.cond rr = .ok false) :
    ReadRune.loop n rr = .ok rr := by
  unfold ReadRune.loop
  simp only [h, bind, Except.bind]
  rfl

theorem ReadRune_loop_spec (B : List Byte) (n : Nat) (rr : RegexReader) (h : Inv B rr)
    (hn : 4 ≤ n + (rr.w - rr.r)) :
    ∃ rr', ReadRune.loop n rr = .ok rr' ∧ Inv B rr' ∧ ReadRune.cond rr' = .ok false
      ∧ rr'.readBytes = rr.readBytes ∧ rr'.prevReadBytes = rr.prevReadBytes
      ∧ rr'.pattern = rr.pattern ∧ rr'.rd.readerAt = rr.rd.readerAt
      ∧ (Settled rr → Settled rr') := by
  induction n generalizing rr with
  | zero =>
    have hc := h.cond_eq
    have : ¬ (rr.w - rr.r < 4) := by omega
    simp only [this, decide_False, Bool.false_and] at hc
    exact ⟨rr, loop_of_cond_false _ _ hc, h, hc, rfl, rfl, rfl, rfl, id⟩
  | succ m ih =>
    have hc := h.cond_eq
    cases hb : (decide (rr.w - rr.r < 4)
      && !utf8.FullRune ((B.take rr.sourceReadBytes.toNat).drop rr.readBytes.toNat)
      && rr.err.isNone) with
    | false =>
      rw [hb] at hc
      exact ⟨rr, loop_of_cond_false _ _ hc, h, hc, rfl, rfl, rfl, rfl, id⟩
    | true =>
      rw [hb] at hc
      simp only [Bool.and_eq_true, decide_eq_true_eq, Bool.not_eq_true', Option.isNone_iff_eq_none]
        at hb
      obtain ⟨⟨hlt, _⟩, herr⟩ := hb
      have hcap := h.cap
      simp only [minReadBufferSize] at hcap
      obtain ⟨data, rr1, hf, hpost, hinv1⟩ := fill_inv B rr h (by omega)
      have hstep : ReadRune.loop (m + 1) rr = ReadRune.loop m rr1 := by
        rw [ReadRune.loop]
        simp only [hc, bind, Except.bind, hf, if_true]
      rw [hstep]
      have hset : Settled rr → Settled rr1 := by
        intro hs
        have := hpost.settled hs.1
        refine ⟨this.1, ?_⟩
        rcases this.2 with ⟨h1, _⟩ | h2
        · left; rw [h1, herr]
        · right; exact h2
      by_cases hd : data = []
      · have he := hpost.progress hd
        have hc1 := hinv1.cond_eq
        have : rr1.err.isNone = false := by
          cases hh : rr1.err with
          | none => rw [hh] at he; simp at he
          | some e => rfl
        rw [this, Bool.and_false] at hc1
        exact ⟨rr1, loop_of_cond_false _ _ hc1, hinv1, hc1, hpost.readBytes_eq,
          hpost.prevReadBytes_eq, hpost.pattern_eq, hpost.readerAt_eq, hset⟩
      · have hlen : 0 < data.length := List.length_pos.mpr hd
        have hw := hpost.w_eq
        have hr := hpost.r_eq
        obtain ⟨rr', h1, h2, h3, h4, h5, h6, h7, h8⟩ := ih rr1 hinv1 (by omega)
        exact ⟨rr', h1, h2, h3, h4.trans hpost.readBytes_eq, h5.trans hpost.prevReadBytes_eq,
          h6.trans hpost.pattern_eq, h7.trans hpost.readerAt_eq, fun hs => h8 (hset hs)⟩


theorem ReadRune_spec (B : List Byte) (rr : RegexReader) (h : Inv B rr) :
    ∃ out rr', ReadRune rr = .ok (out, rr') ∧ Inv B rr'
      ∧ rr'.readBytes = rr.readBytes + out.2.1 ∧ rr'.prevReadBytes = rr.prevReadBytes
      ∧ rr'.pattern = rr.pattern ∧ rr'.rd.readerAt = rr.rd.readerAt
      ∧ (out.2.2 = none → 1 ≤ out.2.1)
      ∧ (Settled rr → Settled rr' ∧ out = runeAt B rr.readBytes.toNat) := by
  have h0 := h.r_nonneg
  have h1 := h.r_le_w
  obtain ⟨rr1, hl, hinv, hc, e1, e2, e3, e4, hset⟩ :=
    ReadRune_loop_spec B utf8.UTFMax rr h (by simp only [utf8.UTFMax]; omega)
  have hcond := hinv.cond_eq
  rw [hc] at hcond
  have hU := hinv.unread
  have hUl := hinv.unread_length
  have q0 := hinv.r_nonneg
  have q1 := hinv.r_le_w
  have q2 := hinv.w_le_cap
  have q3 := hinv.w_le_srb
  have q4 := hinv.srb_le
  have q5 := hinv.pos
  have q6 := hinv.stream
  set U := (B.take rr1.sourceReadBytes.toNat).drop rr1.readBytes.toNat with hUdef
  have hsplit : B.drop rr1.readBytes.toNat = U ++ B.drop rr1.sourceReadBytes.toNat := by
    have : rr1.sourceReadBytes.toNat = rr1.readBytes.toNat + (rr1.sourceReadBytes.toNat - rr1.readBytes.toNat) := by
      omega
    rw [hUdef, List.drop_take]
    conv_lhs => rw [← List.take_append_drop (rr1.sourceReadBytes.toNat - rr1.readBytes.toNat)
      (B.drop rr1.readBytes.toNat)]
    rw [List.drop_drop, ← this]
  by_cases hrw : rr1.r = rr1.w
  · -- the buffer is drained: the latched signal is handed out
    have hUnil : U = [] := List.eq_nil_of_length_eq_zero (by omega)
    have herr : rr1.err.isNone = false := by
      have : rr1.w - rr1.r < 4 := by omega
      simpa [hUnil, utf8.FullRune, this] using hcond.symm
    refine ⟨(0, 0, rr1.err), { rr1 with err := none }, ?_, ?_, ?_, e2, e3, e4, ?_, ?_⟩
    · unfold ReadRune
      simp only [hl, bind, Except.bind, hrw, if_true, readErr, pure, Except.pure]
    · exact { hinv with }
    · simp [e1]
    · intro hnone
      simp only at hnone
      rw [hnone] at herr
      simp at herr
    · intro hs
      obtain ⟨hwb, hcase⟩ := hset hs
      rcases hcase with hnone | ⟨heof, hscript⟩
      · rw [hnone] at herr; simp at herr
      · refine ⟨⟨hwb, Or.inl rfl⟩, ?_⟩
        rw [hscript] at q6
        have hlen : B.length ≤ rr1.sourceReadBytes.toNat := by
          have := congrArg List.length q6
          simp only [remaining, List.length_nil, List.length_drop] at this
          omega
        have : ¬ rr.readBytes.toNat < B.length := by omega
        simp only [runeAt, this, if_false, heof]
  · -- a rune is decoded from the unread bytes
    have hUne : U ≠ [] := by
      intro hnil
      rw [hnil] at hUl
      simp at hUl
      omega
    obtain ⟨rn, hrn⟩ := Int.eq_ofNat_of_zero_le q0
    obtain ⟨wn, hwn⟩ := Int.eq_ofNat_of_zero_le (le_trans q0 q1)
    have hb : slice rr1.buf rr1.r (rr1.r + 1) = .ok (U.take 1) := by
      have hU' := hU
      rw [hrn, hwn, slice_ok _ _ _ (by omega) (by omega)] at hU'
      have hU'' : (rr1.buf.drop rn).take (wn - rn) = U := by
        injection hU'
      rw [hrn, show ((rn : Int) + 1) = ((rn + 1 : Nat) : Int) by omega,
        slice_ok _ _ _ (by omega) (by omega), ← hU'', List.take_take]
      congr 2
      omega
    have hg : (U.take 1).getD 0 0 = U.getD 0 0 := by
      cases U with
      | nil => rfl
      | cons a t => rfl
    have hsz := utf8.DecodeRune_size_le U
    have hsp := utf8.DecodeRune_size_pos U hUne
    refine ⟨((utf8.DecodeRune U).1, (utf8.DecodeRune U).2, none),
      { rr1 with r := rr1.r + (utf8.DecodeRune U).2,
                 readBytes := rr1.readBytes + (utf8.DecodeRune U).2 }, ?_, ?_, ?_, e2, e3, e4, ?_, ?_⟩
    · unfold ReadRune
      simp only [hl, bind, Except.bind, hrw, if_false, hb, hg]
      by_cases hge : U.getD 0 0 ≥ utf8.RuneSelf
      · simp only [hge, if_true, hU, pure, Except.pure]
      · rw [utf8.DecodeRune_ascii U hUne (lt_of_not_ge hge)]
        simp only [hge, if_false, pure, Except.pure]
    · exact { hinv with
        r_nonneg := by simp only; omega
        r_le_w := by simp only; omega
        pos := by simp only; omega
        prev_le := by simp only; have := hinv.prev_le; omega }
    · simp [e1]
    · intro _; exact hsp
    · intro hs
      obtain ⟨hwb, hcase⟩ := hset hs
      refine ⟨⟨hwb, hcase⟩, ?_⟩
      have hlt : rr1.readBytes.toNat < B.length := by omega
      have hfull : utf8.DecodeRune (B.drop rr1.readBytes.toNat) = utf8.DecodeRune U := by
        rw [hsplit]
        by_cases hF : utf8.FullRune U = true
        · exact utf8.FullRune_append U _ hF
        · by_cases h4 : rr1.w - rr1.r < 4
          · have hF' : utf8.FullRune U = false := by simpa using hF
            have herr : rr1.err.isNone = false := by
              simpa [h4, hF'] using hcond.symm
            rcases hcase with hnone | ⟨_, hscript⟩
            · rw [hnone] at herr; simp at herr
            · rw [hscript] at q6
              rw [← q6]
              simp [remaining]
          · exact absurd (utf8.FullRune_of_four U (by omega)) hF
      simp only [runeAt, ← e1, hlt, if_true, hfull]


theorem NewRegexReaderSize_inv (src : Source) (re : Regexp) (size : Int) :
    Inv (remaining src.script) (NewRegexReaderSize src re size) := by
  have hlen : minReadBufferSize
      ≤ ((if size < minReadBufferSize then minReadBufferSize else size).toNat : Int) := by
    simp only [minReadBufferSize]
    split_ifs <;> omega
  constructor <;> simp [NewRegexReaderSize]
  · simpa using hlen

/-- The fields of the reader after any returning call of `getLastBytes`. -/
theorem getLastBytes_fields {rr rr' : RegexReader} {n l : Int}
    {res : Option (List Byte) × Option Error}
    (h : getLastBytes rr n l = .ok (res, rr')) :
    rr'.readBytes = rr.prevReadBytes + n + l
      ∧ rr'.prevReadBytes = rr.prevReadBytes + n + l
      ∧ rr'.r = rr.r - (rr.readBytes - (rr.prevReadBytes + n + l))
      ∧ rr'.w = rr.w ∧ rr'.buf = rr.buf ∧ rr'.prevBuf = rr.prevBuf
      ∧ rr'.sourceReadBytes = rr.sourceReadBytes ∧ rr'.rd = rr.rd ∧ rr'.err = rr.err
      ∧ rr'.pattern = rr.pattern
      ∧ (res.2 = none → 0 ≤ rr'.r ∧ res.1.isSome) := by
  unfold getLastBytes at h
  by_cases hneg : rr.r - (rr.readBytes - (n + rr.prevReadBytes + l)) < 0
  · simp only [resetReaderTo, hneg, if_true, Option.isSome_some, bind, Except.bind, pure,
      Except.pure] at h
    injection h with h
    injection h with ha hb
    subst ha hb
    refine ⟨by simp only; omega, by simp only; omega, by simp only; omega, rfl, rfl, rfl, rfl,
      rfl, rfl, rfl, ?_⟩
    intro hnone
    simp at hnone
  · simp only [resetReaderTo, hneg, if_false, Option.isSome_none, Bool.false_eq_true, bind,
      Except.bind, pure, Except.pure] at h
    cases hm : makeBytes l with
    | error e => rw [hm] at h; simp at h
    | ok result =>
      rw [hm] at h
      simp only at h
      split at h
      · injection h with h
        injection h with ha hb
        subst ha hb
        refine ⟨by simp only; omega, by simp only; omega, by simp only; omega, rfl, rfl, rfl,
          rfl, rfl, rfl, rfl, ?_⟩
        intro _
        exact ⟨by simp only; omega, rfl⟩
      · split at h
        · simp at h
        · injection h with h
          injection h with ha hb
          subst ha hb
          refine ⟨by simp only; omega, by simp only; omega, by simp only; omega, rfl, rfl, rfl,
            rfl, rfl, rfl, rfl, ?_⟩
          intro _
          exact ⟨by simp only; omega, rfl⟩


/-- The window lookup at a base offset inside the retained pair `prevBuf ++ buf[:w]`. -/
theorem window_at (rr : RegexReader) (n : Int) (bo l wn : Nat)
    (hbo : n - bufLower rr = bo) (hwC : wn ≤ rr.buf.length)
    (hp : rr.prevBuf.length = rr.buf.length) (hb : bo + l ≤ rr.buf.length + wn) :
    getLastBytes.window rr n l (List.replicate l 0)
      = .ok (((rr.prevBuf ++ rr.buf.take wn).drop bo).take l) := by
  unfold getLastBytes.window
  simp only [hbo]
  by_cases h1 : bo ≥ rr.buf.length
  · obtain ⟨k, rfl⟩ := Nat.exists_eq_add_of_le h1
    have h1' : ((rr.buf.length + k : Nat) : Int) ≥ rr.buf.length := by omega
    have e1 : ((rr.buf.length + k : Nat) : Int) - rr.buf.length = (k : Int) := by omega
    have e2 : (k : Int) + (l : Int) = ((k + l : Nat) : Int) := by omega
    simp only [h1', if_true, e1, e2, bind, Except.bind, pure, Except.pure]
    rw [slice_ok _ _ _ (by omega) (by omega)]
    simp only []
    rw [goCopy_same _ _ (by simp; omega)]
    congr 1
    rw [← hp, List.drop_append, List.drop_take, List.take_take]
    congr 1
    omega
  · have h1' : ¬ (bo : Int) ≥ rr.buf.length := by omega
    have h2' : (bo : Int) < rr.buf.length := by omega
    simp only [h1', if_false, h2', if_true]
    by_cases h3 : bo + l > rr.buf.length
    · have h3' : (bo : Int) + (l : Int) > rr.buf.length := by omega
      have e1 : (rr.buf.length : Int) - (bo : Int) = ((rr.buf.length - bo : Nat) : Int) := by
        omega
      have e2 : (l : Int) - ((rr.buf.length - bo : Nat) : Int)
          = ((l - (rr.buf.length - bo) : Nat) : Int) := by omega
      simp only [h3', if_true, e1, e2, bind, Except.bind, pure, Except.pure]
      rw [sliceFrom_ok _ _ (by omega)]
      simp only []
      rw [sliceFrom_ok _ _ (by rw [goCopy_length]; simp; omega)]
      simp only []
      rw [sliceTo_ok _ _ (by omega)]
      simp only [Int.toNat_ofNat]
      congr 1
      have hl1 : (rr.prevBuf.drop bo).length = rr.buf.length - bo := by simp [hp]
      have hA : goCopy (List.replicate l 0) (rr.prevBuf.drop bo)
          = rr.prevBuf.drop bo ++ (List.replicate l (0 : Byte)).drop (rr.buf.length - bo) := by
        rw [goCopy_short _ _ (by rw [hl1]; simp; omega), hl1]
      have hC : goCopy ((List.replicate l (0 : Byte)).drop (rr.buf.length - bo))
          (rr.buf.take (l - (rr.buf.length - bo))) = rr.buf.take (l - (rr.buf.length - bo)) := by
        apply goCopy_same
        simp only [List.length_take, List.length_drop, List.length_replicate]
        omega
      have hD : (rr.prevBuf.drop bo ++ rr.buf.take wn).take l
          = rr.prevBuf.drop bo ++ rr.buf.take (l - (rr.buf.length - bo)) := by
        rw [List.take_append_eq_append_take, List.take_of_length_le (by rw [hl1]; omega), hl1,
          List.take_take]
        congr 2
        omega
      rw [hA, writeAt, List.take_left' hl1, List.drop_left' hl1, hC,
        List.drop_append_of_le_length (by omega), hD]
    · have h3' : ¬ (bo : Int) + (l : Int) > rr.buf.length := by omega
      have e2 : (bo : Int) + (l : Int) = ((bo + l : Nat) : Int) := by omega
      simp only [h3', if_false]
      simp only [e2, bind, Except.bind, pure, Except.pure]
      rw [slice_ok _ _ _ (by omega) (by omega)]
      simp only []
      rw [goCopy_same _ _ (by simp [hp]; omega)]
      congr 1
      have hl1 : (rr.prevBuf.drop bo).length = rr.buf.length - bo := by simp [hp]
      rw [List.drop_append_of_le_length (by omega),
        List.take_append_of_le_length (by rw [hl1]; omega)]
      congr 1
      omega


theorem getLastBytes_inv {B : List Byte} {rr rr' : RegexReader} {n l : Int}
    {bytes : Option (List Byte)} (h : Inv B rr) (hn : 0 ≤ n) (hl : 0 ≤ l)
    (hend : rr.prevReadBytes + n + l ≤ rr.readBytes)
    (hg : getLastBytes rr n l = .ok ((bytes, none), rr')) : Inv B rr' := by
  obtain ⟨f1, f2, f3, f4, f5, f6, f7, f8, f9, f10, f11⟩ := getLastBytes_fields hg
  have hr := (f11 rfl).1
  have g0 := h.r_nonneg
  have g1 := h.r_le_w
  have g2 := h.pos
  have g3 := h.prev_nonneg
  constructor
  · rw [f5]; exact h.cap
  · rw [f5, f6]; exact h.prev_len
  · exact hr
  · rw [f3, f4]; omega
  · rw [f4, f5]; exact h.w_le_cap
  · rw [f4, f7]; exact h.w_le_srb
  · rw [f7]; exact h.srb_le
  · rw [f7, f8]; exact h.stream
  · rw [f4, f5, f6, f7]; exact h.window
  · rw [f1, f3, f4, f7]; omega
  · rw [f2]; omega
  · rw [f1, f2]

theorem Reachable.inv {src : Source} {re : Regexp} {size : Int} {rr : RegexReader}
    (h : Reachable (NewRegexReaderSize src re size) rr) : Inv (remaining src.script) rr := by
  induction h with
  | start => exact NewRegexReaderSize_inv src re size
  | readRune _ hstep ih =>
    obtain ⟨out, rr', h1, h2, _⟩ := ReadRune_spec _ _ ih
    rw [hstep] at h1
    injection h1 with h1
    injection h1 with _ h1
    rw [h1]; exact h2
  | extract _ hn hl hend hg ih => exact getLastBytes_inv ih hn hl hend hg

theorem Reachable.settled {src : Source} {re : Regexp} {size : Int} {rr : RegexReader}
    (hwb : WellBehaved src.script)
    (h : Reachable (NewRegexReaderSize src re size) rr) : Settled rr := by
  induction h with
  | start => exact ⟨hwb, Or.inl rfl⟩
  | readRune hreach hstep ih =>
    obtain ⟨out, rr', h1, _, _, _, _, _, _, h8⟩ := ReadRune_spec _ _ hreach.inv
    rw [hstep] at h1
    injection h1 with h1
    injection h1 with _ h1
    rw [h1]; exact (h8 ih).1
  | extract _ _ _ _ hg ih =>
    obtain ⟨f1, f2, f3, f4, f5, f6, f7, f8, f9, f10, f11⟩ := getLastBytes_fields hg
    unfold Settled at ih ⊢
    rw [f8, f9]; exact ih

theorem Reachable.readerAt {rr0 rr : RegexReader} (hinv : ∀ rr, Reachable rr0 rr → ∃ B, Inv B rr)
    (h : Reachable rr0 rr) : rr.rd.readerAt = rr0.rd.readerAt := by
  induction h with
  | start => rfl
  | readRune hreach hstep ih =>
    obtain ⟨B, hB⟩ := hinv _ hreach
    obtain ⟨out, rr', h1, _, _, _, _, h6, _⟩ := ReadRune_spec _ _ hB
    rw [hstep] at h1
    injection h1 with h1
    injection h1 with _ h1
    rw [h1, h6]; exact ih
  | extract _ _ _ _ hg ih =>
    obtain ⟨f1, f2, f3, f4, f5, f6, f7, f8, f9, f10, f11⟩ := getLastBytes_fields hg
    rw [f8]; exact ih

theorem Reachable.of_afterReadRunes {rr0 : RegexReader} (k : Nat) {rr rr' : RegexReader}
    (h : Reachable rr0 rr) (hk : afterReadRunes k rr = .ok rr') : Reachable rr0 rr' := by
  induction k generalizing rr with
  | zero =>
    simp only [Streamregex.afterReadRunes, pure, Except.pure] at hk
    injection hk with hk
    rw [← hk]; exact h
  | succ k ih =>
    simp only [Streamregex.afterReadRunes, bind, Except.bind] at hk
    cases hs : ReadRune rr with
    | error e => rw [hs] at hk; simp at hk
    | ok v =>
      obtain ⟨out, rr1⟩ := v
      rw [hs] at hk
      exact ih (Reachable.readRune h hs) hk

theorem Reachable.of_stateAfter (k : Nat) (rr0 : RegexReader) :
    Reachable rr0 (stateAfter k rr0) := by
  unfold Streamregex.stateAfter
  cases hs : Streamregex.afterReadRunes k rr0 with
  | error e => exact Reachable.start
  | ok rr => exact Reachable.of_afterReadRunes k Reachable.start hs

theorem Reachable.readerAt_eq {src : Source} {re : Regexp} {size : Int} {rr : RegexReader}
    (h : Reachable (NewRegexReaderSize src re size) rr) : rr.rd.readerAt = src.readerAt :=
  Reachable.readerAt (fun _ hr => ⟨_, hr.inv⟩) h

/-- The bytes of the retained pair at an absolute offset inside the window. -/
theorem Inv.window_bytes {B : List Byte} {rr : RegexReader} (h : Inv B rr) (a l bo sn wn : Nat)
    (hs : rr.sourceReadBytes = sn) (hw : rr.w = wn)
    (hbo : bo + sn = a + rr.buf.length + wn) (hal : a + l ≤ sn) :
    ((rr.prevBuf ++ rr.buf.take wn).drop bo).take l = (B.drop a).take l := by
  have h3 := h.w_le_srb
  have h4 := h.srb_le
  have hwin := h.window
  rw [hs, hw] at hwin h3
  rw [hs] at h4
  have e1 : ((sn : Int) - wn).toNat = sn - wn := by omega
  simp only [Int.toNat_ofNat, e1] at hwin
  have hz : (List.replicate rr.buf.length (0 : Byte)).length = rr.buf.length := by simp
  rw [hwin, List.drop_drop,
    show sn - wn + bo = (List.replicate rr.buf.length (0 : Byte)).length + a by rw [hz]; omega,
    List.drop_append, List.drop_take, List.take_take]
  congr 1
  omega

/-! ## What the reads leave unchanged, in every state -/

theorem Source.Read_readerAt (src : Source) (k : Nat) :
    (src.Read k).2.readerAt = src.readerAt := by
  unfold Source.Read
  split
  · rfl
  · split_ifs <;> rfl

theorem readLoop_readerAt (i : Nat) (rr rr' : RegexReader)
    (h : fill.readLoop i rr = .ok rr') : rr'.rd.readerAt = rr.rd.readerAt := by
  induction i generalizing rr with
  | zero =>
    simp only [fill.readLoop, pure, Except.pure] at h
    injection h with h
    rw [← h]
  | succ i ih =>
    unfold fill.readLoop at h
    cases hs : sliceFrom rr.buf rr.w with
    | error e => rw [hs] at h; simp [bind, Except.bind] at h
    | ok p =>
      rw [hs] at h
      simp only [bind, Except.bind, pure, Except.pure] at h
      split_ifs at h
      · injection h with h
        rw [← h]
        exact Source.Read_readerAt _ _
      · injection h with h
        rw [← h]
        exact Source.Read_readerAt _ _
      · rw [ih _ h]
        exact Source.Read_readerAt _ _

theorem compact_rd (rr rr' : RegexReader) (h : fill.compact rr = .ok rr') : rr'.rd = rr.rd := by
  unfold fill.compact at h
  split_ifs at h
  · simp only [bind, Except.bind, pure, Except.pure] at h
    repeat' split at h
    all_goals first
      | (injection h with h; rw [← h])
      | (exact absurd h (by simp))
  · simp only [bind, Except.bind, pure, Except.pure] at h
    repeat' split at h
    all_goals first
      | (injection h with h; rw [← h])
      | (exact absurd h (by simp))
  · injection h with h
    rw [← h]

theorem fill_readerAt (rr rr' : RegexReader) (h : fill rr = .ok rr') :
    rr'.rd.readerAt = rr.rd.readerAt := by
  unfold fill at h
  cases hc : fill.compact rr with
  | error e => rw [hc] at h; simp [bind, Except.bind] at h
  | ok rr1 =>
    rw [hc] at h
    simp only [bind, Except.bind, pure, Except.pure] at h
    split_ifs at h
    rw [readLoop_readerAt _ _ _ h, compact_rd _ _ hc]

theorem loop_readerAt (n : Nat) (rr rr' : RegexReader) (h : ReadRune.loop n rr = .ok rr') :
    rr'.rd.readerAt = rr.rd.readerAt := by
  induction n generalizing rr with
  | zero =>
    unfold ReadRune.loop at h
    cases hc : ReadRune.cond rr with
    | error e => rw [hc] at h; simp [bind, Except.bind] at h
    | ok b =>
      rw [hc] at h
      cases b
      · simp only [bind, Except.bind, pure, Except.pure] at h
        injection h with h
        rw [← h]
      · simp [bind, Except.bind, throw, throwThe, MonadExceptOf.throw] at h
  | succ n ih =>
    unfold ReadRune.loop at h
    cases hc : ReadRune.cond rr with
    | error e => rw [hc] at h; simp [bind, Except.bind] at h
    | ok b =>
      rw [hc] at h
      cases b
      · simp only [bind, Except.bind, pure, Except.pure] at h
        injection h with h
        rw [← h]
      · simp only [bind, Except.bind, if_true] at h
        cases hf : fill rr with
        | error e => rw [hf] at h; simp at h
        | ok rr1 =>
          rw [hf] at h
          rw [ih _ h, fill_readerAt _ _ hf]

theorem ReadRune_readerAt (rr rr' : RegexReader) (out : Rune × Nat × Option Error)
    (h : ReadRune rr = .ok (out, rr')) : rr'.rd.readerAt = rr.rd.readerAt := by
  unfold ReadRune at h
  cases hl : ReadRune.loop utf8.UTFMax rr with
  | error e => rw [hl] at h; simp [bind, Except.bind] at h
  | ok rr1 =>
    rw [hl] at h
    simp only [bind, Except.bind, pure, Except.pure, readErr] at h
    have h1 := loop_readerAt _ _ _ hl
    split_ifs at h
    · injection h with h
      injection h with _ h
      rw [← h, ← h1]
    · repeat' split at h
      all_goals first
        | (injection h with h; injection h with _ h; rw [← h, ← h1])
        | (exact absurd h (by simp))

/-! ## Auxiliary facts for the claims -/

/-- A slice expression with a negative low bound is a runtime fault. -/
theorem slice_neg (s : List Byte) (lo hi : Int) (h : lo < 0) :
    slice s lo hi = .error Abort.sliceBounds := by
  have : ¬ (0 ≤ lo ∧ lo ≤ hi ∧ hi ≤ s.length) := by omega
  simp only [slice, this, if_false]

/-- The engine's reads leave the random-access capability of the source as it is. -/
theorem FindReaderIndex_readerAt (fuel : Nat) (rr rr' : RegexReader) (seen : List (Rune × Nat))
    (loc : Option (Int × Int)) (h : FindReaderIndex fuel rr seen = .ok (loc, rr')) :
    rr'.rd.readerAt = rr.rd.readerAt := by
  induction fuel generalizing rr seen with
  | zero => simp [FindReaderIndex, throw, throwThe, MonadExceptOf.throw] at h
  | succ fuel ih =>
    unfold FindReaderIndex at h
    split_ifs at h
    · cases hs : ReadRune rr with
      | error e => rw [hs] at h; simp [bind, Except.bind] at h
      | ok v =>
        obtain ⟨⟨r, size, err⟩, rr1⟩ := v
        rw [hs] at h
        simp only [bind, Except.bind, pure, Except.pure] at h
        have h1 := ReadRune_readerAt _ _ _ hs
        split_ifs at h
        · injection h with h
          injection h with _ h
          rw [← h, h1]
        · rw [ih _ _ h, h1]
    · simp only [pure, Except.pure] at h
      injection h with h
      injection h with _ h
      rw [← h]

/-- Without random access the only error `getLastBytes` returns is the rewind error. -/
theorem getLastBytes_error {rr rr' : RegexReader} {n l : Int} {res : Option (List Byte)}
    {e : Error} (hsrc : rr.rd.readerAt = none)
    (h : getLastBytes rr n l = .ok ((res, some e), rr')) :
    ∃ k, e = Error.negativeReadPosition k := by
  unfold getLastBytes at h
  by_cases hneg : rr.r - (rr.readBytes - (n + rr.prevReadBytes + l)) < 0
  · simp only [resetReaderTo, hneg, if_true, Option.isSome_some, bind, Except.bind, pure,
      Except.pure] at h
    injection h with h
    injection h with h _
    injection h with _ h
    injection h with h
    exact ⟨_, h.symm⟩
  · simp only [resetReaderTo, hneg, if_false, Option.isSome_none, Bool.false_eq_true, bind,
      Except.bind, pure, Except.pure, hsrc] at h
    repeat' split at h
    all_goals exact absurd h (by simp)

/-- A rewind that would leave the read position negative: `getLastBytes` returns the rewind
error and no bytes, without looking at the source or the window. -/
theorem getLastBytes_rewind_fails (rr : RegexReader) (n l : Int)
    (h : rr.r < rr.readBytes - (rr.prevReadBytes + n + l)) :
    getLastBytes rr n l
      = .ok ((none, some (Error.negativeReadPosition
          (rr.r - (rr.readBytes - (rr.prevReadBytes + n + l))))),
        { rr with
          readBytes := rr.readBytes - (rr.readBytes - (rr.prevReadBytes + n + l))
          r := rr.r - (rr.readBytes - (rr.prevReadBytes + n + l))
          prevReadBytes := rr.readBytes - (rr.readBytes - (rr.prevReadBytes + n + l)) }) := by
  have hcomm : n + rr.prevReadBytes = rr.prevReadBytes + n := by omega
  have hneg : rr.r - (rr.readBytes - (rr.prevReadBytes + n + l)) < 0 := by omega
  unfold getLastBytes
  simp only [hcomm]
  simp only [resetReaderTo, hneg, if_true, Option.isSome_some, bind, Except.bind, pure,
    Except.pure]

/-- Every error `getLastBytes` returns is the rewind error or, for a source with random access,
the error its `ReadAt` returned. -/
theorem getLastBytes_error_origin {rr rr' : RegexReader} {n l : Int} {res : Option (List Byte)}
    {e : Error} (h : getLastBytes rr n l = .ok ((res, some e), rr')) :
    (∃ k, e = Error.negativeReadPosition k)
      ∨ ∃ readAt len off, rr.rd.readerAt = some readAt ∧ (readAt len off).2 = some e := by
  cases hra : rr.rd.readerAt with
  | none => exact Or.inl (getLastBytes_error hra h)
  | some f =>
    unfold getLastBytes at h
    by_cases hneg : rr.r - (rr.readBytes - (n + rr.prevReadBytes + l)) < 0
    · simp only [resetReaderTo, hneg, if_true, Option.isSome_some, bind, Except.bind, pure,
        Except.pure] at h
      injection h with h
      injection h with h _
      injection h with _ h
      injection h with h
      exact Or.inl ⟨_, h.symm⟩
    · simp only [resetReaderTo, hneg, if_false, Option.isSome_none, Bool.false_eq_true, bind,
        Except.bind, pure, Except.pure, hra] at h
      cases hm : makeBytes l with
      | error a => rw [hm] at h; simp at h
      | ok result =>
        rw [hm] at h
        simp only at h
        injection h with h
        injection h with h _
        injection h with _ h
        exact Or.inr ⟨f, _, _, rfl, h⟩

/-- With the buffer drained and an error latched, `ReadRune` returns the error and clears
it. -/
theorem ReadRune_latched (rr : RegexReader) (e : Error) (h0 : 0 ≤ rr.r) (hrw : rr.r = rr.w)
    (hC : rr.w ≤ rr.buf.length) (he : rr.err = some e) :
    ReadRune rr = .ok ((0, 0, some e), { rr with err := none }) := by
  have hcond : ReadRune.cond rr = .ok false := by
    unfold ReadRune.cond
    have h1 : rr.r + ((utf8.UTFMax : Nat) : Int) > rr.w := by
      simp only [utf8.UTFMax]; omega
    have h2 : 0 ≤ rr.r ∧ rr.r ≤ rr.w ∧ rr.w ≤ rr.buf.length := ⟨h0, le_of_eq hrw, hC⟩
    simp only [h1, if_true, slice, h2, and_self, bind, Except.bind, pure, Except.pure, he,
      Option.isNone_some, Bool.and_false, Bool.false_and]
  unfold ReadRune
  rw [loop_of_cond_false _ _ hcond]
  simp only [bind, Except.bind, pure, Except.pure, readErr, if_pos hrw, he]

/-- An extraction that lies in the window returns the source bytes of the match. -/
theorem getLastBytes_clean (B : List Byte) (rr : RegexReader) (n l : Int) (hinv : Inv B rr)
    (hra : rr.rd.readerAt = none) (hn : 0 ≤ n) (hl : 0 ≤ l) (hlC : l ≤ rr.buf.length)
    (hend : rr.prevReadBytes + n + l ≤ rr.readBytes)
    (hrew : rr.readBytes - (rr.prevReadBytes + n + l) ≤ rr.r)
    (hfull : rr.buf.length + rr.w ≤ rr.sourceReadBytes) :
    ∃ rr', getLastBytes rr n l
      = .ok ((some ((B.drop (rr.prevReadBytes + n).toNat).take l.toNat), none), rr') := by
  have g0 := hinv.r_nonneg
  have g1 := hinv.r_le_w
  have g2 := hinv.w_le_cap
  have g3 := hinv.w_le_srb
  have g4 := hinv.srb_le
  have g5 := hinv.pos
  have g6 := hinv.prev_nonneg
  obtain ⟨wn, hwn⟩ := Int.eq_ofNat_of_zero_le (le_trans g0 g1)
  obtain ⟨sn, hsn⟩ := Int.eq_ofNat_of_zero_le (le_trans (le_trans g0 g1) g3)
  obtain ⟨ln, hln⟩ := Int.eq_ofNat_of_zero_le hl
  obtain ⟨a, ha⟩ := Int.eq_ofNat_of_zero_le (add_nonneg g6 hn)
  subst hln
  have hcomm : n + rr.prevReadBytes = (a : Int) := by omega
  have hneg : ¬ rr.r - (rr.readBytes - ((a : Int) + (ln : Int))) < 0 := by omega
  have hmk : makeBytes (ln : Int) = .ok (List.replicate ln 0) := by
    have : ¬ (ln : Int) < 0 := by omega
    simp only [makeBytes, this, if_false, Int.toNat_ofNat]
  have hbl : (a : Int) - bufLower rr = ((a + rr.buf.length + wn - sn : Nat) : Int) := by
    simp only [bufLower]
    omega
  have hwin := window_at
    { rr with readBytes := rr.readBytes - (rr.readBytes - ((a : Int) + (ln : Int))),
              r := rr.r - (rr.readBytes - ((a : Int) + (ln : Int))) }
    (a : Int) (a + rr.buf.length + wn - sn) ln wn hbl (by simp only; omega)
    hinv.prev_len (by simp only; omega)
  simp only at hwin
  rw [hinv.window_bytes a ln (a + rr.buf.length + wn - sn) sn wn hsn hwn (by omega) (by omega)]
    at hwin
  refine ⟨{ rr with
    readBytes := rr.readBytes - (rr.readBytes - ((a : Int) + (ln : Int)))
    r := rr.r - (rr.readBytes - ((a : Int) + (ln : Int)))
    prevReadBytes := rr.readBytes - (rr.readBytes - ((a : Int) + (ln : Int))) }, ?_⟩
  unfold getLastBytes
  simp only [hcomm]
  simp only [resetReaderTo, hneg, if_false, Option.isSome_none, Bool.false_eq_true, bind,
    Except.bind, pure, Except.pure, hmk, hra, hwin, ha, Int.toNat_ofNat]

/-- On an exhausted, empty source `ReadRune` reports end-of-stream and leaves the new reader as it
was. -/
theorem ReadRune_drained :
    ReadRune (NewRegexReaderSize (pipe []) reStarX 16)
      = .ok ((0, 0, some Error.EOF), NewRegexReaderSize (pipe []) reStarX 16) := by
  rfl

/-- Extracting the empty match at offset 0 leaves the new reader as it was. -/
theorem getLastBytes_drained :
    getLastBytes (NewRegexReaderSize (pipe []) reStarX 16) 0 0
      = .ok ((some [], none), NewRegexReaderSize (pipe []) reStarX 16) := by
  rfl

/-- On an exhausted, empty source the engine for `x*` reports the empty match at offset 0. -/
theorem FindReaderIndex_drained (fuel : Nat) :
    FindReaderIndex (fuel + 1) (NewRegexReaderSize (pipe []) reStarX 16) []
      = .ok (some (0, 0), NewRegexReaderSize (pipe []) reStarX 16) := by
  unfold FindReaderIndex
  have hm : (NewRegexReaderSize (pipe []) reStarX 16).pattern.more [] = true := rfl
  simp only [hm, if_true, ReadRune_drained, bind, Except.bind, pure, Except.pure,
    Option.isSome_some]
  rfl

/-- Decoding a whole buffer does not depend on the budget once it covers the buffer. -/
theorem decodeAll_go_fuel (k1 k2 : Nat) (p : List Byte) (h1 : p.length ≤ k1)
    (h2 : p.length ≤ k2) : decodeAll.go k1 p = decodeAll.go k2 p := by
  induction k1 generalizing k2 p with
  | zero =>
    have : p = [] := List.eq_nil_of_length_eq_zero (by omega)
    subst this
    cases k2 <;> simp [decodeAll.go]
  | succ k1 ih =>
    cases k2 with
    | zero =>
      have : p = [] := List.eq_nil_of_length_eq_zero (by omega)
      subst this
      simp [decodeAll.go]
    | succ k2 =>
      by_cases hp : p = []
      · simp [decodeAll.go, hp]
      · have hpos := utf8.DecodeRune_size_pos p hp
        have hlen : 0 < p.length := List.length_pos.mpr hp
        simp only [decodeAll.go, hp, if_false]
        rw [ih k2 _ (by simp only [List.length_drop]; omega)
          (by simp only [List.length_drop]; omega)]

/-- The widths of the runes of a whole buffer add up to its length. -/
theorem decodeAll_go_widths (k : Nat) (p : List Byte) (h : p.length ≤ k) :
    ((decodeAll.go k p).map fun x => x.2).sum = p.length := by
  induction k generalizing p with
  | zero =>
    have : p = [] := List.eq_nil_of_length_eq_zero (by omega)
    subst this
    simp [decodeAll.go]
  | succ k ih =>
    by_cases hp : p = []
    · simp [decodeAll.go, hp]
    · have hpos := utf8.DecodeRune_size_pos p hp
      have hle := utf8.DecodeRune_size_le p
      simp only [decodeAll.go, hp, if_false, List.map_cons, List.sum_cons]
      rw [ih _ (by simp only [List.length_drop]; omega)]
      simp only [List.length_drop]
      omega

/-- From a cursor over a well-behaved source, successive `ReadRune` calls return the runes of the
rest of the stream and then end-of-stream. -/
theorem readRunes_spec (B : List Byte) (k : Nat) (rr : RegexReader) (h : Inv B rr)
    (hs : Settled rr) (hk : B.length - rr.readBytes.toNat ≤ k) :
    readRunes (k + 1) rr = .ok (decodeAll.go k (B.drop rr.readBytes.toNat), Error.EOF) := by
  induction k generalizing rr with
  | zero =>
    obtain ⟨out, rr', h1, _, _, _, _, _, _, h8⟩ := ReadRune_spec B rr h
    have hout := (h8 hs).2
    have : ¬ rr.readBytes.toNat < B.length := by omega
    simp only [runeAt, this, if_false] at hout
    subst hout
    simp only [readRunes, h1, bind, Except.bind, pure, Except.pure, decodeAll.go]
  | succ k ih =>
    obtain ⟨out, rr', h1, h2, h3, _, _, _, _, h8⟩ := ReadRune_spec B rr h
    have hout := (h8 hs).2
    have hs' := (h8 hs).1
    by_cases hlt : rr.readBytes.toNat < B.length
    · simp only [runeAt, hlt, if_true] at hout
      subst hout
      have hne : B.drop rr.readBytes.toNat ≠ [] := by
        intro hnil
        have := congrArg List.length hnil
        simp only [List.length_drop, List.length_nil] at this
        omega
      have hpos := utf8.DecodeRune_size_pos _ hne
      have hrb : rr'.readBytes.toNat
          = rr.readBytes.toNat + (utf8.DecodeRune (B.drop rr.readBytes.toNat)).2 := by
        have g0 := h.r_nonneg
        have g1 := h.r_le_w
        have g3 := h.w_le_srb
        have g5 := h.pos
        simp only at h3
        omega
      have hrest := ih rr' h2 hs' (by omega)
      rw [readRunes]
      simp only [h1, bind, Except.bind, hrest, pure, Except.pure]
      rw [decodeAll.go]
      simp only [hne, if_false, hrb, List.drop_drop]
    · simp only [runeAt, hlt, if_false] at hout
      subst hout
      have hnil : B.drop rr.readBytes.toNat = [] := List.drop_eq_nil_of_le (by omega)
      rw [readRunes]
      simp only [h1, bind, Except.bind, pure, Except.pure, hnil, decodeAll.go, if_true]

/-! ## The claims -/

/-! ### C1 -/

/-- C1, counterexample.  Capacity 16, a source without random access.  (a) After the reads `ab`,
`cd` and three `ReadRune` calls, the match (0, 1) ends before the delivered position 3, but
its end was moved out of `buf` by the refill: `getLastBytes` returns the rewind error.  (b)
With the one-byte input `a`, after one `ReadRune`, `getLastBytes(0, 1)` returns the byte 0,
not the source byte `a` at offset 0. -/
theorem getLastBytes_window_counterexample :
    extractAfter 3 (NewRegexReaderSize (pipe [[0x61, 0x62], [0x63, 0x64]]) reRunA 16) 0 1
        = .ok (none, some (Error.negativeReadPosition (-1)))
      ∧ extractAfter 1 (NewRegexReaderSize (pipe [[0x61]]) reRunA 16) 0 1 = .ok (some [0], none)
      ∧ ((remaining (pipe [[0x61]]).script).drop 0).take 1 = [0x61] := by
  decide!

/-- C1, amended.  For a source without random access and every cursor state reached from a new
`RegexReader` by `ReadRune` calls and successful extractions, and a match (start `n >= 0`,
length `0 < l <= len(buf)`) that ends at or before `readBytes`: if the rewind distance
`readBytes - end` is at most `r` and `len(buf) + w <= sourceReadBytes`, then `getLastBytes(n,
l)` returns exactly the `l` source bytes at the absolute offsets from `prevReadBytes + n` on,
whichever of the three copy branches applies; if the rewind distance is greater than `r`, it
returns no bytes and the rewind error with the negative read position. -/
theorem getLastBytes_window_amended (src : Source) (re : Regexp) (size : Int)
    (rr : RegexReader) (n l : Int) (hsrc : src.readerAt = none)
    (hreach : Reachable (NewRegexReaderSize src re size) rr)
    (hn : 0 ≤ n) (hl : 0 < l) (hlC : l ≤ rr.buf.length)
    (hend : rr.prevReadBytes + n + l ≤ rr.readBytes) :
    (rr.readBytes - (rr.prevReadBytes + n + l) ≤ rr.r →
        rr.buf.length + rr.w ≤ rr.sourceReadBytes →
        ∃ rr', getLastBytes rr n l
          = .ok ((some (((remaining src.script).drop (rr.prevReadBytes + n).toNat).take l.toNat),
              none), rr'))
      ∧ (rr.r < rr.readBytes - (rr.prevReadBytes + n + l) →
        ∃ rr', getLastBytes rr n l
          = .ok ((none, some (Error.negativeReadPosition
              (rr.r - (rr.readBytes - (rr.prevReadBytes + n + l))))), rr')) := by
  refine ⟨fun hrew hfull => ?_, fun hfail => ⟨_, getLastBytes_rewind_fails rr n l hfail⟩⟩
  exact getLastBytes_clean _ rr n l hreach.inv (by rw [hreach.readerAt_eq, hsrc]) hn
    (le_of_lt hl) hlC hend hrew hfull

/-- C1, witness: capacity 16, the 36-byte sample read through a pipe, 17 runes decoded (one
refill); the match at offsets 4 to 16 is returned as `bob@test.com`, and the match at the
offsets 4 to 15, whose end the refill moved out of `buf`, gives the rewind error. -/
theorem getLastBytes_window_amended_witness :
    (∃ rr', getLastBytes (stateAfter 17 (NewRegexReaderSize (pipe [sample]) reRunA 16)) 4 12
        = .ok ((some sampleMatch, none), rr'))
      ∧ ∃ rr', getLastBytes (stateAfter 17 (NewRegexReaderSize (pipe [sample]) reRunA 16)) 4 11
        = .ok ((none, some (Error.negativeReadPosition (-1))), rr') := by
  constructor
  · obtain ⟨rr', h⟩ := (getLastBytes_window_amended (pipe [sample]) reRunA 16
      (stateAfter 17 (NewRegexReaderSize (pipe [sample]) reRunA 16)) 4 12 rfl
      (Reachable.of_stateAfter _ _) (by decide) (by decide) (by decide!) (by decide!)).1
      (by decide!) (by decide!)
    refine ⟨rr', ?_⟩
    rw [h]
    have : ((remaining (pipe [sample]).script).drop
        ((stateAfter 17 (NewRegexReaderSize (pipe [sample]) reRunA 16)).prevReadBytes + 4).toNat).take
          (12 : Int).toNat = sampleMatch := by decide!
    rw [this]
  · obtain ⟨rr', h⟩ := (getLastBytes_window_amended (pipe [sample]) reRunA 16
      (stateAfter 17 (NewRegexReaderSize (pipe [sample]) reRunA 16)) 4 11 rfl
      (Reachable.of_stateAfter _ _) (by decide) (by decide) (by decide!) (by decide!)).2
      (by decide!)
    refine ⟨rr', ?_⟩
    rw [h]
    have : (stateAfter 17 (NewRegexReaderSize (pipe [sample]) reRunA 16)).r
        - ((stateAfter 17 (NewRegexReaderSize (pipe [sample]) reRunA 16)).readBytes
          - ((stateAfter 17 (NewRegexReaderSize (pipe [sample]) reRunA 16)).prevReadBytes
            + 4 + 11)) = -1 := by decide!
    rw [this]

/-! ### C2 -/

/-- C2, the code at the failing inputs.  Through a source without random access, with the pattern
`a+`: the one-byte input `a` (capacity 16) is delivered as one zero byte, and on the 36-byte
sample (capacity 64) the matches `aaa` and `a` are delivered as zero bytes. -/
theorem FindAllMatchesFunc_small_input_zero_bytes :
    (FindAllMatchesFunc 10 (NewRegexReaderSize (pipe [[0x61]]) reRunA 16) []).map (fun x => x.1)
        = .ok ([[0]], none)
      ∧ (FindAllMatchesFunc 40 (NewRegexReaderSize (pipe [sample]) reRunA 64) []).map
          (fun x => x.1) = .ok ([[0, 0, 0], [0]], none) := by
  decide!

/-! ### C3 -/

/-- C3, counterexample: capacity 16, the sample read through a pipe, 33 runes decoded; the match (0,
33) starts below `bufLower() = 16`, and `getLastBytes` does not return an error: it aborts with
a slice-bounds fault. -/
theorem getLastBytes_below_bufLower_counterexample :
    (stateAfter 33 (NewRegexReaderSize (pipe [sample]) reRunA 16)).prevReadBytes + 0
        < bufLower (stateAfter 33 (NewRegexReaderSize (pipe [sample]) reRunA 16))
      ∧ extractAfter 33 (NewRegexReaderSize (pipe [sample]) reRunA 16) 0 33
        = .error Abort.sliceBounds := by
  decide!

/-- C3, amended.  For a source without random access and every cursor state: when the absolute start
`prevReadBytes + n` lies below `bufLower()`, `getLastBytes(n, l)` returns no match bytes, right
or wrong: it returns a nil slice with the rewind error, or it aborts with a runtime fault (slice
bounds out of range, or a negative length). -/
theorem getLastBytes_below_bufLower (rr : RegexReader) (n l : Int)
    (hsrc : rr.rd.readerAt = none) (hlow : rr.prevReadBytes + n < bufLower rr) :
    (∃ rr', getLastBytes rr n l = .ok ((none, some (Error.negativeReadPosition
        (rr.r - (rr.readBytes - (rr.prevReadBytes + n + l))))), rr'))
      ∨ getLastBytes rr n l = .error Abort.sliceBounds
      ∨ getLastBytes rr n l = .error Abort.makeNegative := by
  have hcomm : n + rr.prevReadBytes = rr.prevReadBytes + n := by omega
  unfold getLastBytes
  simp only [hcomm]
  by_cases hneg : rr.r - (rr.readBytes - (rr.prevReadBytes + n + l)) < 0
  · left
    simp only [resetReaderTo, hneg, if_true, Option.isSome_some, bind, Except.bind, pure,
      Except.pure]
    exact ⟨_, rfl⟩
  · right
    simp only [resetReaderTo, hneg, if_false, Option.isSome_none, Bool.false_eq_true, bind,
      Except.bind, pure, Except.pure, hsrc]
    by_cases hl : l < 0
    · right
      simp only [makeBytes, hl, if_true]
    · left
      have hb : bufLower { rr with
          readBytes := rr.readBytes - (rr.readBytes - (rr.prevReadBytes + n + l)),
          r := rr.r - (rr.readBytes - (rr.prevReadBytes + n + l)) } = bufLower rr := rfl
      have h1 : ¬ (rr.prevReadBytes + n - bufLower rr ≥ rr.buf.length) := by omega
      have h2 : rr.prevReadBytes + n - bufLower rr < rr.buf.length := by omega
      simp only [makeBytes, hl, if_false, getLastBytes.window, hb, h1, h2, if_true, bind,
        Except.bind]
      split_ifs
      · rw [sliceFrom, slice_neg _ _ _ (by omega)]
      · rw [slice_neg _ _ _ (by omega)]

/-- C3, witness: the state of the counterexample. -/
theorem getLastBytes_below_bufLower_witness :
    (∃ rr', getLastBytes (stateAfter 33 (NewRegexReaderSize (pipe [sample]) reRunA 16)) 0 33
        = .ok ((none, some (Error.negativeReadPosition
          ((stateAfter 33 (NewRegexReaderSize (pipe [sample]) reRunA 16)).r
            - ((stateAfter 33 (NewRegexReaderSize (pipe [sample]) reRunA 16)).readBytes
              - ((stateAfter 33 (NewRegexReaderSize (pipe [sample]) reRunA 16)).prevReadBytes
                + 0 + 33))))), rr'))
      ∨ getLastBytes (stateAfter 33 (NewRegexReaderSize (pipe [sample]) reRunA 16)) 0 33
        = .error Abort.sliceBounds
      ∨ getLastBytes (stateAfter 33 (NewRegexReaderSize (pipe [sample]) reRunA 16)) 0 33
        = .error Abort.makeNegative :=
  getLastBytes_below_bufLower _ 0 33
    ((Reachable.of_stateAfter 33 (NewRegexReaderSize (pipe [sample]) reRunA 16)).readerAt_eq.trans rfl)
    (by decide!)

/-! ### C4 -/

/-- C4, counterexample: the first read of the source fails with an I/O error; `FindAllMatchesFunc`
and `FindAllMatches` return a nil error and no match. -/
theorem FindAllMatchesFunc_source_error_counterexample :
    (FindAllMatchesFunc 10 (NewRegexReaderSize (failing 5) reRunA 16) []).map (fun x => x.1)
        = .ok ([], none)
      ∧ (FindAllMatches 10 (NewRegexReaderSize (failing 5) reRunA 16)).map (fun x => x.1)
        = .ok ([], none) := by
  decide!

/-- C4, amended.  An error of a source read does not reach the caller of `FindAllMatchesFunc`.
For every source and every cursor state: (a) with the buffer drained and an error latched,
`ReadRune` returns that error once and clears it, and an engine that asked for the rune gives
its verdict for the end of the text; (b) when the engine reports no match, `FindAllMatchesFunc`
returns nil; (c) every non-nil error `FindAllMatchesFunc` returns comes from an extraction: it
is the rewind error or, for a source with random access, an error its `ReadAt` returned. -/
theorem FindAllMatchesFunc_returns_no_read_error (fuel : Nat) (rr : RegexReader)
    (delivered : List (List Byte)) :
    (∀ e seen, 0 ≤ rr.r → rr.r = rr.w → rr.w ≤ rr.buf.length → rr.err = some e →
        ReadRune rr = .ok ((0, 0, some e), { rr with err := none })
          ∧ (rr.pattern.more seen = true →
            FindReaderIndex (fuel + 1) rr seen
              = .ok (rr.pattern.loc seen true, { rr with err := none })))
      ∧ (∀ rr1, FindReaderIndex fuel rr [] = .ok (none, rr1) →
          FindAllMatchesFunc (fuel + 1) rr delivered = .ok ((delivered, none), rr1))
      ∧ (∀ out e rr', FindAllMatchesFunc fuel rr delivered = .ok ((out, some e), rr') →
          (∃ k, e = Error.negativeReadPosition k)
            ∨ ∃ readAt len off, rr.rd.readerAt = some readAt ∧ (readAt len off).2 = some e) := by
  refine ⟨?_, ?_, ?_⟩
  · intro e seen h0 hrw hC he
    have hr := ReadRune_latched rr e h0 hrw hC he
    refine ⟨hr, fun hm => ?_⟩
    unfold FindReaderIndex
    simp only [hm, if_true, hr, bind, Except.bind, Option.isSome_some, pure, Except.pure]
  · intro rr1 h
    unfold FindAllMatchesFunc
    simp only [h, bind, Except.bind, pure, Except.pure]
  · intro out e rr' h
    induction fuel generalizing rr delivered with
    | zero => simp [FindAllMatchesFunc, throw, throwThe, MonadExceptOf.throw] at h
    | succ fuel ih =>
      unfold FindAllMatchesFunc at h
      cases hf : FindReaderIndex fuel rr [] with
      | error a => rw [hf] at h; simp [bind, Except.bind] at h
      | ok v =>
        obtain ⟨loc, rr1⟩ := v
        have h1 : rr1.rd.readerAt = rr.rd.readerAt := FindReaderIndex_readerAt _ _ _ _ _ hf
        rw [hf] at h
        simp only [bind, Except.bind, pure, Except.pure] at h
        cases loc with
        | none =>
          simp only at h
          injection h with h
          injection h with h _
          injection h with _ h
          exact absurd h (by simp)
        | some p =>
          obtain ⟨lo, hi⟩ := p
          simp only at h
          cases hg : getLastBytes rr1 lo (hi - lo) with
          | error a => rw [hg] at h; simp at h
          | ok w =>
            obtain ⟨⟨lastBytes, err⟩, rr2⟩ := w
            rw [hg] at h
            simp only at h
            cases err with
            | some e2 =>
              simp only [Option.isSome_some, if_true] at h
              injection h with h
              injection h with h _
              injection h with _ h
              injection h with h
              subst h
              have := getLastBytes_error_origin hg
              rw [h1] at this
              exact this
            | none =>
              simp only [Option.isSome_none, Bool.false_eq_true, if_false] at h
              have h2 : rr2.rd.readerAt = rr.rd.readerAt := by
                rw [(getLastBytes_fields hg).2.2.2.2.2.2.2.1, h1]
              have := ih rr2 _ h
              rw [h2] at this
              exact this

/-- C4, witness: the reads `ab`, `cd` and an engine that looks ahead to the end of the text
before reporting the leading `a`: the error returned is the rewind error. -/
theorem FindAllMatchesFunc_returns_no_read_error_witness :
    (FindAllMatchesFunc 10 (NewRegexReaderSize (pipe [[0x61, 0x62], [0x63, 0x64]]) reLookahead 16)
        []).map (fun x => x.1) = .ok ([], some (Error.negativeReadPosition (-3)))
      ∧ ((∃ k, Error.negativeReadPosition (-3) = Error.negativeReadPosition k)
        ∨ ∃ readAt len off,
          (NewRegexReaderSize (pipe [[0x61, 0x62], [0x63, 0x64]]) reLookahead 16).rd.readerAt
            = some readAt ∧ (readAt len off).2 = some (Error.negativeReadPosition (-3))) := by
  have hmap : (FindAllMatchesFunc 10
      (NewRegexReaderSize (pipe [[0x61, 0x62], [0x63, 0x64]]) reLookahead 16) []).map
        (fun x => x.1) = .ok ([], some (Error.negativeReadPosition (-3))) := by decide!
  refine ⟨hmap, ?_⟩
  cases h : FindAllMatchesFunc 10
      (NewRegexReaderSize (pipe [[0x61, 0x62], [0x63, 0x64]]) reLookahead 16) [] with
  | error a => rw [h] at hmap; simp [Except.map] at hmap
  | ok v =>
    obtain ⟨⟨out, err⟩, rr'⟩ := v
    rw [h] at hmap
    simp only [Except.map] at hmap
    injection hmap with hmap
    injection hmap with h1 h2
    subst h1 h2
    exact (FindAllMatchesFunc_returns_no_read_error 10 _ []).2.2 _ _ _ h

/-! ### C5 -/

/-- C5, the code at the failing input: on the empty input with the pattern `x*`, whose empty match
the engine reports at every call, the loop of `FindAllMatchesFunc` is still running after any
number of rounds. -/
theorem FindAllMatchesFunc_empty_match_diverges (fuel : Nat) (delivered : List (List Byte)) :
    FindAllMatchesFunc fuel (NewRegexReaderSize (pipe []) reStarX 16) delivered
      = .error Abort.fuel := by
  induction fuel generalizing delivered with
  | zero => rfl
  | succ fuel ih =>
    unfold FindAllMatchesFunc
    cases fuel with
    | zero => rfl
    | succ k =>
      simp only [FindReaderIndex_drained, bind, Except.bind, sub_zero, getLastBytes_drained,
        Option.isSome_none, Bool.false_eq_true, if_false]
      exact ih _

/-! ### C6 -/

/-- C6, counterexample: capacity 16, the reads `ab`, `cd`, three runes decoded (the third after a
refill); the position 1 lies between `prevReadBytes = 0` and `readBytes = 3`, and rewinding to
it fails with the read position -1. -/
theorem resetReaderTo_counterexample :
    (stateAfter 3 (NewRegexReaderSize (pipe [[0x61, 0x62], [0x63, 0x64]]) reRunA 16)).prevReadBytes
        ≤ 1
      ∧ 1 ≤ (stateAfter 3 (NewRegexReaderSize (pipe [[0x61, 0x62], [0x63, 0x64]]) reRunA 16)).readBytes
      ∧ (resetReaderTo
          (stateAfter 3 (NewRegexReaderSize (pipe [[0x61, 0x62], [0x63, 0x64]]) reRunA 16)) 1).1
        = some (Error.negativeReadPosition (-1)) := by
  decide!

/-- C6, amended.  In every cursor state reachable from a new `RegexReader` through `ReadRune` calls
and successful extractions, rewinding to a position `T <= readBytes` succeeds exactly when `T`
is not before the absolute offset of `buf[0]`, which is `sourceReadBytes - w`; then the read
position is within `[0, w]` and `readBytes = T`.  Otherwise `resetReaderTo` returns the rewind
error with the negative read position. -/
theorem resetReaderTo_succeeds_iff (src : Source) (re : Regexp) (size : Int) (rr : RegexReader)
    (T : Int) (hreach : Reachable (NewRegexReaderSize src re size) rr)
    (hhi : T ≤ rr.readBytes) :
    ((resetReaderTo rr T).1 = none ↔ rr.sourceReadBytes - rr.w ≤ T)
      ∧ ((resetReaderTo rr T).1 = none →
          0 ≤ (resetReaderTo rr T).2.r ∧ (resetReaderTo rr T).2.r ≤ rr.w
            ∧ (resetReaderTo rr T).2.readBytes = T)
      ∧ (T < rr.sourceReadBytes - rr.w →
          (resetReaderTo rr T).1 = some (Error.negativeReadPosition (rr.r - (rr.readBytes - T))))
    := by
  have hinv := hreach.inv
  have g1 := hinv.r_le_w
  have g5 := hinv.pos
  by_cases hneg : rr.r - (rr.readBytes - T) < 0
  · simp only [resetReaderTo, hneg, if_true]
    refine ⟨⟨fun h => by simp at h, fun h => by omega⟩, fun h => by simp at h, fun _ => trivial⟩
  · simp only [resetReaderTo, hneg, if_false]
    refine ⟨⟨fun _ => by omega, fun _ => trivial⟩, fun _ => ⟨by omega, by omega, by omega⟩,
      fun h => by omega⟩

/-- C6, witness: capacity 16, the sample read through a pipe, 17 runes decoded; rewinding to 16
succeeds. -/
theorem resetReaderTo_succeeds_iff_witness :
    (resetReaderTo (stateAfter 17 (NewRegexReaderSize (pipe [sample]) reRunA 16)) 16).1 = none
      ∧ (resetReaderTo (stateAfter 17 (NewRegexReaderSize (pipe [sample]) reRunA 16)) 16).2.readBytes
        = 16 := by
  have h := resetReaderTo_succeeds_iff (pipe [sample]) reRunA 16
    (stateAfter 17 (NewRegexReaderSize (pipe [sample]) reRunA 16)) 16
    (Reachable.of_stateAfter _ _) (by decide!)
  have h1 := h.1.mpr (by decide!)
  exact ⟨h1, (h.2.1 h1).2.2⟩

/-! ### C7 -/

/-- C7, counterexample: capacity 16, a source without random access whose first read gives `a`
and the first two bytes of the encoding of U+20AC together with an I/O error, the third byte
coming with the next read.  After one rune and the successful extraction of the match (0, 1),
`readBytes` is 1 and the next `ReadRune` returns `(U+FFFD, 1)`: with the error latched it
does not refill, although the source holds U+20AC at the offset 1. -/
theorem getLastBytes_resumes_counterexample :
    (getLastBytes (stateAfter 1 (NewRegexReaderSize tornRune reRunA 16)) 0 1).map
        (fun x => (x.1.2, x.2.readBytes)) = .ok (none, 1)
      ∧ ((getLastBytes (stateAfter 1 (NewRegexReaderSize tornRune reRunA 16)) 0 1).bind
          fun x => (ReadRune x.2).map fun y => y.1) = .ok (0xFFFD, 1, none)
      ∧ runeAt (remaining tornRune.script) 1 = (0x20AC, 3, none) := by
  decide!

/-- C7, amended.  After a successful `getLastBytes(n, l)` on a cursor driven by `ReadRune` and
extractions, for a match that ends at or before `readBytes`: `readBytes` is the absolute
match end and the unread bytes `buf[r:w]` are the source bytes from the match end up to
`sourceReadBytes` (the lookahead is delivered again, nothing is skipped); over a source whose
reads do not fail before the end-of-stream and never give nothing 100 times in a row, the next
`ReadRune` returns the rune encoded at the match end (end-of-stream when the match ends the
stream). -/
theorem getLastBytes_resumes_at_match_end (src : Source) (re : Regexp) (size : Int)
    (rr rr' : RegexReader) (n l : Int) (bytes : Option (List Byte))
    (hreach : Reachable (NewRegexReaderSize src re size) rr)
    (hn : 0 ≤ n) (hl : 0 ≤ l) (hend : rr.prevReadBytes + n + l ≤ rr.readBytes)
    (hg : getLastBytes rr n l = .ok ((bytes, none), rr')) :
    rr'.readBytes = rr.prevReadBytes + n + l
      ∧ slice rr'.buf rr'.r rr'.w
        = .ok (((remaining src.script).take rr.sourceReadBytes.toNat).drop
            (rr.prevReadBytes + n + l).toNat)
      ∧ (WellBehaved src.script → ∃ rr'', ReadRune rr'
        = .ok (runeAt (remaining src.script) (rr.prevReadBytes + n + l).toNat, rr'')) := by
  have hreach' : Reachable (NewRegexReaderSize src re size) rr' :=
    Reachable.extract hreach hn hl hend hg
  have hinv := hreach'.inv
  obtain ⟨f1, _, _, _, _, _, f7, _⟩ := getLastBytes_fields hg
  obtain ⟨out, rr'', h1, _, _, _, _, _, _, h8⟩ := ReadRune_spec _ _ hinv
  refine ⟨f1, ?_, fun hwb => ⟨rr'', ?_⟩⟩
  · rw [hinv.unread, f1, f7]
  · rw [h1, (h8 (hreach'.settled hwb)).2, f1]

/-- C7, witness: capacity 16, the sample read through a pipe, 17 runes decoded; after extracting the
match at offsets 4 to 16 the next rune is the `_` at offset 16. -/
theorem getLastBytes_resumes_at_match_end_witness :
    ∃ rr' rr'', getLastBytes (stateAfter 17 (NewRegexReaderSize (pipe [sample]) reRunA 16)) 4 12
        = .ok ((some sampleMatch, none), rr')
      ∧ rr'.readBytes = 16
      ∧ ReadRune rr' = .ok ((0x5f, 1, none), rr'') := by
  have hmap : (getLastBytes (stateAfter 17 (NewRegexReaderSize (pipe [sample]) reRunA 16)) 4
      12).map (fun x => x.1) = .ok (some sampleMatch, none) := by decide!
  cases h : getLastBytes (stateAfter 17 (NewRegexReaderSize (pipe [sample]) reRunA 16)) 4 12 with
  | error a => rw [h] at hmap; simp [Except.map] at hmap
  | ok v =>
    obtain ⟨⟨bs, err⟩, rr'⟩ := v
    rw [h] at hmap
    simp only [Except.map] at hmap
    injection hmap with hmap
    injection hmap with h1 h2
    subst h1 h2
    obtain ⟨g1, _, g2⟩ := getLastBytes_resumes_at_match_end (pipe [sample]) reRunA 16
      (stateAfter 17 (NewRegexReaderSize (pipe [sample]) reRunA 16)) rr' 4 12 (some sampleMatch)
      (Reachable.of_stateAfter _ _) (by decide) (by decide) (by decide!) h
    obtain ⟨rr'', g3⟩ := g2 (by decide)
    refine ⟨rr', rr'', rfl, ?_, ?_⟩
    · rw [g1]; decide!
    · rw [g3]
      have : runeAt (remaining (pipe [sample]).script)
          ((stateAfter 17 (NewRegexReaderSize (pipe [sample]) reRunA 16)).prevReadBytes + 4
            + 12).toNat = (0x5f, 1, none) := by decide!
      rw [this]

/-! ### C8 -/

/-- C8, counterexample: a file with the sample, capacity 16, 17 runes decoded; reading one byte at
offset 0 by random access succeeds, but `getLastBytes(0, 1)` returns the rewind error. -/
theorem getLastBytes_readerAt_counterexample :
    fileAt sample 1 0 = ([0x61], none)
      ∧ extractAfter 17 (NewRegexReaderSize (file sample) reRunA 16) 0 1
        = .ok (none, some (Error.negativeReadPosition (-15))) := by
  decide!

/-- C8, amended.  When the source supports random access and reading `l` bytes at the absolute
offset `prevReadBytes + n` succeeds: if the rewind succeeds (`readBytes - end <= r`),
`getLastBytes(n, l)` returns exactly the bytes read, whatever `buf`, `prevBuf`, `w` and
`sourceReadBytes` hold; if the rewind fails (`readBytes - end > r`), it returns no bytes and
the rewind error, whatever the buffers hold and whatever the source would answer: the source
is not asked. -/
theorem getLastBytes_readerAt (rr : RegexReader) (n l : Int)
    (f : Nat → Int → List Byte × Option Error) (data : List Byte)
    (hsrc : rr.rd.readerAt = some f) (hl : 0 ≤ l)
    (hread : f l.toNat (rr.prevReadBytes + n) = (data, none)) (hlen : data.length = l.toNat)
    (buf' prevBuf' : List Byte) (w' srb' : Int) :
    (rr.readBytes - (rr.prevReadBytes + n + l) ≤ rr.r →
        ∃ rr', getLastBytes
            { rr with buf := buf', prevBuf := prevBuf', w := w', sourceReadBytes := srb' } n l
          = .ok ((some data, none), rr'))
      ∧ (rr.r < rr.readBytes - (rr.prevReadBytes + n + l) →
        ∀ readAt' : Option (Nat → Int → List Byte × Option Error),
          ∃ rr', getLastBytes
              { rr with
                rd := { rr.rd with readerAt := readAt' }
                buf := buf'
                prevBuf := prevBuf'
                w := w'
                sourceReadBytes := srb' } n l
            = .ok ((none, some (Error.negativeReadPosition
                (rr.r - (rr.readBytes - (rr.prevReadBytes + n + l))))), rr')) := by
  refine ⟨fun hrew => ?_, fun hfail readAt' => ⟨_, getLastBytes_rewind_fails _ n l hfail⟩⟩
  have hcomm : n + rr.prevReadBytes = rr.prevReadBytes + n := by omega
  have hneg : ¬ rr.r - (rr.readBytes - (rr.prevReadBytes + n + l)) < 0 := by omega
  have hmk : makeBytes l = .ok (List.replicate l.toNat 0) := by
    have : ¬ l < 0 := by omega
    simp only [makeBytes, this, if_false]
  refine ⟨{ rr with
    buf := buf'
    prevBuf := prevBuf'
    w := w'
    sourceReadBytes := srb'
    readBytes := rr.readBytes - (rr.readBytes - (rr.prevReadBytes + n + l))
    r := rr.r - (rr.readBytes - (rr.prevReadBytes + n + l))
    prevReadBytes := rr.readBytes - (rr.readBytes - (rr.prevReadBytes + n + l)) }, ?_⟩
  unfold getLastBytes
  simp only [hcomm]
  simp only [resetReaderTo, hneg, if_false, Option.isSome_none, Bool.false_eq_true, bind,
    Except.bind, pure, Except.pure, hmk, hsrc, List.length_replicate, hread, readAtInto]
  rw [goCopy_same _ _ (by simp [hlen])]

/-- C8, witness: a file with the sample, 17 runes decoded, the buffers emptied; the match at
offsets 4 to 16 is returned as `bob@test.com`, and for the match at the offsets 0 to 1, which
the file holds, the rewind error is returned. -/
theorem getLastBytes_readerAt_witness :
    (∃ rr', getLastBytes
        { stateAfter 17 (NewRegexReaderSize (file sample) reRunA 16)
          with buf := [], prevBuf := [], w := 0, sourceReadBytes := 0 } 4 12
      = .ok ((some sampleMatch, none), rr'))
      ∧ ∃ rr', getLastBytes
          { stateAfter 17 (NewRegexReaderSize (file sample) reRunA 16) with
            rd := { (stateAfter 17 (NewRegexReaderSize (file sample) reRunA 16)).rd with
              readerAt := some (fileAt sample) }
            buf := []
            prevBuf := []
            w := 0
            sourceReadBytes := 0 } 0 1
        = .ok ((none, some (Error.negativeReadPosition (-15))), rr') := by
  constructor
  · exact (getLastBytes_readerAt (stateAfter 17 (NewRegexReaderSize (file sample) reRunA 16)) 4 12
      (fileAt sample) sampleMatch
      ((Reachable.of_stateAfter 17 (NewRegexReaderSize (file sample) reRunA 16)).readerAt_eq.trans
        rfl)
      (by decide) (by decide!) (by decide) [] [] 0 0).1 (by decide!)
  · obtain ⟨rr', h⟩ := (getLastBytes_readerAt
      (stateAfter 17 (NewRegexReaderSize (file sample) reRunA 16)) 0 1
      (fileAt sample) [0x61]
      ((Reachable.of_stateAfter 17 (NewRegexReaderSize (file sample) reRunA 16)).readerAt_eq.trans
        rfl)
      (by decide) (by decide!) (by decide) [] [] 0 0).2 (by decide!) (some (fileAt sample))
    refine ⟨rr', ?_⟩
    rw [h]
    have : (stateAfter 17 (NewRegexReaderSize (file sample) reRunA 16)).r
        - ((stateAfter 17 (NewRegexReaderSize (file sample) reRunA 16)).readBytes
          - ((stateAfter 17 (NewRegexReaderSize (file sample) reRunA 16)).prevReadBytes
            + 0 + 1)) = -15 := by decide!
    rw [this]

/-! ### C9 -/

/-- C9.  For every well-behaved source (reads that end with end-of-stream, fewer than 100
consecutive empty reads), successive `ReadRune` calls on a new reader return, up to the first
error, the pairs (rune, width) of the whole stream decoded as one buffer, and that error is end-
of-stream; the widths add up to the length of the stream. -/
theorem ReadRune_decodes_like_whole_buffer (src : Source) (re : Regexp) (size : Int)
    (fuel : Nat) (hwb : WellBehaved src.script) (hfuel : (remaining src.script).length < fuel) :
    readRunes fuel (NewRegexReaderSize src re size)
        = .ok (decodeAll (remaining src.script), Error.EOF)
      ∧ ((decodeAll (remaining src.script)).map fun x => x.2).sum
        = (remaining src.script).length := by
  obtain ⟨k, rfl⟩ : ∃ k, fuel = k + 1 := ⟨fuel - 1, by omega⟩
  have h := readRunes_spec (remaining src.script) k (NewRegexReaderSize src re size)
    (NewRegexReaderSize_inv src re size) ⟨hwb, Or.inl rfl⟩
    (by simp [NewRegexReaderSize]; omega)
  refine ⟨?_, decodeAll_go_widths _ _ le_rfl⟩
  rw [h, decodeAll]
  have : (NewRegexReaderSize src re size).readBytes.toNat = 0 := rfl
  rw [this, List.drop_zero, decodeAll_go_fuel k _ _ (by omega) le_rfl]

/-- C9, witness: the stream `a`, U+20AC, `b`, the three bytes of U+20AC split over three reads with
an empty read in between. -/
theorem ReadRune_decodes_like_whole_buffer_witness :
    readRunes 10 (NewRegexReaderSize (pipe [[0x61, 0xE2], [0x82], [], [0xAC, 0x62]]) reRunA 16)
        = .ok ([(0x61, 1), (0x20AC, 3), (0x62, 1)], Error.EOF)
      ∧ ([(0x61, 1), (0x20AC, 3), (0x62, 1)].map fun x : Rune × Nat => x.2).sum = 5 := by
  have h := ReadRune_decodes_like_whole_buffer (pipe [[0x61, 0xE2], [0x82], [], [0xAC, 0x62]])
    reRunA 16 10 (by decide) (by decide)
  have e : decodeAll (remaining (pipe [[0x61, 0xE2], [0x82], [], [0xAC, 0x62]]).script)
      = [(0x61, 1), (0x20AC, 3), (0x62, 1)] := by decide!
  rw [e] at h
  exact ⟨h.1, by decide⟩

/-! ### C10 -/

/-- C10, the code at the failing input: the first read of the source gives no bytes and an I/O
error; `Read` returns `io.EOF`, where `ReadRune` returns the error the source gave. -/
theorem Read_reports_EOF_for_source_error :
    (Read (NewRegexReaderSize (failing 5) reRunA 16) [0, 0, 0, 0]).map (fun x => x.1)
        = .ok ([0, 0, 0, 0], 0, some Error.EOF)
      ∧ (ReadRune (NewRegexReaderSize (failing 5) reRunA 16)).map (fun x => x.1)
        = .ok (0, 0, some (Error.source 5)) := by
  decide!

/-! ## Empty reads and the explicit result of `fill` -/

theorem readLoop_skip_empty (k i : Nat) (rr : RegexReader) (tail : List Chunk) (wn : Nat)
    (hw : rr.w = wn) (hwC : wn ≤ rr.buf.length)
    (hs : rr.rd.script = List.replicate k emptyRead ++ tail) (hk : k ≤ i) :
    fill.readLoop i rr
      = fill.readLoop (i - k) { rr with rd := { rr.rd with script := tail } } := by
  induction k generalizing i rr with
  | zero =>
    obtain ⟨⟨script, readerAt⟩, buf, prevBuf, pattern, srb, rb, prb, err, r, w⟩ := rr
    simp only [List.replicate_zero, List.nil_append] at hs
    subst hs
    rfl
  | succ k ih =>
    obtain ⟨i', rfl⟩ : ∃ i', i = i' + 1 := ⟨i - 1, by omega⟩
    obtain ⟨⟨script, readerAt⟩, buf, prevBuf, pattern, srb, rb, prb, err, r, w⟩ := rr
    simp only at hw hwC hs
    subst hw
    rw [hs, List.replicate_succ, List.cons_append]
    rw [fill.readLoop]
    simp only [sliceFrom_ok _ _ hwC, bind, Except.bind]
    rw [Source.Read_fit _ _ _ _ (by simp [emptyRead])]
    simp only [emptyRead, Option.isSome_none, Bool.false_eq_true, if_false, List.length_nil,
      gt_iff_lt, lt_self_iff_false, writeAt_nil, Nat.cast_zero, add_zero]
    rw [ih i' _ rfl hwC rfl (by omega)]
    simp only [Nat.add_sub_add_right]

theorem fill_eq_readLoop (rr : RegexReader) (rn wn : Nat) (hr : rr.r = rn) (hw : rr.w = wn)
    (hrw : rn ≤ wn) (hwC : wn ≤ rr.buf.length) (hp : rr.prevBuf.length = rr.buf.length)
    (hroom : wn - rn < rr.buf.length) :
    fill rr = fill.readLoop 100 { rr with
      prevBuf := (rr.prevBuf ++ rr.buf.take rn).drop rn
      buf := (rr.buf.take wn).drop rn ++ rr.buf.drop (wn - rn)
      w := ((wn - rn : Nat) : Int)
      r := 0 } := by
  have hc := compact_spec rr rn wn hr hw hrw hwC hp
  have hlen : ((rr.buf.take wn).drop rn ++ rr.buf.drop (wn - rn)).length = rr.buf.length := by
    simp; omega
  unfold fill
  rw [hc]
  simp only [bind, Except.bind]
  have : ¬ (((wn - rn : Nat) : Int)
      ≥ (((rr.buf.take wn).drop rn ++ rr.buf.drop (wn - rn)).length : Int)) := by
    rw [hlen]; omega
  simp only [this, if_false, pure, Except.pure]

theorem fill_explicit (rr : RegexReader) (rn wn : Nat) (hr : rr.r = rn) (hw : rr.w = wn)
    (hrw : rn ≤ wn) (hwC : wn ≤ rr.buf.length) (hp : rr.prevBuf.length = rr.buf.length)
    (hroom : wn - rn < rr.buf.length) :
    ∃ data script' e',
      fill rr = .ok { rr with
        rd := { rr.rd with script := script' }
        prevBuf := (rr.prevBuf ++ rr.buf.take rn).drop rn
        buf := writeAt ((rr.buf.take wn).drop rn ++ rr.buf.drop (wn - rn)) (wn - rn) data
        w := ((wn - rn + data.length : Nat) : Int)
        r := 0
        sourceReadBytes := rr.sourceReadBytes + data.length
        err := e' } ∧
      wn - rn + data.length ≤ rr.buf.length ∧
      remaining rr.rd.script = data ++ remaining script' := by
  have hc := compact_spec rr rn wn hr hw hrw hwC hp
  obtain ⟨rd, buf, prevBuf, pattern, srb, rb, prb, err, r, w⟩ := rr
  simp only at hr hw hwC hp hroom hc
  subst hr hw
  have hlen : ((buf.take wn).drop rn ++ buf.drop (wn - rn)).length = buf.length := by
    simp; omega
  obtain ⟨data, script', e', h1, h2, h3, _⟩ :=
    readLoop_spec 100 ⟨rd, (buf.take wn).drop rn ++ buf.drop (wn - rn),
      (prevBuf ++ buf.take rn).drop rn, pattern, srb, rb, prb, err, 0, ((wn - rn : Nat) : Int)⟩
      (wn - rn) rfl (by rw [hlen]; exact hroom)
  simp only at h1 h2 h3
  rw [hlen] at h2
  have hfill : fill ⟨rd, buf, prevBuf, pattern, srb, rb, prb, err, rn, wn⟩
      = fill.readLoop 100 ⟨rd, (buf.take wn).drop rn ++ buf.drop (wn - rn),
      (prevBuf ++ buf.take rn).drop rn, pattern, srb, rb, prb, err, 0, ((wn - rn : Nat) : Int)⟩ := by
    unfold fill
    rw [hc]
    simp only [bind, Except.bind]
    have : ¬ (((wn - rn : Nat) : Int)
        ≥ (((buf.take wn).drop rn ++ buf.drop (wn - rn)).length : Int)) := by
      rw [hlen]; omega
    simp only [this, if_false, pure, Except.pure]
  rw [h1] at hfill
  exact ⟨data, script', e', hfill, h2, h3⟩

/-! ## The last match end, in every state -/

theorem readLoop_prevReadBytes (i : Nat) (rr rr' : RegexReader)
    (h : fill.readLoop i rr = .ok rr') : rr'.prevReadBytes = rr.prevReadBytes := by
  induction i generalizing rr with
  | zero =>
    simp only [fill.readLoop, pure, Except.pure] at h
    injection h with h
    rw [← h]
  | succ i ih =>
    unfold fill.readLoop at h
    cases hs : sliceFrom rr.buf rr.w with
    | error e => rw [hs] at h; simp [bind, Except.bind] at h
    | ok p =>
      rw [hs] at h
      simp only [bind, Except.bind, pure, Except.pure] at h
      split_ifs at h
      · injection h with h
        rw [← h]
      · injection h with h
        rw [← h]
      · rw [ih _ h]

theorem compact_prevReadBytes (rr rr' : RegexReader) (h : fill.compact rr = .ok rr') :
    rr'.prevReadBytes = rr.prevReadBytes := by
  unfold fill.compact at h
  split_ifs at h
  · simp only [bind, Except.bind, pure, Except.pure] at h
    repeat' split at h
    all_goals first
      | (injection h with h; rw [← h])
      | (exact absurd h (by simp))
  · simp only [bind, Except.bind, pure, Except.pure] at h
    repeat' split at h
    all_goals first
      | (injection h with h; rw [← h])
      | (exact absurd h (by simp))
  · injection h with h
    rw [← h]

theorem fill_prevReadBytes (rr rr' : RegexReader) (h : fill rr = .ok rr') :
    rr'.prevReadBytes = rr.prevReadBytes := by
  unfold fill at h
  cases hc : fill.compact rr with
  | error e => rw [hc] at h; simp [bind, Except.bind] at h
  | ok rr1 =>
    rw [hc] at h
    simp only [bind, Except.bind, pure, Except.pure] at h
    split_ifs at h
    rw [readLoop_prevReadBytes _ _ _ h, compact_prevReadBytes _ _ hc]

theorem loop_prevReadBytes (n : Nat) (rr rr' : RegexReader) (h : ReadRune.loop n rr = .ok rr') :
    rr'.prevReadBytes = rr.prevReadBytes := by
  induction n generalizing rr with
  | zero =>
    unfold ReadRune.loop at h
    cases hc : ReadRune.cond rr with
    | error e => rw [hc] at h; simp [bind, Except.bind] at h
    | ok b =>
      rw [hc] at h
      cases b
      · simp only [bind, Except.bind, pure, Except.pure] at h
        injection h with h
        rw [← h]
      · simp [bind, Except.bind, throw, throwThe, MonadExceptOf.throw] at h
  | succ n ih =>
    unfold ReadRune.loop at h
    cases hc : ReadRune.cond rr with
    | error e => rw [hc] at h; simp [bind, Except.bind] at h
    | ok b =>
      rw [hc] at h
      cases b
      · simp only [bind, Except.bind, pure, Except.pure] at h
        injection h with h
        rw [← h]
      · simp only [bind, Except.bind, if_true] at h
        cases hf : fill rr with
        | error e => rw [hf] at h; simp at h
        | ok rr1 =>
          rw [hf] at h
          rw [ih _ h, fill_prevReadBytes _ _ hf]

theorem ReadRune_prevReadBytes (rr rr' : RegexReader) (out : Rune × Nat × Option Error)
    (h : ReadRune rr = .ok (out, rr')) : rr'.prevReadBytes = rr.prevReadBytes := by
  unfold ReadRune at h
  cases hl : ReadRune.loop utf8.UTFMax rr with
  | error e => rw [hl] at h; simp [bind, Except.bind] at h
  | ok rr1 =>
    rw [hl] at h
    simp only [bind, Except.bind, pure, Except.pure, readErr] at h
    have h1 := loop_prevReadBytes _ _ _ hl
    split_ifs at h
    · injection h with h
      injection h with _ h
      rw [← h, ← h1]
    · repeat' split at h
      all_goals first
        | (injection h with h; injection h with _ h; rw [← h, ← h1])
        | (exact absurd h (by simp))

theorem Read_prevReadBytes (rr rr' : RegexReader) (p : List Byte)
    (out : List Byte × Int × Option Error)
    (h : Read rr p = .ok (out, rr')) : rr'.prevReadBytes = rr.prevReadBytes := by
  unfold Read at h
  simp only [bind, Except.bind, pure, Except.pure, readErr] at h
  by_cases hrw : rr.r = rr.w
  · by_cases herr : rr.err.isSome
    · simp only [hrw, herr, if_true] at h
      injection h with h
      injection h with _ h
      rw [← h]
    · simp only [hrw, herr, if_true, Bool.false_eq_true, if_false] at h
      cases hf : fill rr with
      | error e => rw [hf] at h; simp at h
      | ok rr1 =>
        rw [hf] at h
        have h1 := fill_prevReadBytes _ _ hf
        simp only at h
        split_ifs at h
        · injection h with h
          injection h with _ h
          rw [← h, ← h1]
        · simp only at h
          split at h
          · exact absurd h (by simp)
          · injection h with h
            injection h with _ h
            rw [← h, ← h1]
  · simp only [hrw, if_false] at h
    split at h
    · exact absurd h (by simp)
    · injection h with h
      injection h with _ h
      rw [← h]

theorem Step.prevReadBytes_le {rr rr' : RegexReader} (h : Step rr rr') :
    rr.prevReadBytes ≤ rr'.prevReadBytes := by
  cases h with
  | readRune h => exact le_of_eq (ReadRune_prevReadBytes _ _ _ h).symm
  | read h => exact le_of_eq (Read_prevReadBytes _ _ _ _ h).symm
  | fill h => exact le_of_eq (fill_prevReadBytes _ _ h).symm
  | extract hn hl h =>
    have := (getLastBytes_fields h).2.1
    omega

/-! ## The bounds of the offsets -/

theorem NewRegexReaderSize_bounds (src : Source) (re : Regexp) (size : Int) :
    Bounds (NewRegexReaderSize src re size) := by
  have hlen : minReadBufferSize
      ≤ ((if size < minReadBufferSize then minReadBufferSize else size).toNat : Int) := by
    simp only [minReadBufferSize]
    split_ifs <;> omega
  constructor <;> simp [NewRegexReaderSize]
  · simpa using hlen

theorem Bounds.span_slice {rr : RegexReader} (h : Bounds rr) :
    slice rr.buf rr.r rr.w = .ok ((rr.buf.drop rr.r.toNat).take (rr.w - rr.r).toNat) := by
  have : 0 ≤ rr.r ∧ rr.r ≤ rr.w ∧ rr.w ≤ rr.buf.length := ⟨h.r_nonneg, h.r_le_w, h.w_le_len⟩
  simp only [slice, this, and_self, if_true]

theorem Bounds.span_length {rr : RegexReader} (h : Bounds rr) :
    ((((rr.buf.drop rr.r.toNat).take (rr.w - rr.r).toNat).length : Nat) : Int) = rr.w - rr.r := by
  have h0 := h.r_nonneg
  have h1 := h.r_le_w
  have h2 := h.w_le_len
  simp only [List.length_take, List.length_drop]
  omega

theorem Bounds.cond_value {rr : RegexReader} (h : Bounds rr) :
    ReadRune.cond rr = .ok (decide (rr.w - rr.r < 4)
      && !utf8.FullRune ((rr.buf.drop rr.r.toNat).take (rr.w - rr.r).toNat)
      && rr.err.isNone) := by
  have hcap := h.cap
  have h2 := h.w_le_len
  have h0 := h.r_nonneg
  unfold ReadRune.cond
  simp only [utf8.UTFMax, minReadBufferSize] at *
  by_cases hlt : rr.w - rr.r < 4
  · have : rr.r + ((4 : Nat) : Int) > rr.w := by omega
    have h5 : rr.w - rr.r < rr.buf.length := by omega
    simp only [this, if_true, h.span_slice, bind, Except.bind, pure, Except.pure, hlt, h5,
      decide_True, Bool.and_true, Bool.true_and]
  · have : ¬ rr.r + ((4 : Nat) : Int) > rr.w := by omega
    simp only [this, if_false, hlt, decide_False, Bool.false_and, pure, Except.pure]

/-- A call of `fill` with room in the buffer returns, and keeps the offsets in range. -/
theorem fill_bounds (rr : RegexReader) (h : Bounds rr) (hroom : rr.w - rr.r < rr.buf.length) :
    ∃ data rr', fill rr = .ok rr' ∧ FillPost rr data rr' ∧ Bounds rr' := by
  obtain ⟨rn, hrn⟩ := Int.eq_ofNat_of_zero_le h.r_nonneg
  obtain ⟨wn, hwn⟩ := Int.eq_ofNat_of_zero_le (le_trans h.r_nonneg h.r_le_w)
  have h1 := h.r_le_w
  have h2 := h.w_le_len
  have hcap := h.cap
  obtain ⟨data, rr', hf, hp⟩ := fill_spec rr rn wn hrn hwn (by omega) (by omega) h.prev_len
    (by omega)
  refine ⟨data, rr', hf, hp, ?_⟩
  have e1 := hp.r_eq
  have e2 := hp.w_eq
  have e3 := hp.w_le
  have e4 := hp.buf_len
  have e5 := hp.prev_len
  exact ⟨by omega, by omega, by omega, by omega, by omega⟩

/-- A call of `fill` on a full buffer does not return. -/
theorem fill_full (rr : RegexReader) (h : Bounds rr) (hfull : ¬ rr.w - rr.r < rr.buf.length) :
    fill rr = .error Abort.fillFullBuffer := by
  have h0 := h.r_nonneg
  have h1 := h.r_le_w
  have h2 := h.w_le_len
  have hr : ¬ rr.r > 0 := by omega
  have hw : rr.w ≥ rr.buf.length := by omega
  unfold fill fill.compact
  simp only [hr, if_false, pure, Except.pure, bind, Except.bind, hw, if_true]

theorem fill_bounds_of_ok (rr rr' : RegexReader) (h : Bounds rr) (hf : fill rr = .ok rr') :
    Bounds rr' := by
  by_cases hroom : rr.w - rr.r < rr.buf.length
  · obtain ⟨data, rr1, hf1, _, hb⟩ := fill_bounds rr h hroom
    rw [hf] at hf1
    injection hf1 with hf1
    rw [hf1]
    exact hb
  · rw [fill_full rr h hroom] at hf
    exact absurd hf (by simp)

theorem loop_bounds (n : Nat) (rr : RegexReader) (h : Bounds rr)
    (hn : 4 ≤ n + (rr.w - rr.r)) :
    ∃ rr', ReadRune.loop n rr = .ok rr' ∧ Bounds rr' ∧ ReadRune.cond rr' = .ok false := by
  induction n generalizing rr with
  | zero =>
    have hc := h.cond_value
    have : ¬ (rr.w - rr.r < 4) := by omega
    simp only [this, decide_False, Bool.false_and] at hc
    exact ⟨rr, loop_of_cond_false _ _ hc, h, hc⟩
  | succ m ih =>
    have hc := h.cond_value
    cases hb : (decide (rr.w - rr.r < 4)
      && !utf8.FullRune ((rr.buf.drop rr.r.toNat).take (rr.w - rr.r).toNat)
      && rr.err.isNone) with
    | false =>
      rw [hb] at hc
      exact ⟨rr, loop_of_cond_false _ _ hc, h, hc⟩
    | true =>
      rw [hb] at hc
      simp only [Bool.and_eq_true, decide_eq_true_eq, Bool.not_eq_true', Option.isNone_iff_eq_none]
        at hb
      obtain ⟨⟨hlt, _⟩, herr⟩ := hb
      have hcap := h.cap
      simp only [minReadBufferSize] at hcap
      obtain ⟨data, rr1, hf, hpost, hb1⟩ := fill_bounds rr h (by omega)
      have hstep : ReadRune.loop (m + 1) rr = ReadRune.loop m rr1 := by
        rw [ReadRune.loop]
        simp only [hc, bind, Except.bind, hf, if_true]
      rw [hstep]
      by_cases hd : data = []
      · have he := hpost.progress hd
        have hc1 := hb1.cond_value
        have : rr1.err.isNone = false := by
          cases hh : rr1.err with
          | none => rw [hh] at he; simp at he
          | some e => rfl
        rw [this, Bool.and_false] at hc1
        exact ⟨rr1, loop_of_cond_false _ _ hc1, hb1, hc1⟩
      · have hlen : 0 < data.length := List.length_pos.mpr hd
        have hw := hpost.w_eq
        have hr := hpost.r_eq
        exact ih rr1 hb1 (by omega)

/-- Every call of `ReadRune` with the offsets in range returns, and keeps them in range. -/
theorem ReadRune_bounds (rr : RegexReader) (h : Bounds rr) :
    ∃ out rr', ReadRune rr = .ok (out, rr') ∧ Bounds rr' := by
  have h0 := h.r_nonneg
  have h1 := h.r_le_w
  obtain ⟨rr1, hl, hb, hc⟩ := loop_bounds utf8.UTFMax rr h (by simp only [utf8.UTFMax]; omega)
  have q0 := hb.r_nonneg
  have q1 := hb.r_le_w
  have q2 := hb.w_le_len
  have hU := hb.span_slice
  have hUl := hb.span_length
  set U := (rr1.buf.drop rr1.r.toNat).take (rr1.w - rr1.r).toNat with hUdef
  by_cases hrw : rr1.r = rr1.w
  · refine ⟨(0, 0, rr1.err), { rr1 with err := none }, ?_, ?_⟩
    · unfold ReadRune
      simp only [hl, bind, Except.bind, hrw, if_true, readErr, pure, Except.pure]
    · exact { hb with }
  · have hUne : U ≠ [] := by
      intro hnil
      rw [hnil] at hUl
      simp at hUl
      omega
    have hb1 : slice rr1.buf rr1.r (rr1.r + 1) = .ok (U.take 1) := by
      have : 0 ≤ rr1.r ∧ rr1.r ≤ rr1.r + 1 ∧ rr1.r + 1 ≤ rr1.buf.length := by omega
      simp only [slice, this, and_self, if_true, hUdef, List.take_take]
      congr 2
      omega
    have hg : (U.take 1).getD 0 0 = U.getD 0 0 := by
      cases U with
      | nil => rfl
      | cons a t => rfl
    have hsz := utf8.DecodeRune_size_le U
    have hsp := utf8.DecodeRune_size_pos U hUne
    refine ⟨((utf8.DecodeRune U).1, (utf8.DecodeRune U).2, none),
      { rr1 with r := rr1.r + (utf8.DecodeRune U).2,
                 readBytes := rr1.readBytes + (utf8.DecodeRune U).2 }, ?_, ?_⟩
    · unfold ReadRune
      simp only [hl, bind, Except.bind, hrw, if_false, hb1, hg]
      by_cases hge : U.getD 0 0 ≥ utf8.RuneSelf
      · simp only [hge, if_true, hU, pure, Except.pure]
      · rw [utf8.DecodeRune_ascii U hUne (lt_of_not_ge hge)]
        simp only [hge, if_false, pure, Except.pure]
    · exact { hb with
        r_nonneg := by simp only; omega
        r_le_w := by simp only; omega }

/-- Every call of `Read` with the offsets in range returns, and keeps them in range. -/
theorem Read_bounds (rr : RegexReader) (p : List Byte) (h : Bounds rr) :
    ∃ out rr', Read rr p = .ok (out, rr') ∧ Bounds rr' := by
  have h0 := h.r_nonneg
  have h1 := h.r_le_w
  have h2 := h.w_le_len
  have hcap := h.cap
  simp only [minReadBufferSize] at hcap
  have copyStep : ∀ s : RegexReader, Bounds s →
      ∃ out s', (do
        let src ← slice s.buf s.r s.w
        let n : Int := min p.length src.length
        pure ((goCopy p src, n, (none : Option Error)), { s with r := s.r + n })
          : Except Abort ((List Byte × Int × Option Error) × RegexReader)) = .ok (out, s')
        ∧ Bounds s' := by
    intro s hs
    have hl := hs.span_length
    have s0 := hs.r_nonneg
    have s1 := hs.r_le_w
    refine ⟨_, _, by simp only [hs.span_slice, bind, Except.bind, pure, Except.pure]; rfl, ?_⟩
    exact { hs with
      r_nonneg := by simp only; omega
      r_le_w := by simp only; omega }
  unfold Read
  simp only [bind, Except.bind, pure, Except.pure, readErr]
  by_cases hrw : rr.r = rr.w
  · by_cases herr : rr.err.isSome
    · simp only [if_pos hrw, herr, if_true]
      exact ⟨(p, 0, rr.err), { rr with err := none }, rfl, { h with }⟩
    · simp only [if_pos hrw, herr, if_true, Bool.false_eq_true, if_false]
      obtain ⟨data, rr1, hf, hpost, hb1⟩ := fill_bounds rr h (by omega)
      rw [hf]
      simp only
      by_cases hrw1 : rr1.r = rr1.w
      · simp only [if_pos hrw1]
        exact ⟨(p, 0, some Error.EOF), rr1, rfl, hb1⟩
      · simp only [hrw1, if_false]
        exact copyStep rr1 hb1
  · simp only [hrw, if_false]
    exact copyStep rr h

theorem getLastBytes_bounds {rr rr' : RegexReader} {n l : Int} {bytes : Option (List Byte)}
    (h : Bounds rr) (hend : rr.prevReadBytes + n + l ≤ rr.readBytes)
    (hg : getLastBytes rr n l = .ok ((bytes, none), rr')) : Bounds rr' := by
  obtain ⟨_, _, e3, e4, e5, e6, _, _, _, _, e11⟩ := getLastBytes_fields hg
  have hr := (e11 rfl).1
  have h1 := h.r_le_w
  have h2 := h.w_le_len
  have h3 := h.prev_len
  have h4 := h.cap
  exact ⟨hr, by omega, by rw [e4, e5]; exact h2, by rw [e5, e6]; exact h3, by rw [e5]; exact h4⟩

theorem Driven.bounds {src : Source} {re : Regexp} {size : Int} {rr : RegexReader}
    (h : Driven (NewRegexReaderSize src re size) rr) : Bounds rr := by
  induction h with
  | start => exact NewRegexReaderSize_bounds src re size
  | readRune _ hr ih =>
    obtain ⟨out, rr1, h1, hb⟩ := ReadRune_bounds _ ih
    rw [hr] at h1
    injection h1 with h1
    injection h1 with _ h1
    rw [h1]
    exact hb
  | read _ hr ih =>
    obtain ⟨out, rr1, h1, hb⟩ := Read_bounds _ _ ih
    rw [hr] at h1
    injection h1 with h1
    injection h1 with _ h1
    rw [h1]
    exact hb
  | fill _ hf ih => exact fill_bounds_of_ok _ _ ih hf
  | extract _ hend hg ih => exact getLastBytes_bounds ih hend hg

theorem Reachable.driven {rr0 rr : RegexReader} (h : Reachable rr0 rr) : Driven rr0 rr := by
  induction h with
  | start => exact Driven.start
  | readRune _ hr ih => exact Driven.readRune ih hr
  | extract _ _ _ hend hg ih => exact Driven.extract ih hend hg

theorem Driven.of_afterRead {rr0 rr : RegexReader} (p : List Byte) (h : Driven rr0 rr) :
    Driven rr0 (afterRead rr p) := by
  unfold afterRead
  cases hs : Read rr p with
  | error e => exact h
  | ok v => exact Driven.read h hs

theorem fillCalls_bounds (n : Nat) (rr : RegexReader) (h : Bounds rr) :
    ∀ s ∈ ReadRune.fillCalls n rr, Bounds s ∧ s.err = none ∧ s.w - s.r < 4 := by
  induction n generalizing rr with
  | zero =>
    intro s hs
    unfold ReadRune.fillCalls at hs
    have hc := h.cond_value
    cases hb : (decide (rr.w - rr.r < 4)
      && !utf8.FullRune ((rr.buf.drop rr.r.toNat).take (rr.w - rr.r).toNat)
      && rr.err.isNone) with
    | false => rw [hb] at hc; rw [hc] at hs; simp at hs
    | true =>
      rw [hb] at hc
      rw [hc] at hs
      simp only [Bool.and_eq_true, decide_eq_true_eq, Bool.not_eq_true', Option.isNone_iff_eq_none]
        at hb
      simp only [if_true, List.mem_singleton] at hs
      subst hs
      exact ⟨h, hb.2, hb.1.1⟩
  | succ m ih =>
    intro s hs
    unfold ReadRune.fillCalls at hs
    have hc := h.cond_value
    cases hb : (decide (rr.w - rr.r < 4)
      && !utf8.FullRune ((rr.buf.drop rr.r.toNat).take (rr.w - rr.r).toNat)
      && rr.err.isNone) with
    | false => rw [hb] at hc; rw [hc] at hs; simp at hs
    | true =>
      rw [hb] at hc
      rw [hc] at hs
      simp only [Bool.and_eq_true, decide_eq_true_eq, Bool.not_eq_true', Option.isNone_iff_eq_none]
        at hb
      have hcap := h.cap
      simp only [minReadBufferSize] at hcap
      obtain ⟨data, rr1, hf, _, hb1⟩ := fill_bounds rr h (by omega)
      rw [hf] at hs
      simp only [if_true, List.mem_cons] at hs
      rcases hs with hs | hs
      · subst hs
        exact ⟨h, hb.2, hb.1.1⟩
      · exact ih rr1 hb1 s hs

theorem compact_room (s : RegexReader) (h : Bounds s) (hroom : s.w - s.r < s.buf.length) :
    ∃ s1, fill.compact s = .ok s1 ∧ s1.w < s1.buf.length := by
  obtain ⟨rn, hrn⟩ := Int.eq_ofNat_of_zero_le h.r_nonneg
  obtain ⟨wn, hwn⟩ := Int.eq_ofNat_of_zero_le (le_trans h.r_nonneg h.r_le_w)
  have h1 := h.r_le_w
  have h2 := h.w_le_len
  refine ⟨_, compact_spec s rn wn hrn hwn (by omega) (by omega) h.prev_len, ?_⟩
  simp only [List.length_append, List.length_drop, List.length_take]
  omega

/-! ## The push adapter and the whole input -/

theorem feed_fold (ws : List (List Byte)) (w : RegexWriter) (hopen : w.wr.closed = false) :
    (ws.foldl (fun w d => (w.Write d).2) w).rd
      = { w.rd with rd := { w.rd.rd with
          script := w.rd.rd.script ++ ws.map fun d => { data := d, err := none } } } := by
  induction ws generalizing w with
  | nil => simp
  | cons d ws ih =>
    have hw : (w.Write d).2.wr.closed = false := by
      simp [RegexWriter.Write, hopen]
    rw [List.foldl_cons, ih _ hw]
    simp [RegexWriter.Write, hopen]

theorem NewRegexReaderSize_clamp (src : Source) (re : Regexp) (size : Int) :
    NewRegexReaderSize src re (if size < minReadBufferSize then minReadBufferSize else size)
      = NewRegexReaderSize src re size := by
  unfold NewRegexReaderSize
  by_cases h : size < minReadBufferSize
  · simp only [h, if_true, lt_irrefl, if_false]
  · simp only [h, if_false]

/-- The reader of a push adapter that was fed `writes` and closed is a reader over the pipe
whose reads give these writes. -/
theorem feed_rd (re : Regexp) (size : Int) (writes : List (List Byte)) :
    (RegexWriter.feed (NewRegexWriterSize re size) writes).rd
      = NewRegexReaderSize (pipe writes) re size := by
  unfold RegexWriter.feed RegexWriter.Close
  simp only
  rw [feed_fold _ _ rfl]
  simp only [NewRegexWriterSize, NewRegexReaderSize_clamp]
  simp [NewRegexReaderSize, pipe]

theorem remaining_pipe (writes : List (List Byte)) :
    remaining (pipe writes).script = writes.flatten := by
  induction writes with
  | nil => rfl
  | cons d ws ih =>
    simp only [pipe, List.map_cons, remaining, List.flatten_cons] at ih ⊢
    rw [ih]

theorem Inv.readBytes_nonneg {B : List Byte} {rr : RegexReader} (h : Inv B rr) :
    0 ≤ rr.readBytes := by
  have h0 := h.r_nonneg
  have h3 := h.w_le_srb
  have h5 := h.pos
  omega

/-- The engine sees the same runes through the cursor as on the whole input. -/
theorem FindReaderIndex_whole (B : List Byte) (fuel : Nat) (rr : RegexReader)
    (seen : List (Rune × Nat)) (hinv : Inv B rr) (hs : Settled rr) :
    (∃ e, materialized.FindIndex rr.pattern fuel B rr.readBytes.toNat seen = .error e
        ∧ FindReaderIndex fuel rr seen = .error e)
      ∨ ∃ loc rr', materialized.FindIndex rr.pattern fuel B rr.readBytes.toNat seen = .ok loc
        ∧ FindReaderIndex fuel rr seen = .ok (loc, rr')
        ∧ Inv B rr' ∧ Settled rr' ∧ rr'.prevReadBytes = rr.prevReadBytes
        ∧ rr'.pattern = rr.pattern ∧ rr'.rd.readerAt = rr.rd.readerAt := by
  induction fuel generalizing rr seen with
  | zero => exact Or.inl ⟨Abort.fuel, rfl, rfl⟩
  | succ fuel ih =>
    unfold materialized.FindIndex FindReaderIndex
    by_cases hm : rr.pattern.more seen = true
    · obtain ⟨out, rr1, h1, hinv1, e1, e2, e3, e4, _, h8⟩ := ReadRune_spec B rr hinv
      obtain ⟨hs1, hout⟩ := h8 hs
      obtain ⟨r, size, err⟩ := out
      simp only [hm, if_true, h1, bind, Except.bind]
      rw [← hout]
      simp only
      by_cases he : err.isSome = true
      · simp only [he, if_true, pure, Except.pure]
        exact Or.inr ⟨_, rr1, rfl, by rw [e3], hinv1, hs1, e2, e3, e4⟩
      · simp only [he, Bool.false_eq_true, if_false]
        have hpos : rr1.readBytes.toNat = rr.readBytes.toNat + size := by
          have := hinv.readBytes_nonneg
          simp only at e1
          omega
        have := ih rr1 (seen ++ [(r, size)]) hinv1 hs1
        rw [e3, hpos] at this
        rcases this with ⟨e, g1, g2⟩ | ⟨loc, rr', g1, g2, g3, g4, g5, g6, g7⟩
        · exact Or.inl ⟨e, g1, g2⟩
        · exact Or.inr ⟨loc, rr', g1, g2, g3, g4, g5.trans e2, g6, g7.trans e4⟩
    · simp only [hm, Bool.false_eq_true, if_false, pure, Except.pure]
      exact Or.inr ⟨_, rr, rfl, rfl, hinv, hs, rfl, rfl, rfl⟩

/-- A clean run of `FindAllMatchesFunc` over the stream `B` delivers what its searches find on
the materialized input. -/
theorem FindAllMatchesFunc_clean (B : List Byte) (fuel : Nat) (rr : RegexReader)
    (delivered : List (List Byte)) (hinv : Inv B rr) (hs : Settled rr)
    (hra : rr.rd.readerAt = none) (hpos : rr.prevReadBytes = rr.readBytes)
    (hclean : CleanRun fuel rr = true) :
    (FindAllMatchesFunc fuel rr delivered).map (fun x => x.1)
      = (materialized.FindAll rr.pattern fuel B rr.readBytes.toNat delivered).map
          (fun found => (found, none)) := by
  induction fuel generalizing rr delivered with
  | zero => rfl
  | succ fuel ih =>
    unfold FindAllMatchesFunc materialized.FindAll
    unfold CleanRun at hclean
    rcases FindReaderIndex_whole B fuel rr [] hinv hs with
      ⟨e, g1, g2⟩ | ⟨loc, rr1, g1, g2, hinv1, hs1, e2, e3, e4⟩
    · simp only [g1, g2, bind, Except.bind, Except.map]
    · simp only [g1, g2, bind, Except.bind] at hclean ⊢
      cases loc with
      | none => simp only [pure, Except.pure, Except.map]
      | some p =>
        obtain ⟨lo, hi⟩ := p
        simp only [Bool.and_eq_true, decide_eq_true_eq] at hclean ⊢
        obtain ⟨⟨c1, c2, c3, c4, c5, c6⟩, hrest⟩ := hclean
        have hr0 := hinv.readBytes_nonneg
        obtain ⟨rr2, hg⟩ := getLastBytes_clean B rr1 lo (hi - lo) hinv1 (by rw [e4, hra]) c1
          (by omega) c3 (by omega) (by omega) c6
        rw [hg] at hrest
        simp only at hrest
        obtain ⟨f1, f2, _, _, _, _, _, f8, f9, f10, _⟩ := getLastBytes_fields hg
        have hinv2 : Inv B rr2 := getLastBytes_inv hinv1 c1 (by omega) (by omega) hg
        have hs2 : Settled rr2 := by
          unfold Settled at hs1 ⊢
          rw [f8, f9]; exact hs1
        have := ih rr2 (delivered ++ [(B.drop (rr1.prevReadBytes + lo).toNat).take
          (hi - lo).toNat]) hinv2 hs2 (by rw [f8, e4, hra]) (by rw [f1, f2]) hrest
        simp only [hg, Option.isSome_none, Bool.false_eq_true, if_false, Option.getD_some]
        rw [this, f10, e3]
        have q1 : rr2.readBytes.toNat = ((rr.readBytes.toNat : Int) + hi).toNat := by
          rw [f1, e2, hpos]; congr 1; omega
        have q2 : (rr1.prevReadBytes + lo).toNat = ((rr.readBytes.toNat : Int) + lo).toNat := by
          rw [e2, hpos]; congr 1; omega
        rw [q1, q2]

/-! ## The later claims -/

/-! ### C11 -/

/-- C11: in a cursor state with `0 <= r <= w <= len(buf)` and an unread span smaller than `buf`.
(a) When the next 100 reads of the source give zero bytes and no error, `fill` returns after
exactly these 100 reads (the script is left at what follows them) with `io.ErrNoProgress`
latched and `sourceReadBytes` unchanged, and on a drained buffer the next `ReadRune` returns
`(0, 0, io.ErrNoProgress)`.  (b) When fewer than 100 such reads are followed by a read that
gives a byte or an error, `fill` stops at that read: the source is left right after it, the
latched signal is that read's error (the old one when it gave none, so `io.ErrNoProgress` is
not latched), and `sourceReadBytes` grows by the bytes it gave. -/
theorem fill_no_progress (rr : RegexReader) (h0 : 0 ≤ rr.r) (h1 : rr.r ≤ rr.w)
    (h2 : rr.w ≤ rr.buf.length) (hp : rr.prevBuf.length = rr.buf.length)
    (hroom : rr.w - rr.r < rr.buf.length) :
    (∀ rest, rr.rd.script = List.replicate 100 emptyRead ++ rest →
        ∃ rr', fill rr = .ok rr' ∧ rr'.err = some Error.ErrNoProgress
          ∧ rr'.rd.script = rest ∧ rr'.sourceReadBytes = rr.sourceReadBytes
          ∧ rr'.w - rr'.r = rr.w - rr.r
          ∧ (rr.r = rr.w → ReadRune rr'
              = .ok ((0, 0, some Error.ErrNoProgress), { rr' with err := none })))
      ∧ (∀ k tail, k < 100 → rr.rd.script = List.replicate k emptyRead ++ tail →
          ((({ rr.rd with script := tail } : Source).Read
            (rr.buf.length - (rr.w - rr.r).toNat)).1.1 ≠ []
            ∨ (({ rr.rd with script := tail } : Source).Read
              (rr.buf.length - (rr.w - rr.r).toNat)).1.2.isSome) →
          ∃ rr', fill rr = .ok rr'
            ∧ rr'.rd = (({ rr.rd with script := tail } : Source).Read
                (rr.buf.length - (rr.w - rr.r).toNat)).2
            ∧ rr'.err = (if (({ rr.rd with script := tail } : Source).Read
                  (rr.buf.length - (rr.w - rr.r).toNat)).1.2.isSome
                then (({ rr.rd with script := tail } : Source).Read
                  (rr.buf.length - (rr.w - rr.r).toNat)).1.2
                else rr.err)
            ∧ rr'.sourceReadBytes = rr.sourceReadBytes
                + (({ rr.rd with script := tail } : Source).Read
                  (rr.buf.length - (rr.w - rr.r).toNat)).1.1.length) := by
  obtain ⟨rn, hrn⟩ := Int.eq_ofNat_of_zero_le h0
  obtain ⟨wn, hwn⟩ := Int.eq_ofNat_of_zero_le (le_trans h0 h1)
  rw [hrn, hwn] at h1 hroom
  rw [hwn] at h2
  have hrw : rn ≤ wn := by omega
  have hwC : wn ≤ rr.buf.length := by omega
  have hf := fill_eq_readLoop rr rn wn hrn hwn hrw hwC hp (by omega)
  have hlen : ((rr.buf.take wn).drop rn ++ rr.buf.drop (wn - rn)).length = rr.buf.length := by
    simp; omega
  have e1 : (rr.w - rr.r).toNat = wn - rn := by omega
  constructor
  · intro rest hs
    rw [readLoop_skip_empty 100 100 ({ rr with
      prevBuf := (rr.prevBuf ++ rr.buf.take rn).drop rn
      buf := (rr.buf.take wn).drop rn ++ rr.buf.drop (wn - rn)
      w := ((wn - rn : Nat) : Int)
      r := 0 } : RegexReader) rest (wn - rn) rfl
      (le_of_le_of_eq (by omega) hlen.symm) hs le_rfl] at hf
    simp only [Nat.sub_self, fill.readLoop, pure, Except.pure] at hf
    refine ⟨_, hf, rfl, rfl, rfl, by simp only; omega, ?_⟩
    intro hdr
    have hz : wn - rn = 0 := by omega
    have hcap : 0 < rr.buf.length := by omega
    unfold ReadRune
    have hcond : ReadRune.cond { rr with
        rd := { rr.rd with script := rest }
        prevBuf := (rr.prevBuf ++ rr.buf.take rn).drop rn
        buf := (rr.buf.take wn).drop rn ++ rr.buf.drop (wn - rn)
        w := ((wn - rn : Nat) : Int)
        r := 0
        err := some Error.ErrNoProgress } = .ok false := by
      unfold ReadRune.cond
      simp only [hz, utf8.UTFMax]
      have : (0 : Int) + ((4 : Nat) : Int) > ((0 : Nat) : Int) := by decide
      simp only [this, if_true]
      rw [show ((0 : Nat) : Int) = 0 from rfl, show (0 : Int) = ((0 : Nat) : Int) from rfl,
        slice_ok _ 0 0 le_rfl (Nat.zero_le _)]
      simp [bind, Except.bind, pure, Except.pure]
    rw [loop_of_cond_false _ _ hcond]
    simp only [hz, bind, Except.bind, pure, Except.pure, readErr]
    rfl
  · intro k tail hk hs hres
    rw [readLoop_skip_empty k 100 ({ rr with
      prevBuf := (rr.prevBuf ++ rr.buf.take rn).drop rn
      buf := (rr.buf.take wn).drop rn ++ rr.buf.drop (wn - rn)
      w := ((wn - rn : Nat) : Int)
      r := 0 } : RegexReader) tail (wn - rn) rfl
      (le_of_le_of_eq (by omega) hlen.symm) hs (by omega)] at hf
    obtain ⟨m, hm⟩ : ∃ m, 100 - k = m + 1 := ⟨100 - k - 1, by omega⟩
    rw [hm, fill.readLoop] at hf
    simp only [sliceFrom_ok _ _ (show wn - rn ≤ ((rr.buf.take wn).drop rn
      ++ rr.buf.drop (wn - rn)).length by rw [hlen]; omega), bind, Except.bind,
      List.length_drop, hlen] at hf
    rw [e1] at hres ⊢
    by_cases herr : (({ rr.rd with script := tail } : Source).Read
        (rr.buf.length - (wn - rn))).1.2.isSome
    · simp only [herr, if_true, pure, Except.pure] at hf ⊢
      exact ⟨_, hf, rfl, rfl, rfl⟩
    · have hd : (({ rr.rd with script := tail } : Source).Read
          (rr.buf.length - (wn - rn))).1.1.length > 0 := by
        rcases hres with h | h
        · exact List.length_pos.mpr h
        · exact absurd h herr
      simp only [herr, Bool.false_eq_true, if_false, hd, if_true, pure, Except.pure] at hf ⊢
      exact ⟨_, hf, rfl, rfl, rfl⟩

/-- C11, witness: capacity 16, a source whose first hundred reads give nothing: the first `fill`
uses up exactly those hundred reads and latches `io.ErrNoProgress`, which the next `ReadRune`
returns. -/
theorem fill_no_progress_witness :
    ∃ rr', fill (NewRegexReaderSize stalled reRunA 16) = .ok rr'
      ∧ rr'.err = some Error.ErrNoProgress
      ∧ rr'.rd.script = [{ data := [0x61], err := none }]
      ∧ ReadRune rr' = .ok ((0, 0, some Error.ErrNoProgress), { rr' with err := none }) := by
  obtain ⟨rr', h1, h2, h3, _, _, h6⟩ :=
    (fill_no_progress (NewRegexReaderSize stalled reRunA 16) (by decide) (by decide) (by decide)
      (by decide) (by decide)).1 [{ data := [0x61], err := none }] rfl
  exact ⟨rr', h1, h2, h3, h6 rfl⟩

/-! ### C12 -/

/-- C12, counterexample: pattern `a+`, capacity 16.  (a) The 22-byte text
`bbbbbbbbbbbbbbbbbaabbb`: a reader over a pipe that gives the text in one write delivers the one
match `aa`; the push adapter fed three bytes per write returns no match and the rewind error,
because the third rune the engine reads after the match came with a refill.  (b) The 15-byte
text `bbbbbbbbbba_bbb`: the push adapter fed the text in one write delivers the byte 0 where a
reader over a file delivers `a`.  (c) The 21-byte text `bbbbbbbbbbbbbbbbaabbb`: written in one
piece it gives the match `aa`; after a hundred empty writes the reader gives up and the list
is empty. -/
theorem push_adapter_chunking_counterexample :
    midTextInThrees.flatten = midText
      ∧ (RegexWriter.FindAllMatches 40
          (RegexWriter.feed (NewRegexWriterSize reRunA 16) midTextInThrees)).map (fun x => x.1)
        = .ok ([], some (Error.negativeReadPosition (-2)))
      ∧ (FindAllMatches 40 (NewRegexReaderSize (pipe [midText]) reRunA 16)).map (fun x => x.1)
        = .ok ([[0x61, 0x61]], none)
      ∧ (RegexWriter.FindAllMatches 40
          (RegexWriter.feed (NewRegexWriterSize reRunA 16) [shortText])).map (fun x => x.1)
        = .ok ([[0]], none)
      ∧ (FindAllMatches 40 (NewRegexReaderSize (file shortText) reRunA 16)).map (fun x => x.1)
        = .ok ([[0x61]], none)
      ∧ (RegexWriter.FindAllMatches 40
          (RegexWriter.feed (NewRegexWriterSize reRunA 16) [tailText])).map (fun x => x.1)
        = .ok ([[0x61, 0x61]], none)
      ∧ (RegexWriter.FindAllMatches 40
          (RegexWriter.feed (NewRegexWriterSize reRunA 16)
            (List.replicate 100 [] ++ [tailText]))).map (fun x => x.1)
        = .ok ([], none) := by
  decide!

/-- C12, amended: for a fixed pattern and capacity, let the push adapter be fed `writes` and
closed, and let a `RegexReader` read the same bytes from a pipe that gives them in the pieces
`reads`.  When in neither sequence 100 empty pieces follow each other and both runs are clean
(every match found is no longer than `buf`, the rewind to its end stays within `buf`, and at
least `len(buf) + w` bytes have been read when it is extracted), the two calls of
`FindAllMatches` return the identical ordered list, and no error.  With too little fuel both
run out of it together. -/
theorem push_adapter_chunking_independent (re : Regexp) (size : Int) (fuel : Nat)
    (writes reads : List (List Byte)) (hsame : reads.flatten = writes.flatten)
    (hwb : WellBehaved (pipe writes).script) (hrb : WellBehaved (pipe reads).script)
    (hclean : CleanRun fuel (RegexWriter.feed (NewRegexWriterSize re size) writes).rd = true)
    (hcleanr : CleanRun fuel (NewRegexReaderSize (pipe reads) re size) = true) :
    (RegexWriter.FindAllMatches fuel
        (RegexWriter.feed (NewRegexWriterSize re size) writes)).map (fun x => x.1)
        = (FindAllMatches fuel (NewRegexReaderSize (pipe reads) re size)).map (fun x => x.1)
      ∧ ∀ list err rr', RegexWriter.FindAllMatches fuel
          (RegexWriter.feed (NewRegexWriterSize re size) writes) = .ok ((list, err), rr') →
        err = none := by
  have key : ∀ rs : List (List Byte), WellBehaved (pipe rs).script →
      CleanRun fuel (NewRegexReaderSize (pipe rs) re size) = true →
      (FindAllMatches fuel (NewRegexReaderSize (pipe rs) re size)).map (fun x => x.1)
        = (materialized.FindAll re fuel rs.flatten 0 []).map (fun found => (found, none)) := by
    intro rs h1 h2
    have := FindAllMatchesFunc_clean (remaining (pipe rs).script) fuel
      (NewRegexReaderSize (pipe rs) re size) [] (NewRegexReaderSize_inv _ _ _)
      ⟨h1, Or.inl rfl⟩ rfl rfl h2
    rw [remaining_pipe] at this
    exact this
  have hrd := feed_rd re size writes
  rw [hrd] at hclean
  have hw := key writes hwb hclean
  have hr := key reads hrb hcleanr
  unfold RegexWriter.FindAllMatches
  rw [hrd]
  refine ⟨by rw [hw, hr, hsame], ?_⟩
  intro list err rr' h
  rw [h] at hw
  cases hf : materialized.FindAll re fuel writes.flatten 0 [] with
  | error a => rw [hf] at hw; simp [Except.map] at hw
  | ok found =>
    rw [hf] at hw
    simp only [Except.map] at hw
    injection hw with hw
    injection hw with _ hw

/-- C12, witness: pattern `a+`, capacity 16, the 21-byte text `bbbbbbbbbbbbbbbbaabbb`: the push
adapter fed three bytes per write and a reader over a pipe that gives the text in one write
both deliver the one match `aa`. -/
theorem push_adapter_chunking_independent_witness :
    (RegexWriter.FindAllMatches 40
        (RegexWriter.feed (NewRegexWriterSize reRunA 16) tailTextInThrees)).map (fun x => x.1)
        = (FindAllMatches 40 (NewRegexReaderSize (pipe [tailText]) reRunA 16)).map (fun x => x.1)
      ∧ (FindAllMatches 40 (NewRegexReaderSize (pipe [tailText]) reRunA 16)).map (fun x => x.1)
        = .ok ([[0x61, 0x61]], none) :=
  ⟨(push_adapter_chunking_independent reRunA 16 40 tailTextInThrees [tailText] (by decide!)
      (by decide!) (by decide!) (by decide!) (by decide!)).1, by decide!⟩

/-! ### C13 -/

/-- C13: for every requested size, the cursor built by `NewRegexReaderSize` has `buf` and
`prevBuf` of length `max(size, 16)`, all offsets zero, nothing latched, and the given source;
`NewRegexReader` is `NewRegexReaderSize` with 4096; the inner readers of `NewRegexWriterSize`
and `NewRegexWriter` have the same capacities. -/
theorem constructors_capacity (r : Source) (pattern : Regexp) (size : Int) :
    ((NewRegexReaderSize r pattern size).buf.length : Int) = max size 16
      ∧ ((NewRegexReaderSize r pattern size).prevBuf.length : Int) = max size 16
      ∧ (NewRegexReaderSize r pattern size).sourceReadBytes = 0
      ∧ (NewRegexReaderSize r pattern size).readBytes = 0
      ∧ (NewRegexReaderSize r pattern size).prevReadBytes = 0
      ∧ (NewRegexReaderSize r pattern size).r = 0
      ∧ (NewRegexReaderSize r pattern size).w = 0
      ∧ (NewRegexReaderSize r pattern size).err = none
      ∧ (NewRegexReaderSize r pattern size).rd = r
      ∧ NewRegexReader r pattern = NewRegexReaderSize r pattern 4096
      ∧ ((NewRegexReader r pattern).buf.length : Int) = 4096
      ∧ ((NewRegexWriterSize pattern size).rd.buf.length : Int) = max size 16
      ∧ ((NewRegexWriterSize pattern size).rd.prevBuf.length : Int) = max size 16
      ∧ ((NewRegexWriter pattern).rd.buf.length : Int) = 4096
      ∧ ((NewRegexWriter pattern).rd.prevBuf.length : Int) = 4096 := by
  have key : ∀ s : Int, ((if s < minReadBufferSize then minReadBufferSize else s).toNat : Int)
      = max s 16 := by
    intro s
    simp only [minReadBufferSize]
    split_ifs <;> omega
  have key2 : ∀ s : Int, (if (if s < minReadBufferSize then minReadBufferSize else s)
      < minReadBufferSize then minReadBufferSize
      else (if s < minReadBufferSize then minReadBufferSize else s))
      = (if s < minReadBufferSize then minReadBufferSize else s) := by
    intro s
    simp only [minReadBufferSize]
    split_ifs <;> omega
  refine ⟨?_, ?_, rfl, rfl, rfl, rfl, rfl, rfl, rfl, rfl, ?_, ?_, ?_, ?_, ?_⟩
  · simp only [NewRegexReaderSize, List.length_replicate]; exact key size
  · simp only [NewRegexReaderSize, List.length_replicate]; exact key size
  · simp only [NewRegexReader, NewRegexReaderSize, List.length_replicate, defaultBufferSize]
    rw [key]; rfl
  · simp only [NewRegexWriterSize, NewRegexReaderSize, List.length_replicate, key2]; exact key size
  · simp only [NewRegexWriterSize, NewRegexReaderSize, List.length_replicate, key2]; exact key size
  · simp only [NewRegexWriter, NewRegexWriterSize, NewRegexReaderSize, List.length_replicate,
      key2, defaultBufferSize]
    rw [key]; rfl
  · simp only [NewRegexWriter, NewRegexWriterSize, NewRegexReaderSize, List.length_replicate,
      key2, defaultBufferSize]
    rw [key]; rfl

/-! ### C14 -/

/-- C14, counterexample: capacity 16, the sample handed out one byte per read, 25 runes decoded.
The offset 7 lies in the claimed range (`max(25 - 32, 0) = 0 <= 7 < 25`), the source byte there is
`@`, and neither `prevBuf` nor `buf` holds an `@`. -/
theorem window_range_counterexample :
    max ((stateAfter 25 (NewRegexReaderSize sampleBytewise reRunA 16)).sourceReadBytes
          - 2 * (stateAfter 25 (NewRegexReaderSize sampleBytewise reRunA 16)).buf.length) 0 ≤ 7
      ∧ 7 < (stateAfter 25 (NewRegexReaderSize sampleBytewise reRunA 16)).sourceReadBytes
      ∧ (remaining sampleBytewise.script).getD 7 0 = 0x40
      ∧ 0x40 ∉ (stateAfter 25 (NewRegexReaderSize sampleBytewise reRunA 16)).prevBuf
          ++ (stateAfter 25 (NewRegexReaderSize sampleBytewise reRunA 16)).buf := by
  decide!

/-- C14, amended: in every cursor state reached from a new `RegexReader` by `ReadRune` calls
(refills and decodes) and successful extractions, `prevBuf` followed by `buf[0:w]` ends with
exactly the source bytes of the absolute range from `bufLower()` to `sourceReadBytes`, in
order, where `bufLower()` is `max(sourceReadBytes - (len(buf) + w), 0)`: the range holds the
last `min(sourceReadBytes, len(buf) + w)` bytes read. -/
theorem window_holds_retained_range (src : Source) (re : Regexp) (size : Int) (rr : RegexReader)
    (hreach : Reachable (NewRegexReaderSize src re size) rr) :
    (rr.prevBuf ++ rr.buf.take rr.w.toNat).drop
        (rr.buf.length + rr.w.toNat - (rr.sourceReadBytes - bufLower rr).toNat)
      = ((remaining src.script).take rr.sourceReadBytes.toNat).drop (bufLower rr).toNat
      ∧ bufLower rr = max (rr.sourceReadBytes - (rr.buf.length + rr.w)) 0
      ∧ rr.sourceReadBytes - bufLower rr = min rr.sourceReadBytes (rr.buf.length + rr.w) := by
  have hinv := hreach.inv
  have g0 := hinv.r_nonneg
  have g1 := hinv.r_le_w
  have g2 := hinv.w_le_cap
  have g3 := hinv.w_le_srb
  have g4 := hinv.srb_le
  have hwin := hinv.window
  obtain ⟨wn, hwn⟩ := Int.eq_ofNat_of_zero_le (le_trans g0 g1)
  obtain ⟨sn, hsn⟩ := Int.eq_ofNat_of_zero_le (le_trans (le_trans g0 g1) g3)
  have hbl : bufLower rr = ((sn - (rr.buf.length + wn) : Nat) : Int) := by
    simp only [bufLower, hwn, hsn]
    omega
  refine ⟨?_, rfl, ?_⟩
  · rw [hwin, hbl, hwn, hsn]
    have e1 : ((sn : Int) - wn).toNat = sn - wn := by omega
    have e2 : ((sn : Int) - ((sn - (rr.buf.length + wn) : Nat) : Int)).toNat
        = sn - (sn - (rr.buf.length + wn)) := by omega
    simp only [Int.toNat_ofNat, e1, e2]
    have hz : (List.replicate rr.buf.length (0 : Byte)).length = rr.buf.length := by simp
    rw [List.drop_drop,
      show sn - wn + (rr.buf.length + wn - (sn - (sn - (rr.buf.length + wn))))
        = (List.replicate rr.buf.length (0 : Byte)).length + (sn - (rr.buf.length + wn)) by
          rw [hz]; omega,
      List.drop_append]
  · rw [hbl, hwn, hsn]
    omega

/-- C14, witness: capacity 16, the sample handed out one byte per read, 25 runes decoded: the
pair holds the source bytes of the offsets 8 to 25. -/
theorem window_holds_retained_range_witness :
    ((stateAfter 25 (NewRegexReaderSize sampleBytewise reRunA 16)).prevBuf
        ++ (stateAfter 25 (NewRegexReaderSize sampleBytewise reRunA 16)).buf.take
          (stateAfter 25 (NewRegexReaderSize sampleBytewise reRunA 16)).w.toNat).drop
        ((stateAfter 25 (NewRegexReaderSize sampleBytewise reRunA 16)).buf.length
          + (stateAfter 25 (NewRegexReaderSize sampleBytewise reRunA 16)).w.toNat
          - ((stateAfter 25 (NewRegexReaderSize sampleBytewise reRunA 16)).sourceReadBytes
            - bufLower (stateAfter 25 (NewRegexReaderSize sampleBytewise reRunA 16))).toNat)
      = ((remaining sampleBytewise.script).take
          (stateAfter 25 (NewRegexReaderSize sampleBytewise reRunA 16)).sourceReadBytes.toNat).drop
        (bufLower (stateAfter 25 (NewRegexReaderSize sampleBytewise reRunA 16))).toNat
      ∧ ((remaining sampleBytewise.script).take
          (stateAfter 25 (NewRegexReaderSize sampleBytewise reRunA 16)).sourceReadBytes.toNat).drop
        (bufLower (stateAfter 25 (NewRegexReaderSize sampleBytewise reRunA 16))).toNat
        = (sample.take 25).drop 8 :=
  ⟨(window_holds_retained_range sampleBytewise reRunA 16
    (stateAfter 25 (NewRegexReaderSize sampleBytewise reRunA 16)) (Reachable.of_stateAfter _ _)).1,
    by decide!⟩

/-! ### C15 -/

/-- C15, counterexample: capacity 16, the sample handed out one byte per read, 25 runes decoded
(`sourceReadBytes = 25`, `w = 1`): `bufLower()` returns 8, and `max(25 - 2*16, 0)` is 0. -/
theorem bufLower_counterexample :
    bufLower (stateAfter 25 (NewRegexReaderSize sampleBytewise reRunA 16)) = 8
      ∧ max ((stateAfter 25 (NewRegexReaderSize sampleBytewise reRunA 16)).sourceReadBytes
          - 2 * (stateAfter 25 (NewRegexReaderSize sampleBytewise reRunA 16)).buf.length) 0 = 0 := by
  decide!

/-- C15, amended: for every cursor state, `bufLower()` returns
`max(sourceReadBytes - (len(buf) + w), 0)` and `bufUpper()` returns `sourceReadBytes`; when
`buf` is full (`w = len(buf)`) the former is `max(sourceReadBytes - 2*len(buf), 0)`, and for a
full 100-byte buffer 150 bytes read give 0 and 250 bytes read give 50. -/
theorem bufLower_bufUpper_formula (rr : RegexReader) :
    bufLower rr = max (rr.sourceReadBytes - (rr.buf.length + rr.w)) 0
      ∧ bufUpper rr = rr.sourceReadBytes
      ∧ (rr.w = rr.buf.length → bufLower rr = max (rr.sourceReadBytes - 2 * rr.buf.length) 0)
      ∧ (rr.buf.length = 100 → rr.w = 100 → rr.sourceReadBytes = 150 → bufLower rr = 0)
      ∧ (rr.buf.length = 100 → rr.w = 100 → rr.sourceReadBytes = 250 → bufLower rr = 50) := by
  refine ⟨rfl, rfl, ?_, ?_, ?_⟩
  · intro h
    simp only [bufLower, h]
    congr 1
    omega
  · intro h1 h2 h3
    simp only [bufLower, h1, h2, h3]
    decide
  · intro h1 h2 h3
    simp only [bufLower, h1, h2, h3]
    decide

/-- C15, witness: capacity 16, the sample handed out one byte per read, 25 runes decoded:
`bufLower()` is `max(25 - (16 + 1), 0) = 8` and `bufUpper()` is 25. -/
theorem bufLower_bufUpper_formula_witness :
    bufLower (stateAfter 25 (NewRegexReaderSize sampleBytewise reRunA 16)) = 8
      ∧ bufUpper (stateAfter 25 (NewRegexReaderSize sampleBytewise reRunA 16)) = 25 :=
  ⟨(bufLower_bufUpper_formula (stateAfter 25 (NewRegexReaderSize sampleBytewise reRunA 16))).1.trans
      (by decide!),
    (bufLower_bufUpper_formula (stateAfter 25 (NewRegexReaderSize sampleBytewise reRunA 16))).2.1.trans
      (by decide!)⟩

/-! ### C16 -/

/-- C16: one call of `fill` from a state with `0 <= r <= w <= len(buf)`, `w - r < len(buf)` and
`prevBuf` as long as `buf` returns, and with `data` the bytes the source gave: `prevBuf`
followed by `buf[0:w]` afterwards is the same sequence before the call with its first `r` bytes
dropped, followed by `data`; the consumed prefix `buf[0:r]` is the tail of `prevBuf`, the unread bytes
`buf[r:w]` are at the front of `buf`, `r` is 0, and `w - (old w - old r)` and the increase of
`sourceReadBytes` both are the length of `data`. -/
theorem fill_preserves_history (rr : RegexReader) (h0 : 0 ≤ rr.r) (h1 : rr.r ≤ rr.w)
    (h2 : rr.w ≤ rr.buf.length) (hp : rr.prevBuf.length = rr.buf.length)
    (hroom : rr.w - rr.r < rr.buf.length) :
    ∃ data rr', fill rr = .ok rr'
      ∧ remaining rr.rd.script = data ++ remaining rr'.rd.script
      ∧ rr'.prevBuf ++ rr'.buf.take rr'.w.toNat
        = (rr.prevBuf ++ rr.buf.take rr.w.toNat).drop rr.r.toNat ++ data
      ∧ rr'.prevBuf.drop (rr.buf.length - rr.r.toNat) = rr.buf.take rr.r.toNat
      ∧ rr'.buf.take (rr.w - rr.r).toNat = (rr.buf.take rr.w.toNat).drop rr.r.toNat
      ∧ rr'.r = 0
      ∧ rr'.w - (rr.w - rr.r) = data.length
      ∧ rr'.sourceReadBytes - rr.sourceReadBytes = data.length
      ∧ rr'.buf.length = rr.buf.length ∧ rr'.prevBuf.length = rr.prevBuf.length := by
  obtain ⟨rn, hrn⟩ := Int.eq_ofNat_of_zero_le h0
  obtain ⟨wn, hwn⟩ := Int.eq_ofNat_of_zero_le (le_trans h0 h1)
  rw [hrn, hwn] at h1 hroom
  rw [hwn] at h2
  have hrw : rn ≤ wn := by omega
  have hwC : wn ≤ rr.buf.length := by omega
  obtain ⟨data, script', e', hf, hd, hs⟩ := fill_explicit rr rn wn hrn hwn hrw hwC hp (by omega)
  have hl : ((rr.buf.take wn).drop rn).length = wn - rn := by simp; omega
  refine ⟨data, _, hf, hs, ?_, ?_, ?_, rfl, ?_, ?_, ?_, ?_⟩
  · simp only [hrn, hwn, Int.toNat_ofNat]
    exact fill_window rr.prevBuf rr.buf data rn wn hrw hwC hp hd
  · simp only [hrn, Int.toNat_ofNat]
    rw [List.drop_append_of_le_length (by omega),
      List.drop_left' (by simp [hp])]
  · simp only [hrn, hwn, Int.toNat_ofNat]
    have e : ((wn : Int) - rn).toNat = wn - rn := by omega
    rw [e, writeAt, List.take_left' hl, List.take_left' hl]
  · simp only [hrn, hwn]; omega
  · simp only; omega
  · simp only [writeAt_length]
    simp; omega
  · simp only [List.length_drop, List.length_append, List.length_take]
    omega

/-- C16, witness: capacity 16, the sample read through a pipe, 16 runes decoded (`r = w = 16`):
the next `fill` moves the sixteen consumed bytes to `prevBuf` and reads sixteen more. -/
theorem fill_preserves_history_witness :
    ∃ data rr', fill (stateAfter 16 (NewRegexReaderSize (pipe [sample]) reRunA 16)) = .ok rr'
      ∧ rr'.prevBuf ++ rr'.buf.take rr'.w.toNat = sample.take 16 ++ data
      ∧ rr'.r = 0 ∧ rr'.w = data.length := by
  obtain ⟨data, rr', h1, _, h3, _, _, h6, h7, _⟩ :=
    fill_preserves_history (stateAfter 16 (NewRegexReaderSize (pipe [sample]) reRunA 16))
      (by decide!) (by decide!) (by decide!) (by decide!) (by decide!)
  refine ⟨data, rr', h1, ?_, h6, ?_⟩
  · have e : ((stateAfter 16 (NewRegexReaderSize (pipe [sample]) reRunA 16)).prevBuf
        ++ (stateAfter 16 (NewRegexReaderSize (pipe [sample]) reRunA 16)).buf.take
          (stateAfter 16 (NewRegexReaderSize (pipe [sample]) reRunA 16)).w.toNat).drop
        (stateAfter 16 (NewRegexReaderSize (pipe [sample]) reRunA 16)).r.toNat
        = sample.take 16 := by decide!
    rw [h3, e]
  · have : (stateAfter 16 (NewRegexReaderSize (pipe [sample]) reRunA 16)).w
        - (stateAfter 16 (NewRegexReaderSize (pipe [sample]) reRunA 16)).r = 0 := by decide!
    rw [this] at h7
    omega

/-! ### C17 -/

/-- C17: in every cursor state reached from a new `RegexReader` by `ReadRune`, `Read` and `fill`
calls and by successful extractions of matches that end at or before `readBytes`, over a source
whose reads give between 0 and `len(p)` bytes, `0 <= r <= w <= len(buf)` holds; in such a state
every `ReadRune` and every `Read` returns, and so does `fill` when the unread span is smaller
than the buffer. -/
theorem offsets_stay_in_bounds (src : Source) (re : Regexp) (size : Int) (rr : RegexReader)
    (h : Driven (NewRegexReaderSize src re size) rr) :
    0 ≤ rr.r ∧ rr.r ≤ rr.w ∧ rr.w ≤ rr.buf.length
      ∧ (∃ out rr', ReadRune rr = .ok (out, rr'))
      ∧ (∀ p, ∃ out rr', Read rr p = .ok (out, rr'))
      ∧ (rr.w - rr.r < rr.buf.length → ∃ rr', fill rr = .ok rr') := by
  have hb := h.bounds
  refine ⟨hb.r_nonneg, hb.r_le_w, hb.w_le_len, ?_, ?_, ?_⟩
  · obtain ⟨out, rr', h1, _⟩ := ReadRune_bounds rr hb
    exact ⟨out, rr', h1⟩
  · intro p
    obtain ⟨out, rr', h1, _⟩ := Read_bounds rr p hb
    exact ⟨out, rr', h1⟩
  · intro hroom
    obtain ⟨_, rr', h1, _⟩ := fill_bounds rr hb hroom
    exact ⟨rr', h1⟩

/-- C17, witness: capacity 16, the sample read through a pipe; after 20 runes and a `Read` of
five bytes the offsets are `r = 9` and `w = 16`. -/
theorem offsets_stay_in_bounds_witness :
    (afterRead (stateAfter 20 (NewRegexReaderSize (pipe [sample]) reRunA 16)) [0, 0, 0, 0, 0]).r = 9
      ∧ (afterRead (stateAfter 20 (NewRegexReaderSize (pipe [sample]) reRunA 16))
          [0, 0, 0, 0, 0]).w = 16
      ∧ (0 ≤ (afterRead (stateAfter 20 (NewRegexReaderSize (pipe [sample]) reRunA 16))
            [0, 0, 0, 0, 0]).r
        ∧ (afterRead (stateAfter 20 (NewRegexReaderSize (pipe [sample]) reRunA 16))
            [0, 0, 0, 0, 0]).r
          ≤ (afterRead (stateAfter 20 (NewRegexReaderSize (pipe [sample]) reRunA 16))
            [0, 0, 0, 0, 0]).w
        ∧ (afterRead (stateAfter 20 (NewRegexReaderSize (pipe [sample]) reRunA 16))
            [0, 0, 0, 0, 0]).w
          ≤ (afterRead (stateAfter 20 (NewRegexReaderSize (pipe [sample]) reRunA 16))
            [0, 0, 0, 0, 0]).buf.length) :=
  have hw := offsets_stay_in_bounds (pipe [sample]) reRunA 16
    (afterRead (stateAfter 20 (NewRegexReaderSize (pipe [sample]) reRunA 16)) [0, 0, 0, 0, 0])
    (Driven.of_afterRead _ (Reachable.of_stateAfter 20 _).driven)
  ⟨by decide!, by decide!, hw.1, hw.2.1, hw.2.2.1⟩

/-! ### C18 -/

/-- C18: the last match end `prevReadBytes` never decreases.  In every cursor state, a
`ReadRune`, a `Read` and a `fill` that return leave it unchanged, every call
`getLastBytes(n, l)` that returns, with or without an error, sets it to its old value plus
`n + l`, and over every sequence of such operations with `n` and `l` not negative its final
value is at least its first one. -/
theorem prevReadBytes_never_decreases (rr : RegexReader) :
    (∀ out rr', ReadRune rr = .ok (out, rr') → rr'.prevReadBytes = rr.prevReadBytes)
      ∧ (∀ p out rr', Read rr p = .ok (out, rr') → rr'.prevReadBytes = rr.prevReadBytes)
      ∧ (∀ rr', fill rr = .ok rr' → rr'.prevReadBytes = rr.prevReadBytes)
      ∧ (∀ n l res rr', getLastBytes rr n l = .ok (res, rr') →
          rr'.prevReadBytes = rr.prevReadBytes + n + l)
      ∧ (∀ rr', Relation.ReflTransGen Step rr rr' → rr.prevReadBytes ≤ rr'.prevReadBytes) := by
  refine ⟨fun out rr' h => ReadRune_prevReadBytes _ _ _ h,
    fun p out rr' h => Read_prevReadBytes _ _ _ _ h,
    fun rr' h => fill_prevReadBytes _ _ h,
    fun n l res rr' h => (getLastBytes_fields h).2.1, ?_⟩
  intro rr' h
  induction h with
  | refl => exact le_rfl
  | tail _ hs ih => exact le_trans ih hs.prevReadBytes_le

/-! ### C19 -/

/-- C19: in every cursor state reached from a new `RegexReader` by the operations, every
state in which `ReadRune` or `Read` calls `fill` has no latched signal and an unread span
`w - r` smaller than `len(buf)`; the compaction of `fill` then leaves `w < len(buf)` and the call
returns, and neither `ReadRune` nor `Read` ends in the fault "tried to fill full buffer". -/
theorem fill_called_with_room (src : Source) (re : Regexp) (size : Int) (rr : RegexReader)
    (h : Driven (NewRegexReaderSize src re size) rr) :
    (∀ s ∈ ReadRune.fillCalls utf8.UTFMax rr ++ Read.fillCalls rr,
        s.err = none ∧ s.w - s.r < s.buf.length
          ∧ (∃ s1, fill.compact s = .ok s1 ∧ s1.w < s1.buf.length)
          ∧ ∃ s2, fill s = .ok s2)
      ∧ ReadRune rr ≠ .error Abort.fillFullBuffer
      ∧ ∀ p, Read rr p ≠ .error Abort.fillFullBuffer := by
  have hb := h.bounds
  have key : ∀ s, Bounds s → s.err = none → s.w - s.r < s.buf.length →
      s.err = none ∧ s.w - s.r < s.buf.length
        ∧ (∃ s1, fill.compact s = .ok s1 ∧ s1.w < s1.buf.length)
        ∧ ∃ s2, fill s = .ok s2 := by
    intro s hs he hroom
    obtain ⟨_, s2, hf, _⟩ := fill_bounds s hs hroom
    exact ⟨he, hroom, compact_room s hs hroom, s2, hf⟩
  refine ⟨?_, ?_, ?_⟩
  · intro s hs
    rw [List.mem_append] at hs
    rcases hs with hs | hs
    · obtain ⟨h1, h2, h3⟩ := fillCalls_bounds _ rr hb s hs
      have hcap := h1.cap
      simp only [minReadBufferSize] at hcap
      exact key s h1 h2 (by omega)
    · unfold Read.fillCalls at hs
      split_ifs at hs with hrw herr
      · simp at hs
      · simp only [List.mem_singleton] at hs
        subst hs
        have hcap := hb.cap
        simp only [minReadBufferSize] at hcap
        refine key s hb ?_ (by omega)
        cases he : s.err with
        | none => rfl
        | some e => rw [he] at herr; simp at herr
      · simp at hs
  · obtain ⟨out, rr', h1, _⟩ := ReadRune_bounds rr hb
    rw [h1]
    simp
  · intro p
    obtain ⟨out, rr', h1, _⟩ := Read_bounds rr p hb
    rw [h1]
    simp

/-- C19, witness: capacity 16, the sample read through a pipe: on the new reader `ReadRune` calls
`fill` once and so does `Read`, both with nothing latched and an empty buffer. -/
theorem fill_called_with_room_witness :
    (ReadRune.fillCalls utf8.UTFMax (NewRegexReaderSize (pipe [sample]) reRunA 16)
        ++ Read.fillCalls (NewRegexReaderSize (pipe [sample]) reRunA 16)).length = 2
      ∧ ∀ s ∈ ReadRune.fillCalls utf8.UTFMax (NewRegexReaderSize (pipe [sample]) reRunA 16)
          ++ Read.fillCalls (NewRegexReaderSize (pipe [sample]) reRunA 16),
        s.err = none ∧ s.w - s.r < s.buf.length :=
  ⟨by decide!, fun s hs =>
    have t := (fill_called_with_room (pipe [sample]) reRunA 16
      (NewRegexReaderSize (pipe [sample]) reRunA 16) Driven.start).1 s hs
    ⟨t.1, t.2.1⟩⟩

/-! ### C20 -/

/-- C20: for every cursor state and every `(n, l)`, the two conditions `baseOffset >= len(buf)`
and `baseOffset < len(buf)` of `getLastBytes` cover all cases, so neither the window lookup nor
`getLastBytes` ever ends in the fault "Out of bounds match" of the final branch. -/
theorem window_never_out_of_bounds (rr : RegexReader) (n l : Int) :
    (n + rr.prevReadBytes - bufLower rr ≥ rr.buf.length
        ∨ n + rr.prevReadBytes - bufLower rr < rr.buf.length)
      ∧ (∀ a result, getLastBytes.window rr a l result ≠ .error Abort.outOfBoundsMatch)
      ∧ getLastBytes rr n l ≠ .error Abort.outOfBoundsMatch := by
  have hs : ∀ (s : List Byte) (lo hi : Int), slice s lo hi ≠ .error Abort.outOfBoundsMatch := by
    intro s lo hi
    unfold slice
    split_ifs <;> simp
  have hw : ∀ (rr : RegexReader) (a : Int) (result : List Byte),
      getLastBytes.window rr a l result ≠ .error Abort.outOfBoundsMatch := by
    intro rr a result h
    unfold getLastBytes.window at h
    simp only [bind, Except.bind, pure, Except.pure, sliceFrom, sliceTo] at h
    split_ifs at h with h1 h2 h3
    · split at h
      · rename_i e he
        injection h with h
        subst h
        exact hs _ _ _ he
      · simp at h
    · repeat' split at h
      all_goals first
        | (rename_i e he; injection h with h; subst h; exact hs _ _ _ he)
        | (simp at h)
    · repeat' split at h
      all_goals first
        | (rename_i e he; injection h with h; subst h; exact hs _ _ _ he)
        | (simp at h)
    · omega
  refine ⟨by omega, fun a result => hw rr a result, ?_⟩
  intro h
  unfold getLastBytes at h
  by_cases hneg : rr.r - (rr.readBytes - (n + rr.prevReadBytes + l)) < 0
  · simp only [resetReaderTo, hneg, if_true, Option.isSome_some, bind, Except.bind, pure,
      Except.pure] at h
    exact absurd h (by simp)
  · simp only [resetReaderTo, hneg, if_false, Option.isSome_none, Bool.false_eq_true, bind,
      Except.bind, pure, Except.pure] at h
    cases hm : makeBytes l with
    | error e =>
      rw [hm] at h
      unfold makeBytes at hm
      split_ifs at hm
      injection hm with hm
      subst hm
      exact absurd h (by simp)
    | ok result =>
      rw [hm] at h
      simp only at h
      split at h
      · exact absurd h (by simp)
      · split at h
        · rename_i e he
          injection h with h
          subst h
          exact hw _ _ _ he
        · exact absurd h (by simp)

end Streamregex
